import Mathlib

set_option linter.unusedSectionVars false
set_option linter.unusedVariables false

/-!
# A shallow embedding of the `nn` package of golang-neural

The Go code works on `float64` values through gonum's `mat` package.  Here the
scalars are an arbitrary linearly ordered field `R` (the rationals for
evaluation, the reals for the analytic statements), and the functions of Go's
`math` package that the code calls are passed as a record `MathLib R`.

* The scalars are exact: `float64` rounding, overflow to `±Inf` and NaN are outside
  the model, so a statement over `R` speaks of the code with its `float64` operations
  read as exact arithmetic.  The constant `0.000001` is its `float64` value
  (`minLearningRate`), and the NaN that `Test` computes as `0 / 0` on an empty dataset
  is the value `none`.
* `log.Fatal` and run-time panics are results `Except.error` of type `Failure`.
* Go `int` values are mathematical integers where the code compares, counts or indexes
  with them.  The products `r*c` that become the length of a slice (`newRandomWeights`,
  `mat.NewDense`) are taken with 64-bit wrap-around (`wrapInt`), and `make` panics on a
  negative length and on one above `maxFloat64s`; running out of memory below that
  limit is outside the model.
* The part of gonum's `mat` package that the code uses is modelled in the
  namespace `mat`, dimension checks included; a `*mat.VecDense` or `*mat.Dense`
  is modelled by its value, so distinct buffers never alias.
* An implementation of the interface `dataset.Dataset` is a record of functions on
  a state type; a loop that reads samples until `NextSample` returns nil takes a
  bound `fuel` on the number of samples and yields `none` when the bound is reached.
* The numbers that `rand.Shuffle` draws are a parameter, so every statement about
  `dataFetchAsync` holds for every outcome of the shuffles.  A channel is the
  sequence of values sent on it; the goroutine `dataFetchAsync` and the loop that
  receives from it share no other state, and the goroutine is run first.
* The library encoders behind `ToFile` and `FromFile` are parameters (`Encoding`).
-/

/-- Abnormal termination: `log.Fatal` (process exit) or a run-time panic. -/
inductive Failure where
  | fatal (msg : String)
  | panic (msg : String)
  deriving DecidableEq, Repr

/-- Functions of Go's `math` package used by the code. -/
structure MathLib (R : Type) where
  Exp : R → R
  Sinh : R → R
  Cosh : R → R
  Sqrt : R → R

/-- Go slice indexing `xs[i]` with its run-time bounds check. -/
def index {α : Type} (xs : List α) (i : Int) : Except Failure α :=
  if i < 0 then .error (.panic "index out of range")
  else match xs[i.toNat]? with
    | some x => .ok x
    | none => .error (.panic "index out of range")

/-- Go slice assignment `xs[i] = v` with its run-time bounds check. -/
def setIndex {α : Type} (xs : List α) (i : Int) (v : α) : Except Failure (List α) :=
  if i < 0 then .error (.panic "index out of range")
  else if i.toNat < xs.length then .ok (xs.set i.toNat v)
  else .error (.panic "index out of range")

/-- The value that Go's 64-bit `int` arithmetic gives to an expression whose
mathematical value is `z`: two's-complement wrap-around. -/
def wrapInt (z : Int) : Int :=
  (z + 9223372036854775808) % 18446744073709551616 - 9223372036854775808

/-- The largest length that `make([]float64, n)` accepts, `maxAlloc / 8 = 2^45` for the
`maxAlloc` of `2^48` bytes of the gc toolchain on linux/amd64; `make` panics for a
negative or a larger length. -/
def maxFloat64s : Int := 35184372088832

/-! ## gonum `mat` -/

namespace mat

/-- A `mat.VecDense`: a column vector. -/
abbrev VecDense (R : Type) := List R

/-- A `mat.Dense`: `rows × cols` entries stored row-major with stride `cols`. -/
structure Dense (R : Type) where
  rows : Nat
  cols : Nat
  data : List R
  deriving DecidableEq, Repr

/-- The values of gonum's `Matrix` interface that occur in the code: a dense
matrix, a vector seen as an `n × 1` matrix, and `T()` of either. -/
inductive Matrix (R : Type) where
  | dense (m : Dense R)
  | vec (v : VecDense R)
  | transpose (a : Matrix R)

def ErrShape : Failure := .panic "mat: dimension mismatch"
def ErrZeroLength : Failure := .panic "mat: zero length in matrix dimension"
def ErrNegativeDimension : Failure := .panic "mat: negative dimension"
def ErrRowAccess : Failure := .panic "mat: row index out of range"
def ErrVectorAccess : Failure := .panic "mat: vector index out of range"

variable {R : Type} [LinearOrderedField R]

/-- The method `Dims` of a `Matrix`; an empty vector reports `0, 0`. -/
def Matrix.Dims : Matrix R → Nat × Nat
  | .dense m => (m.rows, m.cols)
  | .vec v => if v.length = 0 then (0, 0) else (v.length, 1)
  | .transpose a => (a.Dims.2, a.Dims.1)

/-- The method `At` of a `Matrix`, read inside the bounds given by `Dims`. -/
def Matrix.At : Matrix R → Nat → Nat → R
  | .dense m, i, j => m.data.getD (i * m.cols + j) 0
  | .vec v, i, _ => v.getD i 0
  | .transpose a, i, j => a.At j i

/-- The `r × c` dense matrix with entries `f i j`. -/
def Dense.ofFn (r c : Nat) (f : Nat → Nat → R) : Dense R :=
  { rows := r, cols := c, data := (List.range (r * c)).map (fun k => f (k / c) (k % c)) }

/-- The test `IsEmpty` of a `Dense` (stride zero). -/
def Dense.IsEmpty (m : Dense R) : Bool := m.cols == 0

/-- The constructor `mat.NewDense(r, c, data)`; `none` is a nil `data`.  The product
`r*c` is a product of `int` values. -/
def NewDense (r c : Int) (data : Option (List R)) : Except Failure (Dense R) :=
  if r ≤ 0 ∨ c ≤ 0 then
    if r = 0 ∨ c = 0 then .error ErrZeroLength else .error ErrNegativeDimension
  else match data with
    | none =>
      if wrapInt (r * c) < 0 ∨ maxFloat64s < wrapInt (r * c) then
        .error (.panic "makeslice: len out of range")
      else
        .ok { rows := r.toNat, cols := c.toNat,
              data := List.replicate (wrapInt (r * c)).toNat 0 }
    | some d =>
      if wrapInt (r * c) ≠ (d.length : Int) then .error ErrShape
      else .ok { rows := r.toNat, cols := c.toNat, data := d }

/-- The constructor `mat.NewVecDense(n, data)`; `none` is a nil `data`.  In every call
of the code `n` is the number of rows of a layer, and the limit of `make` on a length
is modelled for the matrices only. -/
def NewVecDense (n : Int) (data : Option (List R)) : Except Failure (VecDense R) :=
  if n ≤ 0 then
    if n = 0 then .error ErrZeroLength else .error ErrNegativeDimension
  else match data with
    | none => .ok (List.replicate n.toNat 0)
    | some d => if (d.length : Int) ≠ n then .error ErrShape else .ok d

/-- The function `mat.VecDenseCopyOf`. -/
def VecDenseCopyOf (a : VecDense R) : VecDense R := a

/-- The receiver check `reuseAsNonZeroed(r)` of a `VecDense`. -/
def VecDense.reuseAsNonZeroed (v : VecDense R) (r : Nat) : Except Failure Unit :=
  if r = 0 then .error ErrZeroLength
  else if v.length = 0 then .ok ()
  else if r ≠ v.length then .error ErrShape
  else .ok ()

/-- The receiver check `reuseAsNonZeroed(r, c)` of a `Dense`. -/
def Dense.reuseAsNonZeroed (m : Dense R) (r c : Nat) : Except Failure Unit :=
  if r = 0 ∨ c = 0 then .error ErrZeroLength
  else if m.IsEmpty then .ok ()
  else if r ≠ m.rows ∨ c ≠ m.cols then .error ErrShape
  else .ok ()

/-- The method `v.MulVec(a, b)`: `v = a * b`. -/
def VecDense.MulVec (v : VecDense R) (a : Matrix R) (b : VecDense R) :
    Except Failure (VecDense R) :=
  if a.Dims.2 ≠ b.length then .error ErrShape
  else do
    VecDense.reuseAsNonZeroed v a.Dims.1
    pure ((List.range a.Dims.1).map fun i =>
      ((List.range a.Dims.2).map fun j => a.At i j * b.getD j 0).sum)

/-- The method `v.SubVec(a, b)`: `v = a - b`. -/
def VecDense.SubVec (v a b : VecDense R) : Except Failure (VecDense R) :=
  if a.length ≠ b.length then .error ErrShape
  else do
    VecDense.reuseAsNonZeroed v a.length
    pure ((List.range a.length).map fun i => a.getD i 0 - b.getD i 0)

/-- The method `v.AtVec(i)`. -/
def VecDense.AtVec (v : VecDense R) (i : Nat) : Except Failure R :=
  match v[i]? with
  | some x => .ok x
  | none => .error ErrRowAccess

/-- The method `v.SetVec(i, x)`. -/
def VecDense.SetVec (v : VecDense R) (i : Nat) (x : R) : Except Failure (VecDense R) :=
  if i < v.length then .ok (v.set i x) else .error ErrVectorAccess

/-- The function `mat.Max` on a vector. -/
def Max (v : VecDense R) : Except Failure R :=
  match v with
  | [] => .error ErrZeroLength
  | x :: xs => .ok (xs.foldl max x)

/-- The method `m.Mul(a, b)`: `m = a * b`. -/
def Dense.Mul (m : Dense R) (a b : Matrix R) : Except Failure (Dense R) :=
  if a.Dims.2 ≠ b.Dims.1 then .error ErrShape
  else do
    Dense.reuseAsNonZeroed m a.Dims.1 b.Dims.2
    pure (Dense.ofFn a.Dims.1 b.Dims.2 fun i j =>
      ((List.range a.Dims.2).map fun k => a.At i k * b.At k j).sum)

/-- The method `m.Scale(f, a)`: `m = f * a`. -/
def Dense.Scale (m : Dense R) (f : R) (a : Matrix R) : Except Failure (Dense R) := do
  Dense.reuseAsNonZeroed m a.Dims.1 a.Dims.2
  pure (Dense.ofFn a.Dims.1 a.Dims.2 fun i j => f * a.At i j)

/-- The method `m.Add(a, b)`: `m = a + b`. -/
def Dense.Add (m : Dense R) (a b : Matrix R) : Except Failure (Dense R) :=
  if a.Dims.1 ≠ b.Dims.1 ∨ a.Dims.2 ≠ b.Dims.2 then .error ErrShape
  else do
    Dense.reuseAsNonZeroed m a.Dims.1 a.Dims.2
    pure (Dense.ofFn a.Dims.1 a.Dims.2 fun i j => a.At i j + b.At i j)

end mat

/-! ## Package `nn`: activation functions -/

namespace nn

open mat

variable {R : Type} [LinearOrderedField R]

/-- The Go type `ActivationFunction`, an `int`. -/
abbrev ActivationFunction := Int

def Sigmoid : ActivationFunction := 0
def Tanh : ActivationFunction := 1
def Relu : ActivationFunction := 2
def LeakyRelu : ActivationFunction := 3
def SoftMax : ActivationFunction := 4

/-- A function of the Go type `activationFunction`, a procedure that rewrites a
vector in place; it is modelled by the vector it leaves behind. -/
abbrev VecProc (R : Type) := VecDense R → Except Failure (VecDense R)

/-- The loop `for i := 0; i < vec.Len(); i++ { vec.SetVec(i, f(vec.AtVec(i))) }`.
The index stays below `vec.Len()`, so `AtVec` and `SetVec` cannot fail. -/
def overwriteEach (f : R → R) (vec : VecDense R) : VecDense R :=
  (List.range vec.length).foldl (fun v i => v.set i (f (v.getD i 0))) vec

def sigmoid (M : MathLib R) : VecProc R := fun vec =>
  .ok (overwriteEach (fun x => 1 / (1 + M.Exp (-x))) vec)

def sigmoidD : R → R := fun sig => sig * (1 - sig)

/-- The function `tanh`: it stores the quotient `math.Sinh(x) / math.Cosh(x)`, not
`math.Tanh(x)`.  Over `float64` both `math.Sinh` and `math.Cosh` overflow to `±Inf` for
`|x|` above about 710 and the quotient is then NaN; the scalars `R` have no such
values. -/
def tanh (M : MathLib R) : VecProc R := fun vec =>
  .ok (overwriteEach (fun x => M.Sinh x / M.Cosh x) vec)

def tanhD : R → R := fun tan => 1 - (tan * tan)

def relu : VecProc R := fun vec =>
  .ok ((List.range vec.length).foldl
    (fun v i => if v.getD i 0 < 0 then v.set i 0 else v) vec)

def reluD : R → R := fun rel => if rel < 0 then 0 else 1

def lRelu : VecProc R := fun vec =>
  .ok ((List.range vec.length).foldl
    (fun v i => if v.getD i 0 < 0 then v.set i ((1 / 100) * v.getD i 0) else v) vec)

def lReluD : R → R := fun rel => if rel < 0 then 1 / 100 else 1

/-- The first loop of `softMax`: exponentiate in place and accumulate `sum`. -/
def softMaxExpLoop (M : MathLib R) (max : R) (vec : VecDense R) : VecDense R × R :=
  (List.range vec.length).foldl
    (fun (p : VecDense R × R) i =>
      let v := p.1.set i (M.Exp (p.1.getD i 0 - max))
      (v, p.2 + v.getD i 0))
    (vec, 0)

def softMax (M : MathLib R) : VecProc R := fun vec => do
  let max ← mat.Max vec
  let p := softMaxExpLoop M max vec
  pure (overwriteEach (fun x => x / p.2) p.1)

def softMaxD : R → R := fun sm => sm * (1 - sm)

/-- The values of the Go type `activationFunction`: the type is private to the
package, and these are the functions of that type which the package defines.
A nil function value is `none` of `Option activationFunction`. -/
inductive activationFunction where
  | sigmoid | tanh | relu | lRelu | softMax
  deriving DecidableEq, Repr

/-- The values of the Go type `activationFunctionD`, likewise. -/
inductive activationFunctionD where
  | sigmoidD | tanhD | reluD | lReluD | softMaxD
  deriving DecidableEq, Repr

/-- The code behind a function value of type `activationFunction`. -/
def activationFunction.call (M : MathLib R) : activationFunction → VecProc R
  | .sigmoid => nn.sigmoid M
  | .tanh => nn.tanh M
  | .relu => nn.relu
  | .lRelu => nn.lRelu
  | .softMax => nn.softMax M

/-- The code behind a function value of type `activationFunctionD`. -/
def activationFunctionD.call : activationFunctionD → R → R
  | .sigmoidD => nn.sigmoidD
  | .tanhD => nn.tanhD
  | .reluD => nn.reluD
  | .lReluD => nn.lReluD
  | .softMaxD => nn.softMaxD

/-- The method `Funcs`; `none` is a nil function value. -/
def ActivationFunction.Funcs (af : ActivationFunction) :
    Option activationFunction × Option activationFunctionD :=
  if af = Sigmoid then (some .sigmoid, some .sigmoidD)
  else if af = Tanh then (some .tanh, some .tanhD)
  else if af = Relu then (some .relu, some .reluD)
  else if af = LeakyRelu then (some .lRelu, some .lReluD)
  else if af = SoftMax then (some .softMax, some .softMaxD)
  else (none, none)

/-- A call of a function value of type `activationFunction`; calling nil panics. -/
def callActFunc (M : MathLib R) (f : Option activationFunction) (vec : VecDense R) :
    Except Failure (VecDense R) :=
  match f with
  | some g => g.call M vec
  | none => .error (.panic "invalid memory address or nil pointer dereference")

/-- A call of a function value of type `activationFunctionD`; calling nil panics. -/
def callDerivFunc (f : Option activationFunctionD) (x : R) : Except Failure R :=
  match f with
  | some g => .ok (g.call x)
  | none => .error (.panic "invalid memory address or nil pointer dereference")

/-! ## Package `nn`: the network -/

structure HiddenLayer where
  Nodes : Int
  ActivationFunc : ActivationFunction
  deriving DecidableEq, Repr

structure Settings (R : Type) where
  InputNodes : Int
  OutputNodes : Int
  LearningRate : R
  HiddenLayers : List HiddenLayer
  deriving DecidableEq, Repr

structure Weights (R : Type) where
  LNodes : Int
  RNodes : Int
  ActFunc : ActivationFunction
  m : Dense R
  actFunc : Option activationFunction
  derivFunc : Option activationFunctionD
  deriving DecidableEq, Repr

/-- The zero value of `Weights`, as `make([]Weights, n)` fills a slice. -/
def Weights.zero : Weights R :=
  { LNodes := 0, RNodes := 0, ActFunc := 0, m := ⟨0, 0, []⟩, actFunc := none, derivFunc := none }

/-- The function `newRandomWeights`.  `draws i` is the value that the `i`-th call of
`rand.NormFloat64()` returns after the reseeding at the top of the function.  The
length `rNodes*lNodes` and the sum `lNodes+rNodes` are `int` expressions. -/
def newRandomWeights (M : MathLib R) (draws : Nat → R) (lNodes rNodes : Int)
    (activationFunc : ActivationFunction) : Except Failure (Weights R) :=
  if wrapInt (rNodes * lNodes) < 0 ∨ maxFloat64s < wrapInt (rNodes * lNodes) then
    .error (.panic "makeslice: len out of range")
  else do
    let data := (List.range (wrapInt (rNodes * lNodes)).toNat).map fun i =>
      draws i * M.Sqrt (2 / (((wrapInt (lNodes + rNodes) : Int) : R)))
    let fs := ActivationFunction.Funcs activationFunc
    let m ← NewDense rNodes lNodes (some data)
    pure { LNodes := lNodes, RNodes := rNodes, ActFunc := activationFunc, m := m,
           actFunc := fs.1, derivFunc := fs.2 }

structure NeuralNetwork (R : Type) where
  InputNodes : Int
  OutputNodes : Int
  LearningRate : R
  weights : List (Weights R)
  deriving DecidableEq, Repr

/-- The body of the loop "init hidden-hidden weights" of `NewNeuralNetwork`. -/
def hiddenHiddenStep (M : MathLib R) (rng : Nat → Nat → R) (hs : List HiddenLayer)
    (ws : List (Weights R)) (i : Nat) : Except Failure (List (Weights R)) := do
  let hl ← index hs (i : Int)
  let lNodes := hl.Nodes
  let hr ← index hs ((i : Int) + 1)
  let rNodes := hr.Nodes
  let actFunc := hr.ActivationFunc
  let w ← newRandomWeights M (rng (i + 1)) lNodes rNodes actFunc
  setIndex ws ((i : Int) + 1) w

/-- The `float64` value of the constant `0.000001` in the comparison of
`NewNeuralNetwork`: the `float64` nearest to `1/1000000`, which is
`4722366482869645 / 2^72`, a little below `1/1000000`. -/
def minLearningRate : R := 4722366482869645 / 4722366482869645213696

/-- The function `NewNeuralNetwork`.  `rng k` is the stream of normal draws used by
the `k`-th call of `newRandomWeights` (each call reseeds the generator).
`LearningRate` is a `float64` that is a finite number: for NaN, which the model does
not have, both comparisons of the check are false. -/
def NewNeuralNetwork (M : MathLib R) (rng : Nat → Nat → R) (settings : Settings R) :
    Except Failure (NeuralNetwork R) :=
  if settings.InputNodes < 1 then .error (.fatal "Need at least 1 input node")
  else if settings.OutputNodes < 1 then .error (.fatal "Need at least 1 output node")
  else if settings.LearningRate > 100 ∨ settings.LearningRate < minLearningRate then
    .error (.fatal "Learning rate cannot be more than 100 or less than 0.000001")
  else if settings.HiddenLayers.length = 0 then
    .error (.fatal "Need at least one hidden layer")
  else do
    let ws0 : List (Weights R) := List.replicate (settings.HiddenLayers.length + 1) Weights.zero
    -- init input-hidden weights
    let h0 ← index settings.HiddenLayers 0
    let w0 ← newRandomWeights M (rng 0) settings.InputNodes h0.Nodes h0.ActivationFunc
    let ws1 ← setIndex ws0 0 w0
    -- init hidden-hidden weights
    let ws2 ← (List.range (settings.HiddenLayers.length - 1)).foldlM
      (hiddenHiddenStep M rng settings.HiddenLayers) ws1
    -- init hidden-output weights, use softmax
    let hl ← index settings.HiddenLayers ((settings.HiddenLayers.length : Int) - 1)
    let wl ← newRandomWeights M (rng settings.HiddenLayers.length) hl.Nodes
      settings.OutputNodes SoftMax
    let ws3 ← setIndex ws2 ((ws2.length : Int) - 1) wl
    pure { InputNodes := settings.InputNodes, OutputNodes := settings.OutputNodes,
           LearningRate := settings.LearningRate, weights := ws3 }

/-- The body of the loop of `FeedForward`. -/
def feedForwardStep (M : MathLib R) (hiddenInput : VecDense R) (w : Weights R) :
    Except Failure (VecDense R) := do
  let hiddenOutput ← NewVecDense w.RNodes none
  let hiddenOutput ← VecDense.MulVec hiddenOutput (.dense w.m) hiddenInput
  callActFunc M w.actFunc hiddenOutput

/-- The state that `FeedForward` can reach: the network behind the receiver, the
caller's input vector and the local `hiddenInput`. -/
structure FeedForwardState (R : Type) where
  nn : NeuralNetwork R
  input : VecDense R
  hiddenInput : VecDense R
  deriving DecidableEq, Repr

/-- One iteration of the loop of `FeedForward` on its state. -/
def FeedForwardState.step (M : MathLib R) (st : FeedForwardState R) (i : Nat) :
    Except Failure (FeedForwardState R) := do
  let w ← index st.nn.weights (i : Int)
  let hiddenOutput ← feedForwardStep M st.hiddenInput w
  pure { st with hiddenInput := hiddenOutput }

/-- The method `FeedForward` as a state transformer. -/
def FeedForwardRun (M : MathLib R) (nn : NeuralNetwork R) (input : VecDense R) :
    Except Failure (FeedForwardState R) :=
  if (input.length : Int) ≠ nn.InputNodes then
    .error (.fatal "Number of input values not equal to number of input nodes")
  else
    (List.range nn.weights.length).foldlM (FeedForwardState.step M)
      { nn := nn, input := input, hiddenInput := VecDenseCopyOf input }

/-- The method `FeedForward`: the value it returns. -/
def FeedForward (M : MathLib R) (nn : NeuralNetwork R) (input : VecDense R) :
    Except Failure (VecDense R) :=
  (FeedForwardRun M nn input).map (·.hiddenInput)

/-- The caller's vectors and scratch buffers together with the network, as one
call of `Train` sees them. -/
structure TrainState (R : Type) where
  nn : NeuralNetwork R
  input : VecDense R
  target : VecDense R
  outputs : List (VecDense R)
  errors : List (VecDense R)
  adjVec : List (VecDense R)
  weightDeltas : List (Dense R)
  deriving DecidableEq, Repr

/-- The body of the loop "Feed forward" of `Train`: it rewrites `outputs[i]`. -/
def trainForwardStep (M : MathLib R) (ws : List (Weights R)) (input : VecDense R)
    (outputs : List (VecDense R)) (i : Nat) : Except Failure (List (VecDense R)) := do
  let out ← index outputs (i : Int)
  let w ← index ws (i : Int)
  let out ← (if i > 0 then do
      let prev ← index outputs ((i : Int) - 1)
      VecDense.MulVec out (.dense w.m) prev
    else VecDense.MulVec out (.dense w.m) input)
  let out ← callActFunc M w.actFunc out
  setIndex outputs (i : Int) out

/-- The loop "Feed forward" of `Train`. -/
def trainForward (M : MathLib R) (ws : List (Weights R)) (input : VecDense R)
    (outputs : List (VecDense R)) : Except Failure (List (VecDense R)) :=
  (List.range ws.length).foldlM (trainForwardStep M ws input) outputs

/-- The body of the loop that propagates the errors backwards: it rewrites
`errors[i]`. -/
def trainErrorsStep (ws : List (Weights R)) (errors : List (VecDense R)) (i : Nat) :
    Except Failure (List (VecDense R)) := do
  let e ← index errors (i : Int)
  let w ← index ws ((i : Int) + 1)
  let next ← index errors ((i : Int) + 1)
  let e ← VecDense.MulVec e (.transpose (.dense w.m)) next
  setIndex errors (i : Int) e

/-- The part "Calulate errors" of `Train`. -/
def trainErrors (ws : List (Weights R)) (target : VecDense R)
    (outputs errors : List (VecDense R)) : Except Failure (List (VecDense R)) := do
  let last : Int := (ws.length : Int) - 1
  let e ← index errors last
  let o ← index outputs last
  let e ← VecDense.SubVec e target o
  let errors ← setIndex errors last e
  (List.range (ws.length - 1)).reverse.foldlM (trainErrorsStep ws) errors

/-- The body of the inner loop of "Update weights": it rewrites entry `j` of
`adjVec[i]`. -/
def trainAdjStep (ws : List (Weights R)) (outputs errors : List (VecDense R)) (i : Nat)
    (adjVec : List (VecDense R)) (j : Nat) : Except Failure (List (VecDense R)) := do
  let adj ← index adjVec (i : Int)
  let e ← index errors (i : Int)
  let ej ← VecDense.AtVec e j
  let w ← index ws (i : Int)
  let o ← index outputs (i : Int)
  let oj ← VecDense.AtVec o j
  let d ← callDerivFunc w.derivFunc oj
  let adj ← VecDense.SetVec adj j (ej * d)
  setIndex adjVec (i : Int) adj

/-- What the loop "Update weights" of `Train` rewrites. -/
structure UpdateState (R : Type) where
  weights : List (Weights R)
  adjVec : List (VecDense R)
  weightDeltas : List (Dense R)

/-- The body of the loop "Update weights" of `Train`. -/
def trainUpdateStep (learningRate : R) (input : VecDense R)
    (outputs errors : List (VecDense R)) (st : UpdateState R) (i : Nat) :
    Except Failure (UpdateState R) := do
  let o ← index outputs (i : Int)
  let adjVec ← (List.range o.length).foldlM (trainAdjStep st.weights outputs errors i) st.adjVec
  let wd ← index st.weightDeltas (i : Int)
  let adj ← index adjVec (i : Int)
  let wd ← (if i > 0 then do
      let prev ← index outputs ((i : Int) - 1)
      Dense.Mul wd (.vec adj) (.transpose (.vec prev))
    else Dense.Mul wd (.vec adj) (.transpose (.vec input)))
  let wd ← Dense.Scale wd learningRate (.dense wd)
  let weightDeltas ← setIndex st.weightDeltas (i : Int) wd
  let w ← index st.weights (i : Int)
  let m ← Dense.Add w.m (.dense w.m) (.dense wd)
  let weights ← setIndex st.weights (i : Int) { w with m := m }
  pure { weights := weights, adjVec := adjVec, weightDeltas := weightDeltas }

/-- The method `Train`. -/
def Train (M : MathLib R) (st : TrainState R) : Except Failure (TrainState R) := do
  -- Feed forward
  let outputs ← trainForward M st.nn.weights st.input st.outputs
  -- Calulate errors
  let errors ← trainErrors st.nn.weights st.target outputs st.errors
  -- Update weights
  let u ← (List.range st.nn.weights.length).reverse.foldlM
    (trainUpdateStep st.nn.LearningRate st.input outputs errors)
    { weights := st.nn.weights, adjVec := st.adjVec, weightDeltas := st.weightDeltas }
  pure { st with nn := { st.nn with weights := u.weights }, outputs := outputs,
                 errors := errors, adjVec := u.adjVec, weightDeltas := u.weightDeltas }

end nn

/-! ## Definitions used to state the properties -/

deriving instance DecidableEq for Except

/-- A result that is not a `log.Fatal` exit: a value or a run-time panic. -/
def NoFatal {α : Type} (x : Except Failure α) : Prop :=
  ∀ msg, x ≠ .error (.fatal msg)

namespace nn

open mat

variable {R : Type} [LinearOrderedField R]

/-- The matrix of a layer from `l` to `r` nodes can be allocated: the `int` product
`r*l` is a length that `make` accepts. -/
@[reducible] def Allocatable (l r : Int) : Prop :=
  0 ≤ wrapInt (r * l) ∧ wrapInt (r * l) ≤ maxFloat64s

/-- The sizes and the activation kind of layer `i` in the words of the
specification: `(left size, right size, activation kind)`. -/
def plannedLayer (s : Settings R) (i : Nat) : Int × Int × ActivationFunction :=
  ( if i = 0 then s.InputNodes else (s.HiddenLayers.getD (i - 1) ⟨0, 0⟩).Nodes,
    if i < s.HiddenLayers.length then (s.HiddenLayers.getD i ⟨0, 0⟩).Nodes else s.OutputNodes,
    if i < s.HiddenLayers.length then (s.HiddenLayers.getD i ⟨0, 0⟩).ActivationFunc
    else SoftMax )

/-- The layer `w` connects `l` nodes to `r` nodes with activation kind `a`: its
matrix has `r` rows and `l` columns over a slice of `r*l` entries, the product being
that of `int`, and its two functions are the pair that `Funcs` returns for `a`. -/
def Weights.Built (w : Weights R) (l r : Int) (a : ActivationFunction) : Prop :=
  w.LNodes = l ∧ w.RNodes = r ∧ w.ActFunc = a
    ∧ (w.m.rows : Int) = r ∧ (w.m.cols : Int) = l
    ∧ (w.m.data.length : Int) = wrapInt (r * l)
    ∧ (r * l < 9223372036854775808 → w.m.data.length = w.m.rows * w.m.cols)
    ∧ (w.actFunc, w.derivFunc) = ActivationFunction.Funcs a

/-- The product `W * a` of the specification: entry `i` is the sum over `j` of
`W[i][j] * a[j]`. -/
def matVec (W : Dense R) (a : VecDense R) : VecDense R :=
  (List.range W.rows).map fun i =>
    ((List.range W.cols).map fun j => W.data.getD (i * W.cols + j) 0 * a.getD j 0).sum

/-- The product `transpose(W) * e` of the specification: entry `j` is the sum over `i`
of `W[i][j] * e[i]`. -/
def matTVec (W : Dense R) (e : VecDense R) : VecDense R :=
  (List.range W.cols).map fun j =>
    ((List.range W.rows).map fun i => W.data.getD (i * W.cols + j) 0 * e.getD i 0).sum

/-- The difference `a - b` of two vectors, entry by entry. -/
def vecSub (a b : VecDense R) : VecDense R :=
  (List.range a.length).map fun i => a.getD i 0 - b.getD i 0

/-- The vector that enters layer `i`: `a_{i-1}`, where `a_{-1}` is the input. -/
def layerInput (input : VecDense R) (a : List (VecDense R)) (i : Nat) : VecDense R :=
  if i = 0 then input else a.getD (i - 1) []

/-- The list `a` holds the vectors `a_i = forward_i (W_i * a_{i-1})` of the layers
`i = 0..k`, starting from `a_{-1} = input`. -/
def IsForwardTrace (M : MathLib R) (ws : List (Weights R)) (input : VecDense R)
    (a : List (VecDense R)) : Prop :=
  a.length = ws.length ∧
  ∀ i w, ws[i]? = some w →
    callActFunc M w.actFunc (matVec w.m (layerInput input a i)) = .ok (a.getD i [])

/-- The list `e` holds the errors: `e_last = target - a_last` and
`e_i = transpose(W_{i+1}) * e_{i+1}` below the last layer. -/
def IsErrorTrace (ws : List (Weights R)) (target : VecDense R) (a e : List (VecDense R)) :
    Prop :=
  e.length = ws.length ∧
  e.getD (ws.length - 1) [] = vecSub target (a.getD (ws.length - 1) []) ∧
  ∀ i w, ws[i + 1]? = some w → e.getD i [] = matTVec w.m (e.getD (i + 1) [])

/-- The vector `adj` with `adj[j] = e[j] * d(o[j])`. -/
def adjustment (d : R → R) (e o : VecDense R) : VecDense R :=
  (List.range o.length).map fun j => e.getD j 0 * d (o.getD j 0)

/-- The matrix `lr * outer(adj, prev)`. -/
def scaledOuter (lr : R) (adj prev : VecDense R) : Dense R :=
  Dense.ofFn adj.length prev.length fun i j => lr * (adj.getD i 0 * prev.getD j 0)

/-- The matrix `W + lr * outer(adj, prev)`. -/
def updatedMatrix (W : Dense R) (lr : R) (adj prev : VecDense R) : Dense R :=
  Dense.ofFn W.rows W.cols fun i j =>
    W.data.getD (i * W.cols + j) 0 + lr * (adj.getD i 0 * prev.getD j 0)

/-- The derivative function of a layer, `derivative_i` of the specification; a layer
whose function value is nil has none, and `0` stands for its values. -/
def Weights.deriv (w : Weights R) (x : R) : R :=
  match w.derivFunc with
  | some d => d.call x
  | none => 0

/-- The adjustment vector of layer `i` given the outputs `a` and the errors `e`. -/
def layerAdjustment (ws : List (Weights R)) (a e : List (VecDense R)) (i : Nat) : VecDense R :=
  adjustment (ws.getD i Weights.zero).deriv (e.getD i []) (a.getD i [])

/-- The layers after one training step: layer `i` keeps its sizes, kind and functions,
and its matrix becomes `W_i + lr * outer(adj_i, prev_i)`. -/
def trainedWeights (lr : R) (ws : List (Weights R)) (input : VecDense R)
    (a e : List (VecDense R)) : List (Weights R) :=
  (List.range ws.length).map fun i =>
    { ws.getD i Weights.zero with
      m := updatedMatrix (ws.getD i Weights.zero).m lr (layerAdjustment ws a e i)
        (layerInput input a i) }

/-- The adjustment buffers after one training step. -/
def trainedAdjVec (ws : List (Weights R)) (a e : List (VecDense R)) : List (VecDense R) :=
  (List.range ws.length).map fun i => layerAdjustment ws a e i

/-- The weight-delta buffers after one training step. -/
def trainedWeightDeltas (lr : R) (ws : List (Weights R)) (input : VecDense R)
    (a e : List (VecDense R)) : List (Dense R) :=
  (List.range ws.length).map fun i =>
    scaledOuter lr (layerAdjustment ws a e i) (layerInput input a i)

/-- The data-model invariant of one layer: the matrix is a dense `RNodes × LNodes`
matrix and both function values are set. -/
@[reducible] def Weights.WellFormed (w : Weights R) : Prop :=
  (w.m.rows : Int) = w.RNodes ∧ (w.m.cols : Int) = w.LNodes ∧ 0 < w.m.rows ∧ 0 < w.m.cols
    ∧ w.m.data.length = w.m.rows * w.m.cols
    ∧ w.actFunc.isSome = true ∧ w.derivFunc.isSome = true

/-- The layer-dimension chain of a network: the first layer starts from `InputNodes`,
adjacent layers agree, and the last layer ends in `OutputNodes` with `SoftMax`. -/
@[reducible] def NeuralNetwork.Chain (nn : NeuralNetwork R) : Prop :=
  nn.weights.head?.map (·.LNodes) = some nn.InputNodes
    ∧ nn.weights.dropLast.map (·.RNodes) = nn.weights.tail.map (·.LNodes)
    ∧ nn.weights.getLast?.map (fun w => (w.RNodes, w.ActFunc)) = some (nn.OutputNodes, SoftMax)

/-- A well-formed network: the layer-dimension chain holds and every layer is
well formed. -/
@[reducible] def NeuralNetwork.WellFormed (nn : NeuralNetwork R) : Prop :=
  nn.Chain ∧ ∀ w ∈ nn.weights, w.WellFormed

/-- A well-formed call of `Train`: a well-formed network, an input of `InputNodes`
entries, a target of `OutputNodes` entries, and scratch buffers of the sizes that
`TrainWithDataset` allocates. -/
@[reducible] def TrainState.WellFormed (st : TrainState R) : Prop :=
  st.nn.WellFormed
    ∧ (st.input.length : Int) = st.nn.InputNodes
    ∧ (st.target.length : Int) = st.nn.OutputNodes
    ∧ st.outputs.map (fun o => (o.length : Int)) = st.nn.weights.map (·.RNodes)
    ∧ st.errors.map (fun o => (o.length : Int)) = st.nn.weights.map (·.RNodes)
    ∧ st.adjVec.map (fun o => (o.length : Int)) = st.nn.weights.map (·.RNodes)
    ∧ st.weightDeltas.map (fun d => ((d.rows : Int), (d.cols : Int), d.data.length))
        = st.nn.weights.map (fun w => (w.RNodes, w.LNodes, w.m.rows * w.m.cols))

/-! ### Values for evaluating examples -/

/-- Rational stand-ins for the functions of `math` (truncated series), used only
to evaluate the code on examples over the rationals. -/
def ratMath : MathLib ℚ :=
  ⟨fun x => 1 + x + x ^ 2 / 2, fun x => x + x ^ 3 / 6, fun x => 1 + x ^ 2 / 2,
   fun x => (1 + x) / 2⟩

/-- A fixed table standing for the normal draws in examples. -/
def rng0 : Nat → Nat → ℚ := fun k i => (k + 1 : ℚ) / (i + 2)

/-- Example settings: 2 inputs, one hidden layer of 2 sigmoid nodes, 2 outputs. -/
def settings0 : Settings ℚ := ⟨2, 2, 1 / 100, [⟨2, Sigmoid⟩]⟩

/-- The network that `NewNeuralNetwork` builds from `settings0` with `rng0`. -/
def network0 : NeuralNetwork ℚ :=
  ⟨2, 2, 1 / 100,
   [⟨2, 2, Sigmoid, ⟨2, 2, [3 / 8, 1 / 4, 3 / 16, 3 / 20]⟩, some .sigmoid, some .sigmoidD⟩,
    ⟨2, 2, SoftMax, ⟨2, 2, [3 / 4, 1 / 2, 3 / 8, 3 / 10]⟩, some .softMax, some .softMaxD⟩]⟩

/-- A well-formed call of `Train` on `network0`: input `[1, 2]`, target `[1, 0]` and
zeroed scratch buffers of the sizes of the layers. -/
def trainState0 : TrainState ℚ :=
  ⟨network0, [1, 2], [1, 0], [[0, 0], [0, 0]], [[0, 0], [0, 0]], [[0, 0], [0, 0]],
   [⟨2, 2, [0, 0, 0, 0]⟩, ⟨2, 2, [0, 0, 0, 0]⟩]⟩

/-- A well-formed call of `Train` on `network0` whose target is what `FeedForward`
returns on the input `[0, 0]`; the scratch buffers hold values left by an earlier
call. -/
def trainStateFixedPoint : TrainState ℚ :=
  ⟨network0, [0, 0], [12800 / 22449, 9649 / 22449], [[1, 2], [3, 4]], [[5, 6], [7, 8]],
   [[1, 1], [1, 1]], [⟨2, 2, [1, 2, 3, 4]⟩, ⟨2, 2, [5, 6, 7, 8]⟩]⟩

/-- Example settings that pass the four checks with a hidden layer of `-1` nodes. -/
def settingsNegativeHidden : Settings ℚ := ⟨1, 1, 1 / 100, [⟨-1, Sigmoid⟩]⟩

/-- Example settings whose hidden layer names the activation kind `7`, which is not
one of the five kinds of the package. -/
def settingsUnknownActivation : Settings ℚ := ⟨1, 1, 1 / 100, [⟨1, 7⟩]⟩

/-- The network that `NewNeuralNetwork` builds from `settingsUnknownActivation` with
`rng0`: the functions of its first layer are nil. -/
def networkNilActivation : NeuralNetwork ℚ :=
  ⟨1, 1, 1 / 100,
   [⟨1, 1, 7, ⟨1, 1, [1 / 2]⟩, none, none⟩,
    ⟨1, 1, SoftMax, ⟨1, 1, [1]⟩, some .softMax, some .softMaxD⟩]⟩

/-- Example settings with three hidden layers: 2 inputs, hidden layers of 3 `Tanh`,
1 `Relu` and 2 `LeakyRelu` nodes, 2 outputs. -/
def settingsDeep : Settings ℚ := ⟨2, 2, 1 / 100, [⟨3, Tanh⟩, ⟨1, Relu⟩, ⟨2, LeakyRelu⟩]⟩

/-- The network that `NewNeuralNetwork` builds from `settingsDeep` with `rng0`. -/
def networkDeep : NeuralNetwork ℚ :=
  ⟨2, 2, 1 / 100,
   [⟨2, 3, Tanh, ⟨3, 2, [7 / 20, 7 / 30, 7 / 40, 7 / 50, 7 / 60, 1 / 10]⟩,
      some .tanh, some .tanhD⟩,
    ⟨3, 1, Relu, ⟨1, 3, [3 / 4, 1 / 2, 3 / 8]⟩, some .relu, some .reluD⟩,
    ⟨1, 2, LeakyRelu, ⟨2, 1, [5 / 4, 5 / 6]⟩, some .lRelu, some .lReluD⟩,
    ⟨2, 2, SoftMax, ⟨2, 2, [3 / 2, 1, 3 / 4, 3 / 5]⟩, some .softMax, some .softMaxD⟩]⟩

/-- A network as `FromFile` builds it from a document whose only layer record says
`l_nodes = 2`, `r_nodes = 2` and carries a `3 × 3` matrix. -/
def networkWrongShape : NeuralNetwork ℚ :=
  ⟨2, 2, 1 / 100,
   [⟨2, 2, SoftMax, ⟨3, 3, [1, 0, 0, 0, 1, 0, 0, 0, 1]⟩, some .softMax, some .softMaxD⟩]⟩

end nn

/-! ## Package `nn`: persistence (`io.go`) -/

namespace nn

open mat

variable {R : Type} [LinearOrderedField R]

/-- The Go struct `wJSON`; `B` is the type of the byte blob in field `M`. -/
structure wJSON (B : Type) where
  LNodes : Int
  RNodes : Int
  ActFunc : ActivationFunction
  M : B
  deriving DecidableEq, Repr

/-- The Go struct `nnJSON`. -/
structure nnJSON (R B : Type) where
  InputNodes : Int
  OutputNodes : Int
  LearningRate : R
  Weights : List (wJSON B)
  deriving DecidableEq, Repr

/-- The library encoders that `io.go` calls: gonum's `MarshalBinary` and
`UnmarshalBinary` of a `mat.Dense` (into a blob of type `B`) and `json.Marshal` and
`json.Unmarshal` of an `nnJSON` (into a document of type `D`).  Each returns its
result or an error message. -/
structure Encoding (R B D : Type) where
  MarshalBinary : Dense R → Except String B
  UnmarshalBinary : B → Except String (Dense R)
  jsonMarshal : nnJSON R B → Except String D
  jsonUnmarshal : D → Except String (nnJSON R B)

/-- The files that `ioutil.WriteFile` and `ioutil.ReadFile` see: contents by name. -/
abbrev Files (D : Type) := String → Option D

/-- The call `ioutil.WriteFile(fileName, data, 0644)`. -/
def WriteFile {D : Type} (fs : Files D) (fileName : String) (data : D) :
    Except String (Files D) :=
  .ok fun n => if n = fileName then some data else fs n

/-- The call `ioutil.ReadFile(fileName)`. -/
def ReadFile {D : Type} (fs : Files D) (fileName : String) : Except String D :=
  match fs fileName with
  | some d => .ok d
  | none => .error "open: no such file or directory"

/-- The idiom `if err != nil { log.Fatal(err) }`. -/
def fatalOnError {α : Type} (x : Except String α) : Except Failure α :=
  match x with
  | .ok a => .ok a
  | .error msg => .error (.fatal msg)

/-- The body of the loop of `ToFile`: the record written for one layer. -/
def toWJSON {B D : Type} (E : Encoding R B D) (w : Weights R) : Except Failure (wJSON B) := do
  let b ← fatalOnError (E.MarshalBinary w.m)
  pure { LNodes := w.LNodes, RNodes := w.RNodes, ActFunc := w.ActFunc, M := b }

/-- The method `ToFile`.  Its loop fills slot `i` of a fresh slice from
`nn.weights[i]` for every `i`, which is `mapM` over the layers. -/
def ToFile {B D : Type} (E : Encoding R B D) (nn : NeuralNetwork R) (fileName : String)
    (fs : Files D) : Except Failure (Files D) := do
  let weights ← nn.weights.mapM (toWJSON E)
  let doc : nnJSON R B :=
    { InputNodes := nn.InputNodes, OutputNodes := nn.OutputNodes,
      LearningRate := nn.LearningRate, Weights := weights }
  let jsonByt ← fatalOnError (E.jsonMarshal doc)
  fatalOnError (WriteFile fs fileName jsonByt)

/-- The body of the loop of `FromFile`: the layer read from one record. -/
def fromWJSON {B D : Type} (E : Encoding R B D) (j : wJSON B) : Except Failure (Weights R) := do
  let w ← fatalOnError (E.UnmarshalBinary j.M)
  let fs := ActivationFunction.Funcs j.ActFunc
  pure { LNodes := j.LNodes, RNodes := j.RNodes, ActFunc := j.ActFunc, m := w,
         actFunc := fs.1, derivFunc := fs.2 }

/-- The function `FromFile`. -/
def FromFile {B D : Type} (E : Encoding R B D) (fileName : String) (fs : Files D) :
    Except Failure (NeuralNetwork R) := do
  let jsonByt ← fatalOnError (ReadFile fs fileName)
  let doc ← fatalOnError (E.jsonUnmarshal jsonByt)
  let weights ← doc.Weights.mapM (fromWJSON E)
  pure { InputNodes := doc.InputNodes, OutputNodes := doc.OutputNodes,
         LearningRate := doc.LearningRate, weights := weights }

end nn
namespace nn

open mat

variable {R : Type} [LinearOrderedField R]

/-- Every layer holds the two functions that `Funcs` returns for its activation kind,
as in every network that `NewNeuralNetwork` or `FromFile` builds. -/
@[reducible] def NeuralNetwork.Resolved (nn : NeuralNetwork R) : Prop :=
  ∀ w ∈ nn.weights, (w.actFunc, w.derivFunc) = ActivationFunction.Funcs w.ActFunc

/-- The encoders that write a value as itself, for evaluating examples. -/
def plainEncoding (R : Type) : Encoding R (Dense R) (nnJSON R (Dense R)) :=
  { MarshalBinary := fun m => .ok m, UnmarshalBinary := fun b => .ok b,
    jsonMarshal := fun d => .ok d, jsonUnmarshal := fun d => .ok d }

/-- A document whose first layer record names the activation kind `7`. -/
def documentUnknownActivation : nnJSON ℚ (Dense ℚ) :=
  { InputNodes := 1, OutputNodes := 1, LearningRate := 1 / 100,
    Weights := [⟨1, 1, 7, ⟨1, 1, [1 / 2]⟩⟩, ⟨1, 1, SoftMax, ⟨1, 1, [1]⟩⟩] }

/-- No files. -/
def noFiles (D : Type) : Files D := fun _ => none

end nn

namespace nn

open mat

variable {R : Type} [LinearOrderedField R]

/-- The scalar function that an activation procedure computes entry by entry: the
value it leaves in the one-entry vector `[t]`. -/
def scalarOf (f : VecProc R) (t : R) : R :=
  match f [t] with
  | .ok v => v.getD 0 0
  | .error _ => 0

end nn

namespace nn

open mat

variable {R : Type} [LinearOrderedField R]

/-- The local vector `hiddenInput` of `FeedForward` after `k` iterations of its loop:
for `k = i + 1` the intermediate activation vector of layer `i`. -/
def FeedForwardAfter (M : MathLib R) (nn : NeuralNetwork R) (input : VecDense R) (k : Nat) :
    Except Failure (VecDense R) :=
  ((List.range k).foldlM (FeedForwardState.step M)
    { nn := nn, input := input, hiddenInput := VecDenseCopyOf input }).map (·.hiddenInput)

/-- The network that `NewNeuralNetwork` builds with `rng0` for 2 inputs, one hidden
layer of 2 `Relu` nodes and 2 outputs. -/
def networkRelu : NeuralNetwork ℚ :=
  ⟨2, 2, 1 / 100,
   [⟨2, 2, Relu, ⟨2, 2, [3 / 8, 1 / 4, 3 / 16, 3 / 20]⟩, some .relu, some .reluD⟩,
    ⟨2, 2, SoftMax, ⟨2, 2, [3 / 4, 1 / 2, 3 / 8, 3 / 10]⟩, some .softMax, some .softMaxD⟩]⟩

/-- A well-formed call of `Train` on `networkRelu` whose input drives both hidden
nodes negative before the activation. -/
def trainStateRelu : TrainState ℚ :=
  ⟨networkRelu, [-1, 0], [1, 0], [[0, 0], [0, 0]], [[0, 0], [0, 0]], [[9, 9], [9, 9]],
   [⟨2, 2, [0, 0, 0, 0]⟩, ⟨2, 2, [0, 0, 0, 0]⟩]⟩

end nn

namespace nn

open mat

variable {R : Type} [LinearOrderedField R]

/-- What a call of `Train` leaves of a layer: its sizes, its activation kind, its two
function values and the shape of its matrix. -/
def Weights.frame (w : Weights R) :
    Int × Int × ActivationFunction × Option activationFunction × Option activationFunctionD
      × Nat × Nat :=
  (w.LNodes, w.RNodes, w.ActFunc, w.actFunc, w.derivFunc, w.m.rows, w.m.cols)

/-- The arguments of one call `nn.Train(input, target, outputs, errors, adjVec,
weightDeltas)`. -/
structure TrainCall (R : Type) where
  input : VecDense R
  target : VecDense R
  outputs : List (VecDense R)
  errors : List (VecDense R)
  adjVec : List (VecDense R)
  weightDeltas : List (Dense R)
  deriving DecidableEq, Repr

/-- A sequence of calls of `Train` on one network, each with its own arguments: the
network after the last call. -/
def TrainCalls (M : MathLib R) (nn : NeuralNetwork R) (calls : List (TrainCall R)) :
    Except Failure (NeuralNetwork R) :=
  calls.foldlM
    (fun nn c =>
      (Train M ⟨nn, c.input, c.target, c.outputs, c.errors, c.adjVec, c.weightDeltas⟩).map
        (·.nn))
    nn

/-- Two calls of `Train` on `network0`, the second with the buffers as the first one
left them. -/
def trainCalls0 : List (TrainCall ℚ) :=
  [⟨[1, 0], [0, 1], [[0, 0], [0, 0]], [[0, 0], [0, 0]], [[0, 0], [0, 0]],
    [⟨2, 2, [0, 0, 0, 0]⟩, ⟨2, 2, [0, 0, 0, 0]⟩]⟩,
   ⟨[0, 1], [1, 0], [[1, 2], [3, 4]], [[5, 6], [7, 8]], [[9, 9], [9, 9]],
    [⟨2, 2, [1, 1, 1, 1]⟩, ⟨2, 2, [2, 2, 2, 2]⟩]⟩]

end nn

/-! ## Package `dataset` -/

namespace dataset

open mat

/-- The Go struct `DataSample`. -/
structure DataSample (R : Type) where
  Label : Int
  InputVec : VecDense R
  TargetVec : VecDense R
  deriving DecidableEq, Repr

/-- An implementation of the Go interface `Dataset` whose state has type `σ`: the
methods `NextSample`, `Reset` and `Close` act on the state, `NumInputs` and `NumLabels`
read it.  A nil `*DataSample` is `none`. -/
structure Dataset (R σ : Type) where
  NumInputs : σ → Int
  NumLabels : σ → Int
  NextSample : σ → Option (DataSample R) × σ
  Reset : σ → σ
  Close : σ → σ

end dataset

/-! ## Library functions that the dataset code of `nn` calls -/

/-- The assignment `xs[i], xs[j] = xs[j], xs[i]` for indices inside the slice. -/
def swapAt {α : Type} (xs : List α) (i j : Nat) : List α :=
  match xs[i]?, xs[j]? with
  | some a, some b => (xs.set i b).set j a
  | _, _ => xs

namespace rand

/-- The function `rand.Shuffle(n, swap)` for `n ≥ 0`: for `i = n-1` down to `1` it
draws `j` with `0 ≤ j ≤ i` and calls `swap(i, j)`.  `draw i` stands for the number
drawn at index `i`; it is reduced into the range `[0, i]`. -/
def Shuffle {S : Type} (draw : Nat → Nat) (n : Nat) (swap : Nat → Nat → S → S) (s : S) : S :=
  ((List.range (n - 1)).map (· + 1)).reverse.foldl (fun s i => swap i (draw i % (i + 1)) s) s

end rand

namespace floats

variable {R : Type} [LinearOrderedField R]

/-- The loop of `floats.MaxIdx` on the values after the first: the running maximum,
its index, and the index of the next value. -/
def maxIdxLoop (s : List R) (max : R) (ind i : Nat) : R × Nat :=
  match s with
  | [] => (max, ind)
  | v :: vs => if v > max then maxIdxLoop vs v i (i + 1) else maxIdxLoop vs max ind (i + 1)

/-- The function `floats.MaxIdx`: the index of the first maximum of a non-empty
slice. -/
def MaxIdx (s : List R) : Except Failure Int :=
  match s with
  | [] => .error (.panic "floats: zero slice length")
  | x :: xs => .ok ((maxIdxLoop xs x 0 1).2 : Int)

end floats

namespace mat

variable {R : Type} [LinearOrderedField R]

def ErrColAccess : Failure := .panic "mat: column index out of range"
def ErrColLength : Failure := .panic "mat: col length mismatch"

/-- The function `mat.Col(dst, j, a)` for a non-nil `dst` and a vector `a`, whose
only column is column 0. -/
def Col (dst : List R) (j : Int) (a : VecDense R) : Except Failure (List R) :=
  if j < 0 ∨ j ≥ ((Matrix.vec a).Dims.2 : Int) then .error ErrColAccess
  else if dst.length ≠ (Matrix.vec a).Dims.1 then .error ErrColLength
  else .ok a

end mat

/-- A Go channel as the program sees it: the values sent on it so far, in order, and
whether it has been closed.  A send completes whenever the channel is open: the
receiver of `TrainWithDataset` takes every value that is sent. -/
structure Chan (α : Type) where
  sent : List α
  closed : Bool
  deriving DecidableEq, Repr

/-- The statement `ch <- v`. -/
def Chan.send {α : Type} (ch : Chan α) (v : α) : Except Failure (Chan α) :=
  if ch.closed then .error (.panic "send on closed channel")
  else .ok { ch with sent := ch.sent ++ [v] }

/-- The call `close(ch)`. -/
def Chan.close {α : Type} (ch : Chan α) : Except Failure (Chan α) :=
  if ch.closed then .error (.panic "close of closed channel")
  else .ok { ch with closed := true }

/-! ## Package `nn`: training and testing with a dataset -/

namespace nn

open mat dataset

variable {R : Type} [LinearOrderedField R] {σ : Type}

/-- The variables of `dataFetchAsync`: the dataset, the slice `samples`, the channel,
and the number of calls of `sendSamples` made so far. -/
structure FetchState (R σ : Type) where
  ds : σ
  samples : List (DataSample R)
  dataChan : Chan (DataSample R)
  sends : Nat
  deriving DecidableEq, Repr

/-- The closure `sendSamples` of `dataFetchAsync`: it shuffles `samples` in place and
sends them in their new order.  `draws k` are the numbers that the random source,
reseeded from the clock, gives to the `k`-th call. -/
def sendSamples (draws : Nat → Nat → Nat) (st : FetchState R σ) :
    Except Failure (FetchState R σ) := do
  let samples := rand.Shuffle (draws st.sends) st.samples.length
    (fun i j (xs : List (DataSample R)) => swapAt xs i j) st.samples
  let dataChan ← samples.foldlM Chan.send st.dataChan
  pure { st with samples := samples, dataChan := dataChan, sends := st.sends + 1 }

/-- The loop `for sample != nil` of `dataFetchAsync`, entered with the sample read
last; `none` is a run that is still reading after `fuel` samples. -/
def dataFetchLoop (ds : Dataset R σ) (draws : Nat → Nat → Nat) (size : Int) :
    Nat → Option (DataSample R) → FetchState R σ → Option (Except Failure (FetchState R σ))
  | _, none, st => some (.ok st)
  | 0, some _, _ => none
  | fuel + 1, some sample, st =>
    let st := { st with samples := st.samples ++ [sample] }
    match (if (st.samples.length : Int) = size then
        (sendSamples draws st).map fun st => { st with samples := [] }
      else .ok st) with
    | .error e => some (.error e)
    | .ok st =>
      let next := ds.NextSample st.ds
      dataFetchLoop ds draws size fuel next.1 { st with ds := next.2 }

/-- The function `dataFetchAsync`: the dataset and the channel as it leaves them. -/
def dataFetchAsync (ds : Dataset R σ) (draws : Nat → Nat → Nat) (s : σ)
    (dataChan : Chan (DataSample R)) (size : Int) (fuel : Nat) :
    Option (Except Failure (σ × Chan (DataSample R))) :=
  if size < 0 then some (.error (.panic "makeslice: cap out of range"))
  else
    let next := ds.NextSample s
    match dataFetchLoop ds draws size fuel next.1
        { ds := next.2, samples := [], dataChan := dataChan, sends := 0 } with
    | none => none
    | some (.error e) => some (.error e)
    | some (.ok st) =>
      some (do
        let st ← sendSamples draws st
        let dataChan ← st.dataChan.close
        pure (st.ds, dataChan))

/-- The scratch buffers of `Train`. -/
structure Buffers (R : Type) where
  outputs : List (VecDense R)
  errors : List (VecDense R)
  adjVec : List (VecDense R)
  weightDeltas : List (Dense R)
  deriving DecidableEq, Repr

/-- The body of the allocation loop of `TrainWithDataset` for one layer. -/
def allocLayer (w : Weights R) :
    Except Failure (VecDense R × VecDense R × VecDense R × Dense R) := do
  let o ← NewVecDense w.RNodes none
  let e ← NewVecDense w.RNodes none
  let a ← NewVecDense w.RNodes none
  let d ← NewDense w.RNodes w.LNodes none
  pure (o, e, a, d)

/-- The part "Allocate data" of `TrainWithDataset`. -/
def allocBuffers (nn : NeuralNetwork R) : Except Failure (Buffers R) := do
  let layers ← nn.weights.mapM allocLayer
  let errors := layers.map (·.2.1)
  let last ← NewVecDense nn.OutputNodes none
  let errors ← setIndex errors ((errors.length : Int) - 1) last
  pure { outputs := layers.map (·.1), errors := errors, adjVec := layers.map (·.2.2.1),
         weightDeltas := layers.map (·.2.2.2) }

/-- The loop `for sample := range dataChan` of `TrainWithDataset` over the samples
that the channel delivers. -/
def trainSamples (M : MathLib R) (nn : NeuralNetwork R) (b : Buffers R)
    (samples : List (DataSample R)) : Except Failure (NeuralNetwork R × Buffers R) :=
  samples.foldlM
    (fun (p : NeuralNetwork R × Buffers R) sample => do
      let st ← Train M ⟨p.1, sample.InputVec, sample.TargetVec, p.2.outputs, p.2.errors,
        p.2.adjVec, p.2.weightDeltas⟩
      pure (st.nn, ⟨st.outputs, st.errors, st.adjVec, st.weightDeltas⟩))
    (nn, b)

/-- One iteration of the loop over `it` of `TrainWithDataset`.  The goroutine
`dataFetchAsync` touches only the dataset and the channel and `Train` only the network
and the buffers, so the goroutine is run to its end first. -/
def trainEpoch (M : MathLib R) (ds : Dataset R σ) (draws : Nat → Nat → Nat)
    (batchSize : Int) (fuel : Nat) (w : NeuralNetwork R × Buffers R × σ) :
    Option (Except Failure (NeuralNetwork R × Buffers R × σ)) :=
  let s := ds.Reset w.2.2
  if batchSize < 0 then some (.error (.panic "makechan: size out of range"))
  else
    match dataFetchAsync ds draws s { sent := [], closed := false } batchSize fuel with
    | none => none
    | some (.error e) => some (.error e)
    | some (.ok (s1, dataChan)) =>
      some (do
        let p ← trainSamples M w.1 w.2.1 dataChan.sent
        pure (p.1, p.2, s1))

/-- The loop over `it` of `TrainWithDataset`. -/
def trainEpochs (M : MathLib R) (ds : Dataset R σ) (draws : Nat → Nat → Nat → Nat)
    (batchSize : Int) (fuel : Nat) :
    List Nat → NeuralNetwork R × Buffers R × σ →
      Option (Except Failure (NeuralNetwork R × Buffers R × σ))
  | [], w => some (.ok w)
  | it :: its, w =>
    match trainEpoch M ds (draws it) batchSize fuel w with
    | none => none
    | some (.error e) => some (.error e)
    | some (.ok w1) => trainEpochs M ds draws batchSize fuel its w1

/-- The method `TrainWithDataset`.  A run that stops carries the network and the
dataset as they are at that moment when the stop is not inside a call that was
changing them; `none` is a run in which some epoch is still reading after `fuel`
samples.  The progress lines that the method prints are left out. -/
def TrainWithDataset (M : MathLib R) (ds : Dataset R σ) (draws : Nat → Nat → Nat → Nat)
    (nn : NeuralNetwork R) (s : σ) (batchSize iterations : Int) (fuel : Nat) :
    Option (Except (Failure × Option (NeuralNetwork R × σ)) (NeuralNetwork R × σ)) :=
  if nn.InputNodes ≠ ds.NumInputs s then
    some (.error (.fatal "Number of inputs does not equal number of input nodes", some (nn, s)))
  else if nn.OutputNodes ≠ ds.NumLabels s then
    some (.error (.fatal "Number of labels does not equal number of output nodes", some (nn, s)))
  else if iterations < 1 then
    some (.error (.fatal "Number of iterations must be more than 0", some (nn, s)))
  else
    match allocBuffers nn with
    | .error e => some (.error (e, some (nn, s)))
    | .ok b =>
      match trainEpochs M ds draws batchSize fuel (List.range iterations.toNat) (nn, b, s) with
      | none => none
      | some (.error e) => some (.error (e, none))
      | some (.ok w) => some (.ok (w.1, ds.Close w.2.2))

/-- The variables of the loop of `Test`. -/
structure TestState (R σ : Type) where
  ds : σ
  results : List R
  labelResults : List Int
  rightCnt : Int
  wrongCnt : Int
  deriving DecidableEq, Repr

/-- The body of the loop of `Test` up to the next read. -/
def testSample (M : MathLib R) (nn : NeuralNetwork R) (sample : DataSample R)
    (st : TestState R σ) : Except Failure (TestState R σ) := do
  -- Query the network
  let outputVec ← FeedForward M nn sample.InputVec
  -- Find which result we got and add it to our array
  let results ← mat.Col st.results 0 outputVec
  let result ← floats.MaxIdx results
  let labelResults := st.labelResults ++ [result]
  if result = sample.Label then
    pure { st with results := results, labelResults := labelResults,
                   rightCnt := st.rightCnt + 1 }
  else
    pure { st with results := results, labelResults := labelResults,
                   wrongCnt := st.wrongCnt + 1 }

/-- The loop `for sample != nil` of `Test`, entered with the sample read last; `none`
is a run that is still reading after `fuel` samples. -/
def testLoop (M : MathLib R) (nn : NeuralNetwork R) (ds : Dataset R σ) :
    Nat → Option (DataSample R) → TestState R σ → Option (Except Failure (TestState R σ))
  | _, none, st => some (.ok st)
  | 0, some _, _ => none
  | fuel + 1, some sample, st =>
    match testSample M nn sample st with
    | .error e => some (.error e)
    | .ok st =>
      let next := ds.NextSample st.ds
      testLoop M nn ds fuel next.1 { st with ds := next.2 }

/-- What a call of `Test` that returns leaves behind: the labels it returns, the
number `res` that it prints as "Percent correct", and the dataset. The value `none` of
`res` is the NaN that the `float64` division `0 / 0` gives. -/
structure TestResult (R σ : Type) where
  labelResults : List Int
  res : Option R
  ds : σ
  deriving DecidableEq, Repr

/-- The method `Test`. -/
def Test (M : MathLib R) (nn : NeuralNetwork R) (ds : Dataset R σ) (s : σ) (fuel : Nat) :
    Option (Except Failure (TestResult R σ)) :=
  if nn.InputNodes ≠ ds.NumInputs s then
    some (.error (.fatal "Number of inputs does not equal number of input nodes"))
  else if nn.OutputNodes ≠ ds.NumLabels s then
    some (.error (.fatal "Number of labels does not equal number of output nodes"))
  else if nn.OutputNodes < 0 then some (.error (.panic "makeslice: len out of range"))
  else
    let next := ds.NextSample s
    match testLoop M nn ds fuel next.1
        { ds := next.2, results := List.replicate nn.OutputNodes.toNat 0, labelResults := [],
          rightCnt := 0, wrongCnt := 0 } with
    | none => none
    | some (.error e) => some (.error e)
    | some (.ok st) =>
      some (.ok { labelResults := st.labelResults,
                  res :=
                    if st.rightCnt + st.wrongCnt = 0 then none
                    else some ((st.rightCnt : R) / ((st.rightCnt + st.wrongCnt : Int) : R) * 100),
                  ds := ds.Close st.ds })

end nn

namespace dataset

open mat

variable {R : Type} {σ : Type}

/-- Read from the state `s` on, the dataset yields the samples `samples` and then is
exhausted: `NextSample` returns them in order and then returns nil. -/
def Dataset.yields (ds : Dataset R σ) : σ → List (DataSample R) → Prop
  | s, [] => (ds.NextSample s).1 = none
  | s, x :: xs => (ds.NextSample s).1 = some x ∧ ds.yields (ds.NextSample s).2 xs

/-- The state of a dataset kept in memory, for examples: the position of the next
sample and the numbers of calls of `Reset`, `NextSample` and `Close` so far. -/
structure Cursor where
  pos : Nat
  resets : Nat
  reads : Nat
  closes : Nat
  deriving DecidableEq, Repr

/-- A dataset kept in memory, for examples. -/
def listDataset (numInputs numLabels : Int) (samples : List (DataSample R)) :
    Dataset R Cursor :=
  { NumInputs := fun _ => numInputs
    NumLabels := fun _ => numLabels
    NextSample := fun s => (samples[s.pos]?, { s with pos := s.pos + 1, reads := s.reads + 1 })
    Reset := fun s => { s with pos := 0, resets := s.resets + 1 }
    Close := fun s => { s with closes := s.closes + 1 } }

end dataset

namespace nn

open mat dataset

variable {R : Type} [LinearOrderedField R]

/-- The number `label` is the index of the first maximum of `out`. -/
def IsFirstMaxIdx (out : List R) (label : Int) : Prop :=
  0 ≤ label ∧ label.toNat < out.length ∧ (∀ y ∈ out, y ≤ out.getD label.toNat 0)
    ∧ ∀ j, j < label.toNat → out.getD j 0 < out.getD label.toNat 0

/-- The number of samples whose label is the predicted one. -/
def correctCount (samples : List (DataSample R)) (labels : List Int) : Nat :=
  (List.zipWith (fun (sample : DataSample R) label => decide (label = sample.Label))
    samples labels).count true

/-- Three samples for a network with two inputs and two outputs. -/
def samples0 : List (DataSample ℚ) :=
  [⟨1, [1, 0], [0, 1]⟩, ⟨0, [0, 1], [1, 0]⟩, ⟨1, [1, 1], [0, 1]⟩]

/-- A sample with three input values. -/
def samplesLong : List (DataSample ℚ) := [⟨0, [1, 0, 0], [1, 0]⟩]

/-- A table standing for the numbers that the random source draws in examples. -/
def draws0 : Nat → Nat → Nat := fun k i => k + i + 1

end nn

namespace dataset

variable {R : Type} {σ : Type}

/-- The loop has read `next` last, and `rest` is what the dataset yields from `next`
on: nothing if `next` is nil, else `next` and then what it yields from the state
`s`. -/
def Dataset.yieldsAfter (ds : Dataset R σ) : Option (DataSample R) → σ →
    List (DataSample R) → Prop
  | none, _, rest => rest = []
  | some x, s, rest => ∃ xs, rest = x :: xs ∧ ds.yields s xs

end dataset

namespace nn

open mat

variable {R : Type} [LinearOrderedField R]

/-- The panic of a call through a nil function value. -/
def nilDereference : Failure := .panic "invalid memory address or nil pointer dereference"

/-- The matrix of the layer is a dense matrix of shape `RNodes × LNodes`. -/
@[reducible] def Weights.Shaped (w : Weights R) : Prop :=
  (w.m.rows : Int) = w.RNodes ∧ (w.m.cols : Int) = w.LNodes
    ∧ w.m.data.length = w.m.rows * w.m.cols

/-- The scratch buffers of the call have the sizes of the buffers `b`. -/
@[reducible] def TrainState.SizedAs (st : TrainState R) (b : Buffers R) : Prop :=
  st.outputs.map List.length = b.outputs.map List.length
    ∧ st.errors.map List.length = b.errors.map List.length
    ∧ st.adjVec.map List.length = b.adjVec.map List.length
    ∧ st.weightDeltas.map (fun d => (d.rows, d.cols))
        = b.weightDeltas.map (fun d => (d.rows, d.cols))

/-- The buffers that `TrainWithDataset` allocates for `networkNilActivation`. -/
def buffersNilActivation : Buffers ℚ :=
  ⟨[[0], [0]], [[0], [0]], [[0], [0]], [⟨1, 1, [0]⟩, ⟨1, 1, [0]⟩]⟩

/-- The buffers that `TrainWithDataset` allocates for `network0`. -/
def buffers0 : Buffers ℚ :=
  ⟨[[0, 0], [0, 0]], [[0, 0], [0, 0]], [[0, 0], [0, 0]],
   [⟨2, 2, [0, 0, 0, 0]⟩, ⟨2, 2, [0, 0, 0, 0]⟩]⟩

end nn

namespace nn

open mat

/-- A call of `Train` on `networkNilActivation` with freshly allocated buffers. -/
def trainStateNilActivation : TrainState ℚ :=
  ⟨networkNilActivation, [1], [1], [[0], [0]], [[0], [0]], [[0], [0]],
   [⟨1, 1, [0]⟩, ⟨1, 1, [0]⟩]⟩

end nn

/-! # Theorems -/

/-! ## Loop rules -/

section Loops

variable {σ : Type}

theorem except_ok_bind {α β : Type} (a : α) (f : α → Except Failure β) :
    (Except.ok a >>= f) = f a := rfl

theorem except_error_bind {α β : Type} (e : Failure) (f : α → Except Failure β) :
    ((Except.error e : Except Failure α) >>= f) = Except.error e := rfl

theorem except_bind_eq_ok {α β : Type} {x : Except Failure α} {f : α → Except Failure β}
    {b : β} (h : (x >>= f) = .ok b) : ∃ a, x = .ok a ∧ f a = .ok b := by
  cases x with
  | error e => simp [except_error_bind] at h
  | ok a => exact ⟨a, rfl, h⟩

theorem foldlM_range_succ (f : σ → Nat → Except Failure σ) (s : σ) (n : Nat) :
    (List.range (n + 1)).foldlM f s = ((List.range n).foldlM f s >>= fun t => f t n) := by
  rw [List.range_succ, List.foldlM_append]
  simp

theorem foldlM_range_reverse_succ (f : σ → Nat → Except Failure σ) (s : σ) (n : Nat) :
    (List.range (n + 1)).reverse.foldlM f s
      = (f s n >>= fun t => (List.range n).reverse.foldlM f t) := by
  rw [List.range_succ, List.reverse_append]
  simp

/-- An upward `for` loop that keeps an invariant runs to its end. -/
theorem forRange_ok (Inv : Nat → σ → Prop) (f : σ → Nat → Except Failure σ) (n : Nat) (s0 : σ)
    (h0 : Inv 0 s0)
    (hstep : ∀ i s, i < n → Inv i s → ∃ t, f s i = .ok t ∧ Inv (i + 1) t) :
    ∃ t, (List.range n).foldlM f s0 = .ok t ∧ Inv n t := by
  induction n with
  | zero => exact ⟨s0, rfl, h0⟩
  | succ n ih =>
    obtain ⟨t, ht, hInv⟩ := ih (fun i s hi => hstep i s (Nat.lt_succ_of_lt hi))
    obtain ⟨u, hu, hInv2⟩ := hstep n t (Nat.lt_succ_self n) hInv
    exact ⟨u, by rw [foldlM_range_succ, ht, except_ok_bind, hu], hInv2⟩

/-- An upward `for` loop that returned has kept every invariant its body keeps. -/
theorem forRange_of_ok (Inv : Nat → σ → Prop) (f : σ → Nat → Except Failure σ) (n : Nat)
    (s0 t : σ) (h0 : Inv 0 s0)
    (hstep : ∀ i s u, i < n → Inv i s → f s i = .ok u → Inv (i + 1) u)
    (h : (List.range n).foldlM f s0 = .ok t) : Inv n t := by
  induction n generalizing t with
  | zero =>
    simp [pure, Except.pure] at h
    exact h ▸ h0
  | succ n ih =>
    rw [foldlM_range_succ] at h
    obtain ⟨u, hu, hf⟩ := except_bind_eq_ok h
    exact hstep n u t (Nat.lt_succ_self n)
      (ih u (fun i s v hi => hstep i s v (Nat.lt_succ_of_lt hi)) hu) hf

/-- A downward `for` loop that keeps an invariant runs to its end. -/
theorem forDown_ok (Inv : Nat → σ → Prop) (f : σ → Nat → Except Failure σ) (n : Nat) (s0 : σ)
    (h0 : Inv n s0)
    (hstep : ∀ i s, i < n → Inv (i + 1) s → ∃ t, f s i = .ok t ∧ Inv i t) :
    ∃ t, (List.range n).reverse.foldlM f s0 = .ok t ∧ Inv 0 t := by
  induction n generalizing s0 with
  | zero => exact ⟨s0, rfl, h0⟩
  | succ n ih =>
    obtain ⟨u, hu, hInv⟩ := hstep n s0 (Nat.lt_succ_self n) h0
    obtain ⟨t, ht, hInv2⟩ := ih u hInv (fun i s hi => hstep i s (Nat.lt_succ_of_lt hi))
    exact ⟨t, by rw [foldlM_range_reverse_succ, hu, except_ok_bind, ht], hInv2⟩

end Loops

/-! ## Slice indexing -/

section Index

variable {α : Type}

theorem index_eq_ok {xs : List α} {z : Int} {x : α} (h : index xs z = .ok x) :
    0 ≤ z ∧ xs[z.toNat]? = some x := by
  unfold index at h
  split_ifs at h with hz
  refine ⟨by omega, ?_⟩
  cases hx : xs[z.toNat]? with
  | none => simp [hx] at h
  | some y => simp [hx] at h; rw [h]

theorem index_of_getElem? {xs : List α} {z : Int} {x : α} (hz : 0 ≤ z)
    (h : xs[z.toNat]? = some x) : index xs z = .ok x := by
  unfold index
  rw [if_neg (by omega), h]

theorem setIndex_eq_ok {xs ys : List α} {z : Int} {v : α} (h : setIndex xs z v = .ok ys) :
    0 ≤ z ∧ z.toNat < xs.length ∧ ys = xs.set z.toNat v := by
  unfold setIndex at h
  split_ifs at h with hz hlt
  refine ⟨by omega, hlt, ?_⟩
  simp at h
  exact h.symm

theorem setIndex_of_lt {xs : List α} {z : Int} (v : α) (hz : 0 ≤ z)
    (h : z.toNat < xs.length) : setIndex xs z v = .ok (xs.set z.toNat v) := by
  unfold setIndex
  rw [if_neg (by omega), if_pos h]

theorem index_nat {xs : List α} {i : Nat} (hi : i < xs.length) :
    index xs (i : Int) = .ok xs[i] :=
  index_of_getElem? (Int.natCast_nonneg i)
    (by rw [Int.toNat_ofNat]; exact List.getElem?_eq_getElem hi)

theorem index_nat_succ {xs : List α} {i : Nat} (hi : i + 1 < xs.length) :
    index xs ((i : Int) + 1) = .ok xs[i + 1] :=
  index_nat hi

theorem index_nat_pred {xs : List α} {i : Nat} (h0 : 0 < i) (hi : i - 1 < xs.length) :
    index xs ((i : Int) - 1) = .ok xs[i - 1] := by
  have e : ((i : Int) - 1) = ((i - 1 : Nat) : Int) := by omega
  rw [e]
  exact index_nat hi

theorem setIndex_nat {xs : List α} {i : Nat} (v : α) (hi : i < xs.length) :
    setIndex xs (i : Int) v = .ok (xs.set i v) := by
  have := @setIndex_of_lt α xs (i : Int) v (Int.natCast_nonneg i)
    (by rw [Int.toNat_ofNat]; exact hi)
  rwa [Int.toNat_ofNat] at this

theorem setIndex_nat_succ {xs : List α} {i : Nat} (v : α) (hi : i + 1 < xs.length) :
    setIndex xs ((i : Int) + 1) v = .ok (xs.set (i + 1) v) :=
  setIndex_nat v hi

theorem setIndex_nat_pred {xs : List α} {i : Nat} (v : α) (h0 : 0 < i) (hi : i - 1 < xs.length) :
    setIndex xs ((i : Int) - 1) v = .ok (xs.set (i - 1) v) := by
  have e : ((i : Int) - 1) = ((i - 1 : Nat) : Int) := by omega
  rw [e]
  exact setIndex_nat v hi

end Index

namespace nn
open mat
variable {R : Type} [LinearOrderedField R]

theorem NewDense_some_eq_ok {r c : Int} {d : List R} {m : Dense R}
    (h : NewDense r c (some d) = .ok m) :
    0 < r ∧ 0 < c ∧ wrapInt (r * c) = (d.length : Int) ∧ m = ⟨r.toNat, c.toNat, d⟩ := by
  unfold NewDense at h
  by_cases h1 : r ≤ 0 ∨ c ≤ 0
  · rw [if_pos h1] at h
    split_ifs at h
  · rw [if_neg h1] at h
    simp only at h
    by_cases h3 : wrapInt (r * c) ≠ (d.length : Int)
    · rw [if_pos h3] at h
      cases h
    · rw [if_neg h3] at h
      simp only [Except.ok.injEq] at h
      exact ⟨by omega, by omega, not_not.1 h3, h.symm⟩

theorem newRandomWeights_eq_ok {M : MathLib R} {draws : Nat → R} {l r : Int}
    {a : ActivationFunction} {w : Weights R} (h : newRandomWeights M draws l r a = .ok w) :
    0 < l ∧ 0 < r ∧ w.LNodes = l ∧ w.RNodes = r ∧ w.ActFunc = a
      ∧ (w.m.rows : Int) = r ∧ (w.m.cols : Int) = l
      ∧ (w.m.data.length : Int) = wrapInt (r * l)
      ∧ w.actFunc = (ActivationFunction.Funcs a).1
      ∧ w.derivFunc = (ActivationFunction.Funcs a).2 := by
  unfold newRandomWeights at h
  split_ifs at h with hneg
  obtain ⟨m, hm, h⟩ := except_bind_eq_ok h
  simp only [pure, Except.pure, Except.ok.injEq] at h
  obtain ⟨hr, hl, hlen, hm⟩ := NewDense_some_eq_ok hm
  subst hm
  subst h
  refine ⟨hl, hr, rfl, rfl, rfl, ?_, ?_, hlen.symm, rfl, rfl⟩
  · simp; omega
  · simp; omega

/-- An `int` product that has not overflowed is the product. -/
theorem wrapInt_of_lt {z : Int} (h0 : 0 ≤ z) (h1 : z < 9223372036854775808) : wrapInt z = z := by
  unfold wrapInt
  omega

/-- The matrix that `newRandomWeights` builds has `rows * cols` entries when the
product `rNodes*lNodes` has not overflowed. -/
theorem newRandomWeights_data_length {M : MathLib R} {draws : Nat → R} {l r : Int}
    {a : ActivationFunction} {w : Weights R} (h : newRandomWeights M draws l r a = .ok w)
    (hlt : r * l < 9223372036854775808) : w.m.data.length = w.m.rows * w.m.cols := by
  obtain ⟨hl, hr, -, -, -, hrows, hcols, hdata, -⟩ := newRandomWeights_eq_ok h
  have hrl : 0 ≤ r * l := by positivity
  rw [wrapInt_of_lt hrl hlt, ← hrows, ← hcols] at hdata
  exact_mod_cast hdata

theorem newRandomWeights_ok_of_pos (M : MathLib R) (draws : Nat → R) {l r : Int}
    (a : ActivationFunction) (hl : 0 < l) (hr : 0 < r) (hsize : Allocatable l r) :
    ∃ w, newRandomWeights M draws l r a = .ok w := by
  obtain ⟨h0, hmax⟩ := hsize
  unfold newRandomWeights NewDense
  rw [if_neg (by omega)]
  simp only [except_ok_bind, bind, Except.bind]
  rw [if_neg (by omega)]
  simp only [List.length_map, List.length_range]
  rw [if_neg (by rw [Int.toNat_of_nonneg h0]; simp)]
  exact ⟨_, rfl⟩

end nn

namespace nn
open mat
variable {R : Type} [LinearOrderedField R]

theorem hiddenHiddenStep_eq_ok {M : MathLib R} {rng : Nat → Nat → R} {s : Settings R}
    {ws u : List (Weights R)} {i : Nat}
    (h : hiddenHiddenStep M rng s.HiddenLayers ws i = .ok u) :
    i + 1 < s.HiddenLayers.length ∧ i + 1 < ws.length ∧
    ∃ w, u = ws.set (i + 1) w ∧
      newRandomWeights M (rng (i + 1)) (plannedLayer s (i + 1)).1 (plannedLayer s (i + 1)).2.1
        (plannedLayer s (i + 1)).2.2 = .ok w := by
  unfold hiddenHiddenStep at h
  obtain ⟨hl, hhl, h⟩ := except_bind_eq_ok h
  obtain ⟨hr, hhr, h⟩ := except_bind_eq_ok h
  obtain ⟨w, hw, h⟩ := except_bind_eq_ok h
  obtain ⟨-, hhl⟩ := index_eq_ok hhl
  obtain ⟨-, hhr⟩ := index_eq_ok hhr
  obtain ⟨-, hlt, hu⟩ := setIndex_eq_ok h
  have e1 : ((i : Int) + 1).toNat = i + 1 := by omega
  simp only [Int.toNat_ofNat, e1] at hhl hhr hlt hu
  have hi1 : i + 1 < s.HiddenLayers.length := (List.getElem?_eq_some_iff.1 hhr).1
  refine ⟨hi1, hlt, w, hu, ?_⟩
  simp only [plannedLayer, if_pos hi1, Nat.add_sub_cancel, List.getD_eq_getElem?_getD, hhl, hhr,
    Option.getD_some]
  simpa using hw

end nn

namespace nn
open mat
variable {R : Type} [LinearOrderedField R]

/-- What `NewNeuralNetwork` returns, layer by layer. -/
theorem NewNeuralNetwork_eq_ok {M : MathLib R} {rng : Nat → Nat → R} {s : Settings R}
    {nn : NeuralNetwork R} (h : NewNeuralNetwork M rng s = .ok nn) :
    (1 ≤ s.InputNodes ∧ 1 ≤ s.OutputNodes ∧ minLearningRate ≤ s.LearningRate
      ∧ s.LearningRate ≤ 100 ∧ s.HiddenLayers.length ≠ 0) ∧
    nn.InputNodes = s.InputNodes ∧ nn.OutputNodes = s.OutputNodes ∧
    nn.LearningRate = s.LearningRate ∧
    nn.weights.length = s.HiddenLayers.length + 1 ∧
    ∀ i, i ≤ s.HiddenLayers.length → ∃ w, nn.weights[i]? = some w ∧
      newRandomWeights M (rng i) (plannedLayer s i).1 (plannedLayer s i).2.1
        (plannedLayer s i).2.2 = .ok w := by
  unfold NewNeuralNetwork at h
  split_ifs at h with h1 h2 h3 h4
  obtain ⟨h0, hh0, h⟩ := except_bind_eq_ok h
  obtain ⟨w0, hw0, h⟩ := except_bind_eq_ok h
  obtain ⟨ws1, hws1, h⟩ := except_bind_eq_ok h
  obtain ⟨ws2, hws2, h⟩ := except_bind_eq_ok h
  obtain ⟨hl, hhl, h⟩ := except_bind_eq_ok h
  obtain ⟨wl, hwl, h⟩ := except_bind_eq_ok h
  obtain ⟨ws3, hws3, h⟩ := except_bind_eq_ok h
  simp only [pure, Except.pure, Except.ok.injEq] at h
  subst h
  obtain ⟨-, hh0⟩ := index_eq_ok hh0
  obtain ⟨-, -, hws1⟩ := setIndex_eq_ok hws1
  obtain ⟨-, hhl⟩ := index_eq_ok hhl
  obtain ⟨-, hlt3, hws3⟩ := setIndex_eq_ok hws3
  simp only [Int.toNat_zero] at hh0 hws1
  have hk : 0 < s.HiddenLayers.length := Nat.pos_of_ne_zero h4
  -- the loop keeps the layers it has written
  have hloop := forRange_of_ok
    (fun i (ws : List (Weights R)) => ws.length = s.HiddenLayers.length + 1 ∧
      ∀ j, j ≤ i → ∃ w, ws[j]? = some w ∧
        newRandomWeights M (rng j) (plannedLayer s j).1 (plannedLayer s j).2.1
          (plannedLayer s j).2.2 = .ok w)
    (hiddenHiddenStep M rng s.HiddenLayers) (s.HiddenLayers.length - 1) ws1 ws2
    (by
      subst hws1
      refine ⟨by simp, ?_⟩
      intro j hj
      have hj0 : j = 0 := by omega
      subst hj0
      refine ⟨w0, by simp, ?_⟩
      simp only [plannedLayer, if_true, if_pos hk, List.getD_eq_getElem?_getD, hh0,
        Option.getD_some]
      exact hw0)
    (by
      intro i ws u hi hInv hstep
      obtain ⟨hlen, hInv⟩ := hInv
      obtain ⟨-, hlt, w, hu, hw⟩ := hiddenHiddenStep_eq_ok hstep
      subst hu
      refine ⟨by simp [hlen], ?_⟩
      intro j hj
      by_cases hji : j = i + 1
      · subst hji
        exact ⟨w, by simp [hlt], hw⟩
      · obtain ⟨w1, hw1, hw2⟩ := hInv j (by omega)
        refine ⟨w1, ?_, hw2⟩
        rw [List.getElem?_set_ne (Ne.symm hji)]
        exact hw1)
    hws2
  obtain ⟨hlen2, hInv⟩ := hloop
  have e1 : ((ws2.length : Int) - 1).toNat = s.HiddenLayers.length := by omega
  have e2 : ((s.HiddenLayers.length : Int) - 1).toNat = s.HiddenLayers.length - 1 := by omega
  rw [e1] at hws3 hlt3
  rw [e2] at hhl
  subst hws3
  refine ⟨⟨by omega, by omega, ?_, ?_, h4⟩, rfl, rfl, rfl, by simp [hlen2], ?_⟩
  · exact le_of_not_lt (fun hc => h3 (Or.inr hc))
  · exact le_of_not_lt (fun hc => h3 (Or.inl hc))
  · intro i hi
    by_cases hik : i = s.HiddenLayers.length
    · subst hik
      refine ⟨wl, by simp [hlen2], ?_⟩
      simp only [plannedLayer, if_neg (Nat.ne_of_gt hk), lt_irrefl, if_false,
        List.getD_eq_getElem?_getD, hhl, Option.getD_some]
      exact hwl
    · obtain ⟨w1, hw1, hw2⟩ := hInv i (by omega)
      refine ⟨w1, ?_, hw2⟩
      rw [List.getElem?_set_ne (Ne.symm hik)]
      exact hw1

end nn

/-! ## Results that are not `log.Fatal` exits -/

section NoFatalRules

variable {α β σ : Type}

theorem NoFatal.ok (a : α) : NoFatal (Except.ok a : Except Failure α) := by
  intro msg h
  cases h

theorem NoFatal.panic (m : String) : NoFatal (Except.error (.panic m) : Except Failure α) := by
  intro msg h
  cases h

theorem NoFatal.bind {x : Except Failure α} {f : α → Except Failure β} (hx : NoFatal x)
    (hf : ∀ a, NoFatal (f a)) : NoFatal (x >>= f) := by
  cases x with
  | error e =>
    intro msg h
    rw [except_error_bind] at h
    cases h
    exact hx msg rfl
  | ok a => exact hf a

theorem NoFatal.foldlM {f : σ → Nat → Except Failure σ} (hf : ∀ s i, NoFatal (f s i))
    (l : List Nat) (s : σ) : NoFatal (l.foldlM f s) := by
  induction l generalizing s with
  | nil => exact NoFatal.ok s
  | cons i l ih =>
    rw [List.foldlM_cons]
    exact NoFatal.bind (hf s i) ih

theorem NoFatal.map {x : Except Failure α} (g : α → β) (hx : NoFatal x) :
    NoFatal (x.map g) := by
  cases x with
  | error e =>
    intro msg h
    simp only [Except.map] at h
    cases h
    exact hx msg rfl
  | ok a => exact NoFatal.ok (g a)

theorem index_noFatal (xs : List α) (z : Int) : NoFatal (index xs z) := by
  unfold index
  split_ifs
  · exact NoFatal.panic _
  · cases xs[z.toNat]? with
    | none => exact NoFatal.panic _
    | some x => exact NoFatal.ok x

theorem setIndex_noFatal (xs : List α) (z : Int) (v : α) : NoFatal (setIndex xs z v) := by
  unfold setIndex
  split_ifs
  · exact NoFatal.panic _
  · exact NoFatal.ok _
  · exact NoFatal.panic _

end NoFatalRules

namespace nn
open mat
variable {R : Type} [LinearOrderedField R]

theorem NewDense_noFatal (r c : Int) (d : Option (List R)) : NoFatal (NewDense r c d) := by
  unfold NewDense
  by_cases h1 : r ≤ 0 ∨ c ≤ 0
  · rw [if_pos h1]
    split_ifs
    · exact NoFatal.panic _
    · exact NoFatal.panic _
  · rw [if_neg h1]
    cases d with
    | none =>
      simp only
      split_ifs
      · exact NoFatal.panic _
      · exact NoFatal.ok _
    | some d =>
      simp only
      split_ifs
      · exact NoFatal.panic _
      · exact NoFatal.ok _

theorem newRandomWeights_noFatal (M : MathLib R) (draws : Nat → R) (l r : Int)
    (a : ActivationFunction) : NoFatal (newRandomWeights M draws l r a) := by
  unfold newRandomWeights
  split_ifs
  · exact NoFatal.panic _
  · exact NoFatal.bind (NewDense_noFatal _ _ _) (fun m => NoFatal.ok _)

theorem hiddenHiddenStep_noFatal (M : MathLib R) (rng : Nat → Nat → R) (hs : List HiddenLayer)
    (ws : List (Weights R)) (i : Nat) : NoFatal (hiddenHiddenStep M rng hs ws i) := by
  unfold hiddenHiddenStep
  refine NoFatal.bind (index_noFatal _ _) (fun hl => ?_)
  refine NoFatal.bind (index_noFatal _ _) (fun hr => ?_)
  refine NoFatal.bind (newRandomWeights_noFatal _ _ _ _ _) (fun w => ?_)
  exact setIndex_noFatal _ _ _

/-- Once the four checks have passed, `NewNeuralNetwork` has no `log.Fatal` left. -/
theorem NewNeuralNetwork_noFatal_of_checks (M : MathLib R) (rng : Nat → Nat → R)
    (s : Settings R) (h1 : 1 ≤ s.InputNodes) (h2 : 1 ≤ s.OutputNodes)
    (h3 : minLearningRate ≤ s.LearningRate) (h4 : s.LearningRate ≤ 100)
    (h5 : s.HiddenLayers ≠ []) : NoFatal (NewNeuralNetwork M rng s) := by
  unfold NewNeuralNetwork
  rw [if_neg (by omega), if_neg (by omega),
    if_neg (by rintro (h | h) <;> [exact absurd h4 (not_le.2 h); exact absurd h3 (not_le.2 h)]),
    if_neg (by simpa using h5)]
  refine NoFatal.bind (index_noFatal _ _) (fun h0 => ?_)
  refine NoFatal.bind (newRandomWeights_noFatal _ _ _ _ _) (fun w0 => ?_)
  refine NoFatal.bind (setIndex_noFatal _ _ _) (fun ws1 => ?_)
  refine NoFatal.bind (NoFatal.foldlM (hiddenHiddenStep_noFatal M rng _) _ _) (fun ws2 => ?_)
  refine NoFatal.bind (index_noFatal _ _) (fun hl => ?_)
  refine NoFatal.bind (newRandomWeights_noFatal _ _ _ _ _) (fun wl => ?_)
  exact NoFatal.bind (setIndex_noFatal _ _ _) (fun ws3 => NoFatal.ok _)

/-- With the four checks passed, every hidden layer of at least one node and every
matrix of a length that `make` accepts, `NewNeuralNetwork` returns a network. -/
theorem NewNeuralNetwork_ok_of_checks (M : MathLib R) (rng : Nat → Nat → R)
    (s : Settings R) (h1 : 1 ≤ s.InputNodes) (h2 : 1 ≤ s.OutputNodes)
    (h3 : minLearningRate ≤ s.LearningRate) (h4 : s.LearningRate ≤ 100)
    (h5 : s.HiddenLayers ≠ []) (hpos : ∀ h ∈ s.HiddenLayers, 1 ≤ h.Nodes)
    (hsize : ∀ i, i ≤ s.HiddenLayers.length →
      Allocatable (plannedLayer s i).1 (plannedLayer s i).2.1) :
    ∃ nn, NewNeuralNetwork M rng s = .ok nn := by
  have hk : 0 < s.HiddenLayers.length := List.length_pos.2 h5
  have hsize0 : Allocatable s.InputNodes (s.HiddenLayers[0]).Nodes := by
    have := hsize 0 (Nat.zero_le _)
    simpa [plannedLayer, hk, List.getElem?_eq_getElem hk] using this
  have hsizeMid : ∀ i (hi : i + 1 < s.HiddenLayers.length),
      Allocatable (s.HiddenLayers[i]).Nodes (s.HiddenLayers[i + 1]).Nodes := by
    intro i hi
    have hi0 : i < s.HiddenLayers.length := by omega
    have := hsize (i + 1) (by omega)
    simpa [plannedLayer, hi, List.getElem?_eq_getElem hi, List.getElem?_eq_getElem hi0]
      using this
  have hsizeLast : Allocatable (s.HiddenLayers[s.HiddenLayers.length - 1]).Nodes
      s.OutputNodes := by
    have hkl : s.HiddenLayers.length - 1 < s.HiddenLayers.length := by omega
    have := hsize s.HiddenLayers.length (le_refl _)
    simpa [plannedLayer, Nat.ne_of_gt hk, List.getElem?_eq_getElem hkl] using this
  have hnodes : ∀ i (hi : i < s.HiddenLayers.length), 0 < (s.HiddenLayers[i]).Nodes :=
    fun i hi => by
      have := hpos _ (List.getElem_mem hi)
      omega
  unfold NewNeuralNetwork
  rw [if_neg (by omega), if_neg (by omega),
    if_neg (by rintro (h | h) <;> [exact absurd h4 (not_le.2 h); exact absurd h3 (not_le.2 h)]),
    if_neg (by omega)]
  have i0 : index s.HiddenLayers 0 = .ok s.HiddenLayers[0] := index_nat (i := 0) hk
  rw [i0, except_ok_bind]
  obtain ⟨w0, hw0⟩ := newRandomWeights_ok_of_pos M (rng 0) (s.HiddenLayers[0]).ActivationFunc
    (show (0 : Int) < s.InputNodes by omega) (hnodes 0 hk) hsize0
  have i1 : setIndex (List.replicate (s.HiddenLayers.length + 1) (Weights.zero : Weights R)) 0 w0
      = .ok ((List.replicate (s.HiddenLayers.length + 1) Weights.zero).set 0 w0) :=
    setIndex_nat (i := 0) w0 (by simp)
  rw [hw0, except_ok_bind, i1, except_ok_bind]
  obtain ⟨ws2, hws2, hlen2⟩ := forRange_ok
    (fun _ (ws : List (Weights R)) => ws.length = s.HiddenLayers.length + 1)
    (hiddenHiddenStep M rng s.HiddenLayers) (s.HiddenLayers.length - 1)
    ((List.replicate (s.HiddenLayers.length + 1) Weights.zero).set 0 w0)
    (by simp)
    (by
      intro i ws hi hlen
      unfold hiddenHiddenStep
      have hi0 : i < s.HiddenLayers.length := by omega
      have hi1 : i + 1 < s.HiddenLayers.length := by omega
      obtain ⟨w, hw⟩ := newRandomWeights_ok_of_pos M (rng (i + 1))
        (s.HiddenLayers[i + 1]).ActivationFunc (hnodes i hi0) (hnodes (i + 1) hi1)
        (hsizeMid i hi1)
      rw [index_nat hi0, except_ok_bind, index_nat_succ hi1, except_ok_bind]
      simp only []
      rw [hw, except_ok_bind, setIndex_nat_succ w (by omega)]
      exact ⟨_, rfl, by simp [hlen]⟩)
  rw [hws2, except_ok_bind]
  have hkl : s.HiddenLayers.length - 1 < s.HiddenLayers.length := by omega
  rw [index_nat_pred hk hkl, except_ok_bind]
  obtain ⟨wl, hwl⟩ := newRandomWeights_ok_of_pos M (rng s.HiddenLayers.length) SoftMax
    (hnodes (s.HiddenLayers.length - 1) hkl) (show (0 : Int) < s.OutputNodes by omega)
    hsizeLast
  rw [hwl, except_ok_bind, setIndex_nat_pred wl (by omega) (by omega), except_ok_bind]
  exact ⟨_, rfl⟩

end nn

namespace nn
open mat
variable {R : Type} [LinearOrderedField R]

theorem plannedLayer_chain (s : Settings R) (i : Nat) (hi : i < s.HiddenLayers.length) :
    (plannedLayer s i).2.1 = (plannedLayer s (i + 1)).1 := by
  simp [plannedLayer, hi]

/-- C1: a network returned by `NewNeuralNetwork` has `len(HiddenLayers) + 1` layers;
`weights[0].LNodes` is `InputNodes`, `weights[i].RNodes` is `weights[i+1].LNodes` for
every adjacent pair, and the last layer has `RNodes = OutputNodes` and
`ActFunc = SoftMax`. -/
theorem NewNeuralNetwork_dimension_chain (M : MathLib R) (rng : Nat → Nat → R)
    (s : Settings R) (nn : NeuralNetwork R) (h : NewNeuralNetwork M rng s = .ok nn) :
    nn.InputNodes = s.InputNodes ∧ nn.OutputNodes = s.OutputNodes ∧
    nn.weights.length = s.HiddenLayers.length + 1 ∧
    (∃ w, nn.weights[0]? = some w ∧ w.LNodes = s.InputNodes) ∧
    (∀ i, i + 1 < nn.weights.length →
      ∃ w v, nn.weights[i]? = some w ∧ nn.weights[i + 1]? = some v ∧ w.RNodes = v.LNodes) ∧
    (∃ w, nn.weights[nn.weights.length - 1]? = some w ∧ w.RNodes = s.OutputNodes
      ∧ w.ActFunc = SoftMax) := by
  obtain ⟨-, hin, hout, -, hlen, hlayers⟩ := NewNeuralNetwork_eq_ok h
  refine ⟨hin, hout, hlen, ?_, ?_, ?_⟩
  · obtain ⟨w, hw, hnew⟩ := hlayers 0 (Nat.zero_le _)
    obtain ⟨-, -, hL, -⟩ := newRandomWeights_eq_ok hnew
    exact ⟨w, hw, by simpa [plannedLayer] using hL⟩
  · intro i hi
    obtain ⟨w, hw, hnew⟩ := hlayers i (by omega)
    obtain ⟨v, hv, hnew2⟩ := hlayers (i + 1) (by omega)
    obtain ⟨-, -, -, hR, -⟩ := newRandomWeights_eq_ok hnew
    obtain ⟨-, -, hL, -⟩ := newRandomWeights_eq_ok hnew2
    exact ⟨w, v, hw, hv, by rw [hR, hL]; exact plannedLayer_chain s i (by omega)⟩
  · obtain ⟨w, hw, hnew⟩ := hlayers s.HiddenLayers.length (le_refl _)
    obtain ⟨-, -, -, hR, hA, -⟩ := newRandomWeights_eq_ok hnew
    refine ⟨w, by simpa [hlen] using hw, ?_, ?_⟩
    · simpa [plannedLayer] using hR
    · simpa [plannedLayer] using hA

/-- C1 witness: the network built from `settings0`. -/
theorem NewNeuralNetwork_dimension_chain_witness :
    NewNeuralNetwork ratMath rng0 settings0 = .ok network0 ∧
    (network0.InputNodes = settings0.InputNodes ∧ network0.OutputNodes = settings0.OutputNodes ∧
    network0.weights.length = settings0.HiddenLayers.length + 1 ∧
    (∃ w, network0.weights[0]? = some w ∧ w.LNodes = settings0.InputNodes) ∧
    (∀ i, i + 1 < network0.weights.length →
      ∃ w v, network0.weights[i]? = some w ∧ network0.weights[i + 1]? = some v
        ∧ w.RNodes = v.LNodes) ∧
    (∃ w, network0.weights[network0.weights.length - 1]? = some w
      ∧ w.RNodes = settings0.OutputNodes ∧ w.ActFunc = SoftMax)) :=
  ⟨by decide!, NewNeuralNetwork_dimension_chain ratMath rng0 settings0 network0 (by decide!)⟩

/-- C2 counterexample: settings whose only hidden layer has `-1` nodes pass the four
checks of `NewNeuralNetwork`, and the call neither reports a configuration error nor
returns a network: the allocation in `newRandomWeights` panics. -/
theorem NewNeuralNetwork_negative_hidden_panics :
    ¬ (settingsNegativeHidden.InputNodes < 1 ∨ settingsNegativeHidden.OutputNodes < 1
        ∨ settingsNegativeHidden.LearningRate < 1 / 1000000
        ∨ 100 < settingsNegativeHidden.LearningRate
        ∨ settingsNegativeHidden.HiddenLayers = []) ∧
    NewNeuralNetwork ratMath rng0 settingsNegativeHidden
      = .error (.panic "makeslice: len out of range") ∧
    ¬ ∃ nn, NewNeuralNetwork ratMath rng0 settingsNegativeHidden = .ok nn := by
  have h : NewNeuralNetwork ratMath rng0 settingsNegativeHidden
      = .error (.panic "makeslice: len out of range") := by decide!
  refine ⟨by decide!, h, ?_⟩
  rintro ⟨nn, hnn⟩
  rw [h] at hnn
  cases hnn

/-- C2 (amended): for a `LearningRate` that is a finite number, `NewNeuralNetwork`
stops with a configuration error (`log.Fatal`) exactly when `InputNodes < 1`, or
`OutputNodes < 1`, or `LearningRate > 100`, or `LearningRate` is below the `float64`
value of `0.000001`, or `HiddenLayers` is empty; for every other settings value whose
hidden layers all have at least one node and whose matrices all have a length
`RNodes*LNodes` that `make` accepts, it returns a network. -/
theorem NewNeuralNetwork_configuration_error (M : MathLib R) (rng : Nat → Nat → R)
    (s : Settings R) :
    ((∃ msg, NewNeuralNetwork M rng s = .error (.fatal msg)) ↔
      (s.InputNodes < 1 ∨ s.OutputNodes < 1 ∨ s.LearningRate < minLearningRate
        ∨ 100 < s.LearningRate ∨ s.HiddenLayers = [])) ∧
    (¬ (s.InputNodes < 1 ∨ s.OutputNodes < 1 ∨ s.LearningRate < minLearningRate
        ∨ 100 < s.LearningRate ∨ s.HiddenLayers = []) →
      (∀ h ∈ s.HiddenLayers, 1 ≤ h.Nodes) →
      (∀ i, i ≤ s.HiddenLayers.length →
        Allocatable (plannedLayer s i).1 (plannedLayer s i).2.1) →
      ∃ nn, NewNeuralNetwork M rng s = .ok nn) := by
  have hvalid : ¬ (s.InputNodes < 1 ∨ s.OutputNodes < 1 ∨ s.LearningRate < minLearningRate
        ∨ 100 < s.LearningRate ∨ s.HiddenLayers = []) →
      1 ≤ s.InputNodes ∧ 1 ≤ s.OutputNodes ∧ minLearningRate ≤ s.LearningRate
        ∧ s.LearningRate ≤ 100 ∧ s.HiddenLayers ≠ [] := by
    intro hn
    simp only [not_or, not_lt] at hn
    exact hn
  constructor
  · constructor
    · rintro ⟨msg, hmsg⟩
      by_contra hn
      obtain ⟨h1, h2, h3, h4, h5⟩ := hvalid hn
      exact NewNeuralNetwork_noFatal_of_checks M rng s h1 h2 h3 h4 h5 msg hmsg
    · intro hbad
      unfold NewNeuralNetwork
      by_cases h1 : s.InputNodes < 1
      · exact ⟨_, by rw [if_pos h1]⟩
      rw [if_neg h1]
      by_cases h2 : s.OutputNodes < 1
      · exact ⟨_, by rw [if_pos h2]⟩
      rw [if_neg h2]
      by_cases h3 : s.LearningRate > 100 ∨ s.LearningRate < minLearningRate
      · exact ⟨_, by rw [if_pos h3]⟩
      rw [if_neg h3]
      by_cases h4 : s.HiddenLayers.length = 0
      · exact ⟨_, by rw [if_pos h4]⟩
      exfalso
      rcases hbad with h | h | h | h | h
      · exact h1 h
      · exact h2 h
      · exact h3 (Or.inr h)
      · exact h3 (Or.inl h)
      · exact h4 (by simp [h])
  · intro hn hpos hsize
    obtain ⟨h1, h2, h3, h4, h5⟩ := hvalid hn
    exact NewNeuralNetwork_ok_of_checks M rng s h1 h2 h3 h4 h5 hpos hsize

end nn

namespace nn
open mat
variable {R : Type} [LinearOrderedField R]

/-- C2 witness: `settings0` passes the checks, has a hidden layer of 2 nodes and
matrices of 4 entries, and a network is returned. -/
theorem NewNeuralNetwork_configuration_error_witness :
    ¬ (settings0.InputNodes < 1 ∨ settings0.OutputNodes < 1
        ∨ settings0.LearningRate < minLearningRate ∨ 100 < settings0.LearningRate
        ∨ settings0.HiddenLayers = []) ∧
    (∀ h ∈ settings0.HiddenLayers, 1 ≤ h.Nodes) ∧
    (∀ i, i ≤ settings0.HiddenLayers.length →
      Allocatable (plannedLayer settings0 i).1 (plannedLayer settings0 i).2.1) ∧
    ∃ nn, NewNeuralNetwork ratMath rng0 settings0 = .ok nn :=
  ⟨by decide!, by decide!, by decide!,
    (NewNeuralNetwork_configuration_error ratMath rng0 settings0).2 (by decide!) (by decide!)
      (by decide!)⟩

/-- C3: in a network returned by `NewNeuralNetwork` for hidden layers `h[0..k-1]`,
layer 0 connects `InputNodes` to `h[0].Nodes` with activation `h[0].ActivationFunc`,
layer `i` for `1 ≤ i ≤ k-1` connects `h[i-1].Nodes` to `h[i].Nodes` with activation
`h[i].ActivationFunc`, and layer `k` connects `h[k-1].Nodes` to `OutputNodes` with
`SoftMax`; each layer has a matrix of `RNodes` rows and `LNodes` columns and the pair
of functions that `Funcs` returns for its activation kind. -/
theorem NewNeuralNetwork_layer_plan (M : MathLib R) (rng : Nat → Nat → R)
    (s : Settings R) (nn : NeuralNetwork R) (h : NewNeuralNetwork M rng s = .ok nn) :
    nn.weights.length = s.HiddenLayers.length + 1 ∧
    (∃ w h0, nn.weights[0]? = some w ∧ s.HiddenLayers[0]? = some h0
      ∧ w.Built s.InputNodes h0.Nodes h0.ActivationFunc) ∧
    (∀ i, 1 ≤ i → i < s.HiddenLayers.length →
      ∃ w hp hi, nn.weights[i]? = some w ∧ s.HiddenLayers[i - 1]? = some hp
        ∧ s.HiddenLayers[i]? = some hi ∧ w.Built hp.Nodes hi.Nodes hi.ActivationFunc) ∧
    (∃ w hl, nn.weights[s.HiddenLayers.length]? = some w
      ∧ s.HiddenLayers[s.HiddenLayers.length - 1]? = some hl
      ∧ w.Built hl.Nodes s.OutputNodes SoftMax) := by
  obtain ⟨⟨-, -, -, -, hk⟩, -, -, -, hlen, hlayers⟩ := NewNeuralNetwork_eq_ok h
  have hk0 : 0 < s.HiddenLayers.length := Nat.pos_of_ne_zero hk
  have built : ∀ i, i ≤ s.HiddenLayers.length → ∃ w, nn.weights[i]? = some w ∧
      w.Built (plannedLayer s i).1 (plannedLayer s i).2.1 (plannedLayer s i).2.2 := by
    intro i hi
    obtain ⟨w, hw, hnew⟩ := hlayers i hi
    obtain ⟨-, -, hL, hR, hA, hrows, hcols, hdata, hf, hd⟩ := newRandomWeights_eq_ok hnew
    exact ⟨w, hw, hL, hR, hA, hrows, hcols, hdata, newRandomWeights_data_length hnew,
      by rw [hf, hd]⟩
  refine ⟨hlen, ?_, ?_, ?_⟩
  · obtain ⟨w, hw, hb⟩ := built 0 (Nat.zero_le _)
    refine ⟨w, s.HiddenLayers[0], hw, List.getElem?_eq_getElem hk0, ?_⟩
    simpa [plannedLayer, hk0] using hb
  · intro i hi1 hik
    obtain ⟨w, hw, hb⟩ := built i hik.le
    have hne : i ≠ 0 := by omega
    have hlt : i - 1 < s.HiddenLayers.length := by omega
    refine ⟨w, s.HiddenLayers[i - 1], s.HiddenLayers[i], hw, List.getElem?_eq_getElem hlt,
      List.getElem?_eq_getElem hik, ?_⟩
    simpa [plannedLayer, hik, hne, hlt] using hb
  · obtain ⟨w, hw, hb⟩ := built s.HiddenLayers.length (le_refl _)
    have hlt : s.HiddenLayers.length - 1 < s.HiddenLayers.length := by omega
    refine ⟨w, s.HiddenLayers[s.HiddenLayers.length - 1], hw, List.getElem?_eq_getElem hlt, ?_⟩
    simpa [plannedLayer, hk, hlt] using hb

end nn

namespace nn
open mat
variable {R : Type} [LinearOrderedField R]

/-- C3 witness: the four layers built from `settingsDeep`, which has three hidden
layers, so that the layers 1 and 2 connect a hidden layer to the next one. -/
theorem NewNeuralNetwork_layer_plan_witness :
    NewNeuralNetwork ratMath rng0 settingsDeep = .ok networkDeep ∧
    settingsDeep.HiddenLayers.length = 3 ∧
    (networkDeep.weights.length = settingsDeep.HiddenLayers.length + 1 ∧
    (∃ w h0, networkDeep.weights[0]? = some w ∧ settingsDeep.HiddenLayers[0]? = some h0
      ∧ w.Built settingsDeep.InputNodes h0.Nodes h0.ActivationFunc) ∧
    (∀ i, 1 ≤ i → i < settingsDeep.HiddenLayers.length →
      ∃ w hp hi, networkDeep.weights[i]? = some w ∧ settingsDeep.HiddenLayers[i - 1]? = some hp
        ∧ settingsDeep.HiddenLayers[i]? = some hi
        ∧ w.Built hp.Nodes hi.Nodes hi.ActivationFunc) ∧
    (∃ w hl, networkDeep.weights[settingsDeep.HiddenLayers.length]? = some w
      ∧ settingsDeep.HiddenLayers[settingsDeep.HiddenLayers.length - 1]? = some hl
      ∧ w.Built hl.Nodes settingsDeep.OutputNodes SoftMax)) :=
  ⟨by decide!, by decide,
    NewNeuralNetwork_layer_plan ratMath rng0 settingsDeep networkDeep (by decide!)⟩

/-! ## `FeedForward` -/

theorem NewVecDense_noFatal (n : Int) (d : Option (List R)) : NoFatal (NewVecDense n d) := by
  unfold NewVecDense
  split_ifs
  · exact NoFatal.panic _
  · exact NoFatal.panic _
  · cases d with
    | none => exact NoFatal.ok _
    | some d =>
      simp only
      split_ifs
      · exact NoFatal.panic _
      · exact NoFatal.ok _

theorem VecDense.reuseAsNonZeroed_noFatal (v : VecDense R) (r : Nat) :
    NoFatal (VecDense.reuseAsNonZeroed v r) := by
  unfold VecDense.reuseAsNonZeroed
  split_ifs
  · exact NoFatal.panic _
  · exact NoFatal.ok _
  · exact NoFatal.panic _
  · exact NoFatal.ok _

theorem VecDense.MulVec_noFatal (v : VecDense R) (a : Matrix R) (b : VecDense R) :
    NoFatal (VecDense.MulVec v a b) := by
  unfold VecDense.MulVec
  split_ifs
  · exact NoFatal.panic _
  · exact NoFatal.bind (VecDense.reuseAsNonZeroed_noFatal _ _) (fun _ => NoFatal.ok _)

theorem callActFunc_noFatal (M : MathLib R) (f : Option activationFunction) (vec : VecDense R) :
    NoFatal (callActFunc M f vec) := by
  cases f with
  | none => exact NoFatal.panic _
  | some g =>
    cases g with
    | sigmoid => exact NoFatal.ok _
    | tanh => exact NoFatal.ok _
    | relu => exact NoFatal.ok _
    | lRelu => exact NoFatal.ok _
    | softMax =>
      show NoFatal (softMax M vec)
      unfold softMax
      refine NoFatal.bind ?_ (fun _ => NoFatal.ok _)
      cases vec with
      | nil => exact NoFatal.panic _
      | cons x xs => exact NoFatal.ok _

theorem FeedForwardState.step_noFatal (M : MathLib R) (st : FeedForwardState R) (i : Nat) :
    NoFatal (FeedForwardState.step M st i) := by
  unfold FeedForwardState.step feedForwardStep
  refine NoFatal.bind (index_noFatal _ _) (fun w => ?_)
  refine NoFatal.bind ?_ (fun _ => NoFatal.ok _)
  refine NoFatal.bind (NewVecDense_noFatal _ _) (fun _ => ?_)
  exact NoFatal.bind (VecDense.MulVec_noFatal _ _ _) (fun _ => callActFunc_noFatal M _ _)

/-- C4: on an input whose length differs from `InputNodes`, `FeedForward` stops with
the dimension error and returns no vector; on an input of length `InputNodes` it does
not stop with that (or any other `log.Fatal`) error. -/
theorem FeedForward_input_length (M : MathLib R) (nn : NeuralNetwork R) (input : VecDense R) :
    ((input.length : Int) ≠ nn.InputNodes →
      FeedForward M nn input
        = .error (.fatal "Number of input values not equal to number of input nodes")) ∧
    ((input.length : Int) = nn.InputNodes → NoFatal (FeedForward M nn input)) := by
  constructor
  · intro h
    unfold FeedForward FeedForwardRun
    rw [if_pos h]
    rfl
  · intro h
    unfold FeedForward FeedForwardRun
    rw [if_neg (by simpa using h)]
    exact NoFatal.map _ (NoFatal.foldlM (FeedForwardState.step_noFatal M) _ _)

/-- C4 witness: `network0` has two input nodes; an input of length 3 is refused, an
input of length 2 is not. -/
theorem FeedForward_input_length_witness :
    ((([1, 2, 3] : VecDense ℚ).length : Int) ≠ network0.InputNodes ∧
      FeedForward ratMath network0 [1, 2, 3]
        = .error (.fatal "Number of input values not equal to number of input nodes")) ∧
    ((([0, 0] : VecDense ℚ).length : Int) = network0.InputNodes ∧
      NoFatal (FeedForward ratMath network0 [0, 0])) :=
  ⟨⟨by decide!, (FeedForward_input_length ratMath network0 [1, 2, 3]).1 (by decide!)⟩,
   ⟨by decide!, (FeedForward_input_length ratMath network0 [0, 0]).2 (by decide!)⟩⟩

end nn

namespace nn
open mat
variable {R : Type} [LinearOrderedField R]

theorem set_getD_self (v : List R) (i : Nat) (d : R) : v.set i (v.getD i d) = v := by
  induction v generalizing i with
  | nil => rfl
  | cons x xs ih =>
    cases i with
    | zero => rfl
    | succ i =>
      show x :: xs.set i (xs.getD i d) = x :: xs
      rw [ih]

theorem overwriteEach_aux (f : R → R) (v : List R) (n : Nat) (hn : n ≤ v.length) :
    (List.range n).foldl (fun v i => v.set i (f (v.getD i 0))) v
      = (v.take n).map f ++ v.drop n := by
  induction n with
  | zero => simp
  | succ n ih =>
    have hlt : n < v.length := hn
    rw [List.range_succ, List.foldl_append, ih (Nat.le_of_lt hlt)]
    simp only [List.foldl_cons, List.foldl_nil]
    have hlen : ((v.take n).map f).length = n := by simp [Nat.le_of_lt hlt]
    have hget : ((v.take n).map f ++ v.drop n).getD n 0 = v[n] := by
      rw [List.getD_eq_getElem?_getD, List.getElem?_append_right (by omega), hlen]
      simp [List.getElem?_eq_getElem hlt]
    rw [hget, List.set_append_right _ _ (by omega), hlen, Nat.sub_self,
      List.drop_eq_getElem_cons hlt, List.set_cons_zero, List.take_succ,
      List.getElem?_eq_getElem hlt]
    simp only [Option.toList_some, List.map_append, List.map_cons, List.map_nil,
      List.append_assoc, List.singleton_append]

theorem overwriteEach_eq_map (f : R → R) (v : VecDense R) : overwriteEach f v = v.map f := by
  unfold overwriteEach
  rw [overwriteEach_aux f v v.length (le_refl _)]
  simp

theorem relu_eq_map (v : VecDense R) :
    relu v = .ok (v.map fun x => if x < 0 then 0 else x) := by
  unfold relu
  rw [← overwriteEach_eq_map]
  unfold overwriteEach
  congr 2
  funext w i
  by_cases h : w.getD i 0 < 0
  · simp only [if_pos h]
  · simp only [if_neg h]
    exact (set_getD_self w i 0).symm

theorem lRelu_eq_map (v : VecDense R) :
    lRelu v = .ok (v.map fun x => if x < 0 then (1 / 100) * x else x) := by
  unfold lRelu
  rw [← overwriteEach_eq_map]
  unfold overwriteEach
  congr 2
  funext w i
  by_cases h : w.getD i 0 < 0
  · simp only [if_pos h]
  · simp only [if_neg h]
    exact (set_getD_self w i 0).symm

theorem softMaxExpLoop_aux (M : MathLib R) (mx : R) (v : List R) (n : Nat) (hn : n ≤ v.length) :
    (List.range n).foldl
      (fun (p : VecDense R × R) i =>
        let w := p.1.set i (M.Exp (p.1.getD i 0 - mx))
        (w, p.2 + w.getD i 0))
      (v, 0)
      = ((v.take n).map (fun x => M.Exp (x - mx)) ++ v.drop n,
         ((v.take n).map (fun x => M.Exp (x - mx))).sum) := by
  induction n with
  | zero => simp
  | succ n ih =>
    have hlt : n < v.length := hn
    rw [List.range_succ, List.foldl_append, ih (Nat.le_of_lt hlt)]
    simp only [List.foldl_cons, List.foldl_nil]
    have hlen : ((v.take n).map (fun x => M.Exp (x - mx))).length = n := by
      simp [Nat.le_of_lt hlt]
    have hget : ((v.take n).map (fun x => M.Exp (x - mx)) ++ v.drop n).getD n 0 = v[n] := by
      rw [List.getD_eq_getElem?_getD, List.getElem?_append_right (by omega), hlen]
      simp [List.getElem?_eq_getElem hlt]
    have hset : ((v.take n).map (fun x => M.Exp (x - mx)) ++ v.drop n).set n (M.Exp (v[n] - mx))
        = (v.take (n + 1)).map (fun x => M.Exp (x - mx)) ++ v.drop (n + 1) := by
      rw [List.set_append_right _ _ (by omega), hlen, Nat.sub_self,
        List.drop_eq_getElem_cons hlt, List.set_cons_zero, List.take_succ,
        List.getElem?_eq_getElem hlt]
      simp only [Option.toList_some, List.map_append, List.map_cons, List.map_nil,
        List.append_assoc, List.singleton_append]
    have hget2 : ((v.take (n + 1)).map (fun x => M.Exp (x - mx)) ++ v.drop (n + 1)).getD n 0
        = M.Exp (v[n] - mx) := by
      rw [List.getD_eq_getElem?_getD, List.getElem?_append_left (by simp; omega)]
      simp [List.getElem?_take, List.getElem?_eq_getElem hlt]
    rw [hget, hset, hget2]
    congr 1
    rw [List.take_succ, List.getElem?_eq_getElem hlt]
    simp only [Option.toList_some, List.map_append, List.map_cons, List.map_nil,
      List.sum_append, List.sum_cons, List.sum_nil, add_zero]

theorem softMaxExpLoop_eq (M : MathLib R) (mx : R) (v : VecDense R) :
    softMaxExpLoop M mx v
      = (v.map (fun x => M.Exp (x - mx)), (v.map (fun x => M.Exp (x - mx))).sum) := by
  unfold softMaxExpLoop
  rw [softMaxExpLoop_aux M mx v v.length (le_refl _)]
  simp

/-- The function `softMax` as one expression. -/
theorem softMax_cons (M : MathLib R) (x : R) (xs : List R) :
    softMax M (x :: xs) = .ok ((x :: xs).map fun y =>
      M.Exp (y - xs.foldl max x) / ((x :: xs).map fun z => M.Exp (z - xs.foldl max x)).sum) := by
  unfold softMax
  simp only [mat.Max, except_ok_bind, softMaxExpLoop_eq, overwriteEach_eq_map, pure, Except.pure,
    List.map_map]
  rfl

end nn

namespace nn
open mat
variable {R : Type} [LinearOrderedField R]

/-! ## gonum operations on operands of matching sizes -/

theorem matVec_length (W : Dense R) (a : VecDense R) : (matVec W a).length = W.rows := by
  simp [matVec]

theorem matTVec_length (W : Dense R) (e : VecDense R) : (matTVec W e).length = W.cols := by
  simp [matTVec]

theorem vecSub_length (a b : VecDense R) : (vecSub a b).length = a.length := by
  simp [vecSub]

theorem NewVecDense_none_ok {n : Int} (r : Nat) (hr : 0 < r) (hn : (r : Int) = n) :
    NewVecDense n none = .ok (List.replicate r (0 : R)) := by
  unfold NewVecDense
  rw [if_neg (by omega)]
  subst hn
  simp

theorem VecDense.reuseAsNonZeroed_ok (v : VecDense R) (r : Nat) (hr : 0 < r)
    (hv : v.length = r) : VecDense.reuseAsNonZeroed v r = .ok () := by
  unfold VecDense.reuseAsNonZeroed
  rw [if_neg (by omega), if_neg (by omega), if_neg (by simp [hv])]

theorem VecDense.MulVec_dense_ok (v : VecDense R) (m : Dense R) (b : VecDense R)
    (hv : v.length = m.rows) (hr : 0 < m.rows) (hb : m.cols = b.length) :
    VecDense.MulVec v (.dense m) b = .ok (matVec m b) := by
  unfold VecDense.MulVec
  simp only [Matrix.Dims]
  rw [if_neg (by simp [hb]), VecDense.reuseAsNonZeroed_ok v m.rows hr hv, except_ok_bind]
  rfl

theorem VecDense.MulVec_transpose_ok (v : VecDense R) (m : Dense R) (b : VecDense R)
    (hv : v.length = m.cols) (hc : 0 < m.cols) (hb : m.rows = b.length) :
    VecDense.MulVec v (.transpose (.dense m)) b = .ok (matTVec m b) := by
  unfold VecDense.MulVec
  simp only [Matrix.Dims]
  rw [if_neg (by simp [hb]), VecDense.reuseAsNonZeroed_ok v m.cols hc hv, except_ok_bind]
  rfl

theorem VecDense.SubVec_ok (v a b : VecDense R) (hab : a.length = b.length)
    (ha : 0 < a.length) (hv : v.length = a.length) :
    VecDense.SubVec v a b = .ok (vecSub a b) := by
  unfold VecDense.SubVec
  rw [if_neg (by simp [hab]), VecDense.reuseAsNonZeroed_ok v a.length ha hv, except_ok_bind]
  rfl

/-- A non-nil activation function returns on a non-empty vector and keeps its
length. -/
theorem callActFunc_ok (M : MathLib R) (f : Option activationFunction) (v : VecDense R)
    (hf : f.isSome = true) (hv : 0 < v.length) :
    ∃ out, callActFunc M f v = .ok out ∧ out.length = v.length := by
  cases f with
  | none => simp at hf
  | some g =>
    cases g with
    | sigmoid =>
      exact ⟨_, rfl, by rw [overwriteEach_eq_map, List.length_map]⟩
    | tanh =>
      exact ⟨_, rfl, by rw [overwriteEach_eq_map, List.length_map]⟩
    | relu =>
      exact ⟨_, relu_eq_map v, by rw [List.length_map]⟩
    | lRelu =>
      exact ⟨_, lRelu_eq_map v, by rw [List.length_map]⟩
    | softMax =>
      cases v with
      | nil => simp at hv
      | cons x xs => exact ⟨_, softMax_cons M x xs, by rw [List.length_map]⟩

theorem layerInput_zero (input : VecDense R) (a : List (VecDense R)) :
    layerInput input a 0 = input := rfl

theorem layerInput_succ (input : VecDense R) (a : List (VecDense R)) (i : Nat) :
    layerInput input a (i + 1) = a.getD i [] := by
  simp [layerInput]

end nn

namespace nn
open mat
variable {R : Type} [LinearOrderedField R]

theorem index_getD {α : Type} {xs : List α} {i : Nat} (d : α) (hi : i < xs.length) :
    index xs (i : Int) = .ok (xs.getD i d) := by
  rw [index_nat hi, List.getD_eq_getElem xs d hi]

theorem index_getD_succ {α : Type} {xs : List α} {i : Nat} (d : α) (hi : i + 1 < xs.length) :
    index xs ((i : Int) + 1) = .ok (xs.getD (i + 1) d) :=
  index_getD d hi

theorem index_getD_pred {α : Type} {xs : List α} {i : Nat} (d : α) (h0 : 0 < i)
    (hi : i - 1 < xs.length) : index xs ((i : Int) - 1) = .ok (xs.getD (i - 1) d) := by
  rw [index_nat_pred h0 hi, List.getD_eq_getElem xs d hi]

theorem getD_of_getElem? {α : Type} {xs : List α} {i : Nat} {x : α} (d : α)
    (h : xs[i]? = some x) : xs.getD i d = x := by
  rw [List.getD_eq_getElem?_getD, h]
  rfl

theorem getElem?_of_lt_getD {α : Type} {xs : List α} {i : Nat} (d : α) (hi : i < xs.length) :
    xs[i]? = some (xs.getD i d) := by
  rw [List.getElem?_eq_getElem hi, List.getD_eq_getElem xs d hi]

/-- The facts about sizes that a well-formed network gives, by index. -/
theorem NeuralNetwork.WellFormed.facts {nn : NeuralNetwork R} (h : nn.WellFormed) :
    0 < nn.weights.length ∧
    (∀ i, i < nn.weights.length → (nn.weights.getD i Weights.zero).WellFormed) ∧
    (nn.weights.getD 0 Weights.zero).LNodes = nn.InputNodes ∧
    (∀ i, i + 1 < nn.weights.length →
      (nn.weights.getD i Weights.zero).RNodes = (nn.weights.getD (i + 1) Weights.zero).LNodes) ∧
    (nn.weights.getD (nn.weights.length - 1) Weights.zero).RNodes = nn.OutputNodes ∧
    (nn.weights.getD (nn.weights.length - 1) Weights.zero).ActFunc = SoftMax := by
  obtain ⟨⟨hhead, hchain, hlast⟩, hall⟩ := h
  have hpos : 0 < nn.weights.length := by
    cases hw : nn.weights with
    | nil => simp [hw] at hhead
    | cons w ws => simp
  refine ⟨hpos, ?_, ?_, ?_, ?_, ?_⟩
  · intro i hi
    rw [List.getD_eq_getElem _ _ hi]
    exact hall _ (List.getElem_mem hi)
  · rw [List.head?_eq_getElem?, List.getElem?_eq_getElem hpos] at hhead
    rw [List.getD_eq_getElem _ _ hpos]
    simpa using hhead
  · intro i hi
    rw [List.getD_eq_getElem _ _ (by omega : i < nn.weights.length),
      List.getD_eq_getElem _ _ hi]
    have h1 : i < (nn.weights.dropLast.map (·.RNodes)).length := by
      simp only [List.length_map, List.length_dropLast]
      omega
    have h2 : i < (nn.weights.tail.map (·.LNodes)).length := by
      simp only [List.length_map, List.length_tail]
      omega
    have h3 : (nn.weights.dropLast.map (·.RNodes))[i] = (nn.weights.tail.map (·.LNodes))[i] := by
      simp only [hchain]
    simpa [List.getElem_dropLast, List.getElem_tail] using h3
  · rw [List.getLast?_eq_getElem?,
      List.getElem?_eq_getElem (by omega : nn.weights.length - 1 < nn.weights.length)] at hlast
    rw [List.getD_eq_getElem _ _ (by omega : nn.weights.length - 1 < nn.weights.length)]
    simp only [Option.map_some', Option.some.injEq, Prod.mk.injEq] at hlast
    exact hlast.1
  · rw [List.getLast?_eq_getElem?,
      List.getElem?_eq_getElem (by omega : nn.weights.length - 1 < nn.weights.length)] at hlast
    rw [List.getD_eq_getElem _ _ (by omega : nn.weights.length - 1 < nn.weights.length)]
    simp only [Option.map_some', Option.some.injEq, Prod.mk.injEq] at hlast
    exact hlast.2

end nn

namespace nn
open mat
variable {R : Type} [LinearOrderedField R]

theorem getD_append_singleton_lt {α : Type} (a : List α) (x d : α) {j : Nat}
    (hj : j < a.length) : (a ++ [x]).getD j d = a.getD j d := by
  rw [List.getD_eq_getElem?_getD, List.getD_eq_getElem?_getD, List.getElem?_append_left hj]

theorem getD_append_singleton_length {α : Type} (a : List α) (x d : α) :
    (a ++ [x]).getD a.length d = x := by
  rw [List.getD_eq_getElem?_getD, List.getElem?_append_right (le_refl _)]
  simp

theorem layerInput_append_singleton (input : VecDense R) (a : List (VecDense R))
    (x : VecDense R) {j : Nat} (hj : j ≤ a.length) :
    layerInput input (a ++ [x]) j = layerInput input a j := by
  unfold layerInput
  by_cases h0 : j = 0
  · rw [if_pos h0, if_pos h0]
  · rw [if_neg h0, if_neg h0, getD_append_singleton_lt a x [] (by omega)]

/-- The sizes of the matrices of a well-formed network fit its input and each
other. -/
theorem NeuralNetwork.WellFormed.cols {nn : NeuralNetwork R} (h : nn.WellFormed)
    {input : VecDense R} (hin : (input.length : Int) = nn.InputNodes) :
    (nn.weights.getD 0 Weights.zero).m.cols = input.length ∧
    ∀ i, i + 1 < nn.weights.length →
      (nn.weights.getD (i + 1) Weights.zero).m.cols = (nn.weights.getD i Weights.zero).m.rows := by
  obtain ⟨hpos, hW, h0, hch, -, -⟩ := h.facts
  constructor
  · obtain ⟨-, hc, -⟩ := hW 0 hpos
    have : ((nn.weights.getD 0 Weights.zero).m.cols : Int) = (input.length : Int) := by
      rw [hc, h0, hin]
    exact_mod_cast this
  · intro i hi
    obtain ⟨hr, -⟩ := hW i (by omega)
    obtain ⟨-, hc, -⟩ := hW (i + 1) hi
    have : ((nn.weights.getD (i + 1) Weights.zero).m.cols : Int)
        = ((nn.weights.getD i Weights.zero).m.rows : Int) := by
      rw [hc, hr, hch i hi]
    exact_mod_cast this

/-- The loop of `FeedForward` on a well-formed network: it returns, leaves the
network and the input as they were, and computes the forward trace. -/
theorem FeedForwardRun_ok (M : MathLib R) (nn : NeuralNetwork R) (input : VecDense R)
    (hwf : nn.WellFormed) (hin : (input.length : Int) = nn.InputNodes) :
    ∃ a, IsForwardTrace M nn.weights input a ∧
      (∀ i, i < nn.weights.length →
        (a.getD i []).length = (nn.weights.getD i Weights.zero).m.rows) ∧
      FeedForwardRun M nn input = .ok ⟨nn, input, a.getD (nn.weights.length - 1) []⟩ := by
  obtain ⟨hpos, hW, -⟩ := hwf.facts
  obtain ⟨hc0, hcs⟩ := hwf.cols hin
  obtain ⟨t, ht, htnn, htin, a, halen, ha, hhid⟩ := forRange_ok
    (fun i (st : FeedForwardState R) => st.nn = nn ∧ st.input = input ∧
      ∃ a : List (VecDense R), a.length = i ∧
        (∀ j, j < i →
          callActFunc M (nn.weights.getD j Weights.zero).actFunc
            (matVec (nn.weights.getD j Weights.zero).m (layerInput input a j))
              = .ok (a.getD j []) ∧
          (a.getD j []).length = (nn.weights.getD j Weights.zero).m.rows) ∧
        st.hiddenInput = layerInput input a i)
    (FeedForwardState.step M) nn.weights.length
    { nn := nn, input := input, hiddenInput := VecDenseCopyOf input }
    ⟨rfl, rfl, [], rfl, fun j hj => absurd hj (Nat.not_lt_zero j), rfl⟩
    (by
      rintro i ⟨snn, sin, shid⟩ hi ⟨hnn, hinp, a, halen, ha, hhid⟩
      simp only at hnn hinp hhid
      subst hnn hinp hhid
      obtain ⟨hrows, -, hrpos, -, -, hact, -⟩ := hW i hi
      have hlenIn : (snn.weights.getD i Weights.zero).m.cols
          = (layerInput sin a i).length := by
        cases i with
        | zero => exact hc0
        | succ k =>
          rw [layerInput_succ, (ha k (Nat.lt_succ_self k)).2]
          exact hcs k hi
      obtain ⟨out, hout, houtlen⟩ := callActFunc_ok M
        (snn.weights.getD i Weights.zero).actFunc
        (matVec (snn.weights.getD i Weights.zero).m (layerInput sin a i)) hact
        (by rw [matVec_length]; exact hrpos)
      refine ⟨⟨snn, sin, out⟩, ?_, rfl, rfl, a ++ [out], by simp [halen], ?_, ?_⟩
      · unfold FeedForwardState.step feedForwardStep
        simp only
        rw [index_getD Weights.zero hi, except_ok_bind,
          NewVecDense_none_ok (snn.weights.getD i Weights.zero).m.rows hrpos hrows,
          except_ok_bind,
          VecDense.MulVec_dense_ok _ _ _ (by simp) hrpos hlenIn, except_ok_bind, hout]
        rfl
      · intro j hj
        by_cases hji : j < i
        · rw [layerInput_append_singleton sin a out (by omega),
            getD_append_singleton_lt a out [] (by omega)]
          exact ha j hji
        · have hje : j = i := by omega
          subst hje
          rw [layerInput_append_singleton sin a out (by omega)]
          subst halen
          rw [getD_append_singleton_length]
          exact ⟨hout, by rw [houtlen, matVec_length]⟩
      · subst halen
        rw [layerInput_succ, getD_append_singleton_length])
  refine ⟨a, ⟨halen, ?_⟩, ?_, ?_⟩
  · intro i w hw
    have hi : i < nn.weights.length := (List.getElem?_eq_some_iff.1 hw).1
    have := (ha i hi).1
    rwa [getD_of_getElem? Weights.zero hw] at this
  · intro i hi
    exact (ha i hi).2
  · unfold FeedForwardRun
    rw [if_neg (by simpa using hin), ht]
    obtain ⟨tnn, tin, thid⟩ := t
    simp only at htnn htin hhid
    subst htnn htin hhid
    congr 2
    unfold layerInput
    rw [if_neg (by omega)]

end nn

namespace nn
open mat
variable {R : Type} [LinearOrderedField R]

/-- C5: on a well-formed network and an input of `InputNodes` entries, `FeedForward`
returns `a_k`, where `a_{-1}` is the input and `a_i = forward_i (W_i * a_{i-1})` for
the layers `i = 0..k` in order. -/
theorem FeedForward_layerwise (M : MathLib R) (nn : NeuralNetwork R) (input : VecDense R)
    (hwf : nn.WellFormed) (hin : (input.length : Int) = nn.InputNodes) :
    ∃ a, IsForwardTrace M nn.weights input a ∧
      FeedForward M nn input = .ok (a.getD (nn.weights.length - 1) []) := by
  obtain ⟨a, htrace, -, hrun⟩ := FeedForwardRun_ok M nn input hwf hin
  refine ⟨a, htrace, ?_⟩
  unfold FeedForward
  rw [hrun]
  rfl

/-- C5 witness: `network0` on the zero vector. -/
theorem FeedForward_layerwise_witness :
    network0.WellFormed ∧ ((([0, 0] : VecDense ℚ).length : Int) = network0.InputNodes) ∧
    ∃ a, IsForwardTrace ratMath network0.weights [0, 0] a ∧
      FeedForward ratMath network0 [0, 0] = .ok (a.getD (network0.weights.length - 1) []) :=
  ⟨by decide!, by decide!, FeedForward_layerwise ratMath network0 [0, 0] (by decide!) (by decide!)⟩

theorem FeedForwardState.step_eq (M : MathLib R) (st : FeedForwardState R) (i : Nat) :
    FeedForwardState.step M st i
      = ((index st.nn.weights (i : Int) >>= feedForwardStep M st.hiddenInput).map
          fun h => { st with hiddenInput := h }) := by
  unfold FeedForwardState.step
  cases index st.nn.weights (i : Int) with
  | error e => rfl
  | ok w =>
    simp only [except_ok_bind]
    cases feedForwardStep M st.hiddenInput w with
    | error e => rfl
    | ok h => rfl

theorem FeedForwardState.step_frame (M : MathLib R) (st u : FeedForwardState R) (i : Nat)
    (h : FeedForwardState.step M st i = .ok u) : u.nn = st.nn ∧ u.input = st.input := by
  rw [FeedForwardState.step_eq] at h
  cases hx : (index st.nn.weights (i : Int) >>= feedForwardStep M st.hiddenInput) with
  | error e => rw [hx] at h; cases h
  | ok v =>
    rw [hx] at h
    simp only [Except.map, Except.ok.injEq] at h
    subst h
    exact ⟨rfl, rfl⟩

theorem FeedForwardState.foldlM_sim (M : MathLib R) (l : List Nat)
    (st1 st2 : FeedForwardState R) (hw : st1.nn.weights = st2.nn.weights)
    (hh : st1.hiddenInput = st2.hiddenInput) :
    (l.foldlM (FeedForwardState.step M) st1).map (·.hiddenInput)
      = (l.foldlM (FeedForwardState.step M) st2).map (·.hiddenInput) := by
  induction l generalizing st1 st2 with
  | nil =>
    simp only [List.foldlM_nil, pure, Except.pure, Except.map]
    rw [hh]
  | cons i l ih =>
    rw [List.foldlM_cons, List.foldlM_cons, FeedForwardState.step_eq M st1,
      FeedForwardState.step_eq M st2, hw, hh]
    cases (index st2.nn.weights (i : Int) >>= feedForwardStep M st2.hiddenInput) with
    | error e => rfl
    | ok v =>
      simp only [Except.map, except_ok_bind]
      exact ih _ _ hw rfl

/-- C6: a call of `FeedForward` leaves the network (every layer's matrix, sizes and
activation) and the caller's input vector as they were, so a second call on the
state left by the first returns the same output; and the result depends on the
network only through its weights and `InputNodes`. -/
theorem FeedForward_pure (M : MathLib R) (nn : NeuralNetwork R) (input : VecDense R) :
    (∀ st, FeedForwardRun M nn input = .ok st →
      st.nn = nn ∧ st.input = input ∧ FeedForward M st.nn st.input = .ok st.hiddenInput) ∧
    (∀ nn2 : NeuralNetwork R, nn2.weights = nn.weights → nn2.InputNodes = nn.InputNodes →
      FeedForward M nn2 input = FeedForward M nn input) := by
  constructor
  · intro st hst
    have hframe : st.nn = nn ∧ st.input = input := by
      unfold FeedForwardRun at hst
      split_ifs at hst with hlen
      exact forRange_of_ok (fun _ (s : FeedForwardState R) => s.nn = nn ∧ s.input = input)
        (FeedForwardState.step M) nn.weights.length _ st ⟨rfl, rfl⟩
        (fun i s u _ hs hu => by
          obtain ⟨h1, h2⟩ := FeedForwardState.step_frame M s u i hu
          exact ⟨h1.trans hs.1, h2.trans hs.2⟩)
        hst
    refine ⟨hframe.1, hframe.2, ?_⟩
    rw [hframe.1, hframe.2]
    unfold FeedForward
    rw [hst]
    rfl
  · intro nn2 hw hi
    unfold FeedForward FeedForwardRun
    rw [hi, hw]
    split_ifs with hlen
    · rfl
    · exact FeedForwardState.foldlM_sim M _ _ _ hw rfl

/-- C6 witness: `network0` on the zero vector. -/
theorem FeedForward_pure_witness :
    FeedForwardRun ratMath network0 [0, 0]
        = .ok ⟨network0, [0, 0], [12800 / 22449, 9649 / 22449]⟩ ∧
    ((⟨network0, [0, 0], [12800 / 22449, 9649 / 22449]⟩ : FeedForwardState ℚ).nn = network0 ∧
      (⟨network0, [0, 0], [12800 / 22449, 9649 / 22449]⟩ : FeedForwardState ℚ).input = [0, 0] ∧
      FeedForward ratMath network0 [0, 0] = .ok [12800 / 22449, 9649 / 22449]) :=
  ⟨by decide!,
   (FeedForward_pure ratMath network0 [0, 0]).1 ⟨network0, [0, 0], [12800 / 22449, 9649 / 22449]⟩
     (by decide!)⟩

end nn

namespace nn
open mat
variable {R : Type} [LinearOrderedField R]

/-! ## `softMax` -/

theorem foldl_max_mem (x : R) (xs : List R) : xs.foldl max x ∈ x :: xs := by
  induction xs generalizing x with
  | nil => simp
  | cons y ys ih =>
    rw [List.foldl_cons]
    have h := ih (max x y)
    rcases List.mem_cons.1 h with h | h
    · rw [h]
      rcases max_choice x y with hm | hm
      · rw [hm]; exact List.mem_cons_self _ _
      · rw [hm]; exact List.mem_cons_of_mem _ (List.mem_cons_self _ _)
    · exact List.mem_cons_of_mem _ (List.mem_cons_of_mem _ h)

theorem le_foldl_max (x : R) (xs : List R) : ∀ y ∈ x :: xs, y ≤ xs.foldl max x := by
  induction xs generalizing x with
  | nil =>
    intro y hy
    simp at hy
    simp [hy]
  | cons z zs ih =>
    intro y hy
    rw [List.foldl_cons]
    rcases List.mem_cons.1 hy with h | h
    · rw [h]
      exact le_trans (le_max_left x z) (ih (max x z) _ (List.mem_cons_self _ _))
    · rcases List.mem_cons.1 h with h | h
      · rw [h]
        exact le_trans (le_max_right x z) (ih (max x z) _ (List.mem_cons_self _ _))
      · exact ih (max x z) _ (List.mem_cons_of_mem _ h)

theorem sum_map_div (g : R → R) (S : R) (v : List R) :
    (v.map fun x => g x / S).sum = (v.map g).sum / S := by
  induction v with
  | nil => simp
  | cons x xs ih =>
    simp only [List.map_cons, List.sum_cons, ih, add_div]

theorem sum_map_pos (g : R → R) (hg : ∀ x, 0 < g x) (v : List R) (hv : v ≠ []) :
    0 < (v.map g).sum := by
  apply List.sum_pos
  · intro y hy
    obtain ⟨x, -, rfl⟩ := List.mem_map.1 hy
    exact hg x
  · simpa using hv

/-- The function `softMax` returns a distribution whenever `math.Exp` is positive. -/
theorem softMax_of_exp_pos (M : MathLib R) (hexp : ∀ x, 0 < M.Exp x) (v : VecDense R)
    (hv : v ≠ []) :
    ∃ mx out, mx ∈ v ∧ (∀ x ∈ v, x ≤ mx) ∧ softMax M v = .ok out ∧
      out = v.map (fun x => M.Exp (x - mx) / (v.map fun y => M.Exp (y - mx)).sum) ∧
      (∀ y ∈ out, 0 ≤ y) ∧ out.sum = 1 := by
  cases v with
  | nil => exact absurd rfl hv
  | cons x xs =>
    have hS : 0 < ((x :: xs).map fun z => M.Exp (z - xs.foldl max x)).sum :=
      sum_map_pos (fun z => M.Exp (z - xs.foldl max x)) (fun z => hexp _) (x :: xs) hv
    refine ⟨xs.foldl max x, _, foldl_max_mem x xs, le_foldl_max x xs, softMax_cons M x xs, rfl,
      ?_, ?_⟩
    · intro y hy
      obtain ⟨z, -, rfl⟩ := List.mem_map.1 hy
      exact le_of_lt (div_pos (hexp _) hS)
    · rw [sum_map_div (fun z => M.Exp (z - xs.foldl max x))]
      exact div_self (ne_of_gt hS)

/-- C7: for a non-empty real vector `v`, `softMax` leaves the entries
`exp(v_i - max v) / sum_j exp(v_j - max v)`; every entry is `≥ 0` and the entries sum
to 1. -/
theorem softMax_distribution (M : MathLib ℝ) (hM : M.Exp = Real.exp) (v : VecDense ℝ)
    (hv : v ≠ []) :
    ∃ mx out, mx ∈ v ∧ (∀ x ∈ v, x ≤ mx) ∧ softMax M v = .ok out ∧
      out = v.map (fun x => Real.exp (x - mx) / (v.map fun y => Real.exp (y - mx)).sum) ∧
      (∀ y ∈ out, 0 ≤ y) ∧ out.sum = 1 := by
  have h := softMax_of_exp_pos M (fun x => by rw [hM]; exact Real.exp_pos x) v hv
  rw [hM] at h
  exact h

/-- C7 witness: the vector `[0, 1]` with the real exponential. -/
theorem softMax_distribution_witness :
    (⟨Real.exp, Real.sinh, Real.cosh, Real.sqrt⟩ : MathLib ℝ).Exp = Real.exp ∧
    ([0, 1] : VecDense ℝ) ≠ [] ∧
    ∃ mx out, mx ∈ ([0, 1] : VecDense ℝ) ∧ (∀ x ∈ ([0, 1] : VecDense ℝ), x ≤ mx) ∧
      softMax ⟨Real.exp, Real.sinh, Real.cosh, Real.sqrt⟩ [0, 1] = .ok out ∧
      out = ([0, 1] : VecDense ℝ).map
        (fun x => Real.exp (x - mx) / (([0, 1] : VecDense ℝ).map fun y => Real.exp (y - mx)).sum) ∧
      (∀ y ∈ out, 0 ≤ y) ∧ out.sum = 1 :=
  ⟨rfl, by simp,
    softMax_distribution ⟨Real.exp, Real.sinh, Real.cosh, Real.sqrt⟩ rfl [0, 1] (by simp)⟩

end nn

namespace nn
open mat
variable {R : Type} [LinearOrderedField R]

/-- C5 counterexample: two networks that satisfy the layer-dimension chain on which
`FeedForward`, given an input of `InputNodes` entries, returns no vector.  The first
is built by `NewNeuralNetwork` with an activation kind outside the five known ones,
so a function of its first layer is nil; the second carries a `3 × 3` matrix in a layer
whose `LNodes` and `RNodes` are 2. -/
theorem FeedForward_chain_not_enough :
    (networkNilActivation.Chain ∧
      (([0] : VecDense ℚ).length : Int) = networkNilActivation.InputNodes ∧
      FeedForward ratMath networkNilActivation [0]
        = .error (.panic "invalid memory address or nil pointer dereference")) ∧
    (networkWrongShape.Chain ∧
      (([0, 0] : VecDense ℚ).length : Int) = networkWrongShape.InputNodes ∧
      FeedForward ratMath networkWrongShape [0, 0] = .error ErrShape) := by
  decide!

/-- C8 counterexample: `NewNeuralNetwork` accepts settings whose hidden layer names
the activation kind `7` and returns a network; on that network `FeedForward`, given
an input of `InputNodes` entries, panics on the nil activation function instead of
returning a vector. -/
theorem FeedForward_unknown_activation_panics :
    NewNeuralNetwork ratMath rng0 settingsUnknownActivation = .ok networkNilActivation ∧
    (([0] : VecDense ℚ).length : Int) = networkNilActivation.InputNodes ∧
    FeedForward ratMath networkNilActivation [0]
      = .error (.panic "invalid memory address or nil pointer dereference") := by
  decide!

theorem Funcs_isSome_of_known (a : Int) (h0 : 0 ≤ a) (h4 : a ≤ 4) :
    (ActivationFunction.Funcs a).1.isSome = true ∧ (ActivationFunction.Funcs a).2.isSome = true := by
  have h : a = 0 ∨ a = 1 ∨ a = 2 ∨ a = 3 ∨ a = 4 := by omega
  rcases h with h | h | h | h | h <;> subst h <;> exact ⟨rfl, rfl⟩

theorem plannedLayer_known (s : Settings R)
    (hknown : ∀ h ∈ s.HiddenLayers, 0 ≤ h.ActivationFunc ∧ h.ActivationFunc ≤ 4) (i : Nat) :
    0 ≤ (plannedLayer s i).2.2 ∧ (plannedLayer s i).2.2 ≤ 4 := by
  unfold plannedLayer
  by_cases hi : i < s.HiddenLayers.length
  · simp only [if_pos hi, List.getD_eq_getElem _ _ hi]
    exact hknown _ (List.getElem_mem hi)
  · simp only [if_neg hi]
    decide

/-- A network returned by `NewNeuralNetwork` for settings whose hidden layers name
known activation kinds and whose products `RNodes*LNodes` have not overflowed is well
formed, and the activation function of its last layer is `softMax`. -/
theorem NewNeuralNetwork_wellFormed {M : MathLib R} {rng : Nat → Nat → R} {s : Settings R}
    {nn : NeuralNetwork R} (h : NewNeuralNetwork M rng s = .ok nn)
    (hknown : ∀ h ∈ s.HiddenLayers, 0 ≤ h.ActivationFunc ∧ h.ActivationFunc ≤ 4)
    (hsize : ∀ i, i ≤ s.HiddenLayers.length →
      (plannedLayer s i).2.1 * (plannedLayer s i).1 < 9223372036854775808) :
    nn.WellFormed ∧
    (nn.weights.getD (nn.weights.length - 1) Weights.zero).actFunc = some .softMax := by
  obtain ⟨-, hin, hout, -, hlen, hlayers⟩ := NewNeuralNetwork_eq_ok h
  have hget : ∀ i (hi : i < nn.weights.length),
      newRandomWeights M (rng i) (plannedLayer s i).1 (plannedLayer s i).2.1
        (plannedLayer s i).2.2 = .ok nn.weights[i] := by
    intro i hi
    obtain ⟨w, hw, hnew⟩ := hlayers i (by omega)
    rw [List.getElem?_eq_getElem hi] at hw
    cases hw
    exact hnew
  have hpos : 0 < nn.weights.length := by omega
  have hlast : nn.weights.length - 1 < nn.weights.length := by omega
  refine ⟨⟨⟨?_, ?_, ?_⟩, ?_⟩, ?_⟩
  · rw [List.head?_eq_getElem?, List.getElem?_eq_getElem hpos]
    obtain ⟨-, -, hL, -⟩ := newRandomWeights_eq_ok (hget 0 hpos)
    simp only [Option.map_some', Option.some.injEq]
    rw [hL, hin]
    simp [plannedLayer]
  · apply List.ext_getElem
    · simp
    · intro i h1 h2
      simp only [List.length_map, List.length_dropLast, List.length_tail] at h1 h2
      simp only [List.getElem_map, List.getElem_dropLast, List.getElem_tail]
      obtain ⟨-, -, -, hR, -⟩ := newRandomWeights_eq_ok (hget i (by omega))
      obtain ⟨-, -, hL, -⟩ := newRandomWeights_eq_ok (hget (i + 1) (by omega))
      rw [hR, hL]
      exact plannedLayer_chain s i (by omega)
  · rw [List.getLast?_eq_getElem?, List.getElem?_eq_getElem hlast]
    obtain ⟨-, -, -, hR, hA, -⟩ := newRandomWeights_eq_ok (hget _ hlast)
    simp only [Option.map_some', Option.some.injEq, Prod.mk.injEq]
    rw [hR, hA, hout]
    have hk : ¬ (nn.weights.length - 1 < s.HiddenLayers.length) := by omega
    simp [plannedLayer, hk]
  · intro w hw
    obtain ⟨i, hi, rfl⟩ := List.getElem_of_mem hw
    obtain ⟨hl, hr, hL, hR, hA, hrows, hcols, hdata, hf, hd⟩ := newRandomWeights_eq_ok (hget i hi)
    obtain ⟨hk0, hk4⟩ := plannedLayer_known s hknown i
    obtain ⟨hs1, hs2⟩ := Funcs_isSome_of_known _ hk0 hk4
    refine ⟨by rw [hrows, hR], by rw [hcols, hL], by omega, by omega,
      newRandomWeights_data_length (hget i hi) (hsize i (by omega)), ?_, ?_⟩
    · rw [hf]; exact hs1
    · rw [hd]; exact hs2
  · rw [List.getD_eq_getElem _ _ hlast]
    obtain ⟨-, -, -, -, -, -, -, -, hf, -⟩ := newRandomWeights_eq_ok (hget _ hlast)
    rw [hf]
    have hk : ¬ (nn.weights.length - 1 < s.HiddenLayers.length) := by omega
    simp [plannedLayer, hk]
    rfl

end nn

namespace nn
open mat
variable {R : Type} [LinearOrderedField R]

/-- On a well-formed network whose last activation function is `softMax`,
`FeedForward` returns a distribution over the output nodes whenever `math.Exp` is
positive. -/
theorem FeedForward_distribution_of_exp_pos (M : MathLib R) (hexp : ∀ x, 0 < M.Exp x)
    (nn : NeuralNetwork R) (input : VecDense R) (hwf : nn.WellFormed)
    (hsm : (nn.weights.getD (nn.weights.length - 1) Weights.zero).actFunc = some .softMax)
    (hin : (input.length : Int) = nn.InputNodes) :
    ∃ out, FeedForward M nn input = .ok out ∧ (out.length : Int) = nn.OutputNodes
      ∧ (∀ y ∈ out, 0 ≤ y) ∧ out.sum = 1 := by
  obtain ⟨hpos, hW, -, -, hlastR, -⟩ := hwf.facts
  obtain ⟨a, ⟨halen, htr⟩, hlens, hrun⟩ := FeedForwardRun_ok M nn input hwf hin
  have hlast : nn.weights.length - 1 < nn.weights.length := by omega
  obtain ⟨hrows, -, hrpos, -⟩ := hW _ hlast
  have hcall := htr _ _ (getElem?_of_lt_getD Weights.zero hlast)
  rw [hsm] at hcall
  have hne : matVec (nn.weights.getD (nn.weights.length - 1) Weights.zero).m
      (layerInput input a (nn.weights.length - 1)) ≠ [] := by
    intro h0
    have := matVec_length (nn.weights.getD (nn.weights.length - 1) Weights.zero).m
      (layerInput input a (nn.weights.length - 1))
    rw [h0] at this
    exact absurd this.symm (Nat.ne_of_gt hrpos)
  obtain ⟨mx, out, -, -, hsoft, -, hnonneg, hsum⟩ := softMax_of_exp_pos M hexp _ hne
  have hout : a.getD (nn.weights.length - 1) [] = out := by
    have h1 : callActFunc M (some activationFunction.softMax)
        (matVec (nn.weights.getD (nn.weights.length - 1) Weights.zero).m
          (layerInput input a (nn.weights.length - 1))) = .ok out := hsoft
    rw [hcall] at h1
    cases h1
    rfl
  refine ⟨out, ?_, ?_, hnonneg, hsum⟩
  · unfold FeedForward
    rw [hrun, ← hout]
    rfl
  · rw [← hout, hlens _ hlast, hrows, hlastR]

/-- C8 (amended): in exact real arithmetic (`math.Exp` is the real exponential and no
operation rounds, overflows or yields NaN), for a network that `NewNeuralNetwork`
returns for settings whose hidden layers name activation kinds among the five known
ones and whose products `RNodes*LNodes` are below `2^63`, and for every input of
`InputNodes` entries, `FeedForward` returns a vector of `OutputNodes` entries that are
all `≥ 0` and sum to 1, whatever those activations and the weights are. -/
theorem FeedForward_softmax_output (M : MathLib ℝ) (hM : M.Exp = Real.exp)
    (rng : Nat → Nat → ℝ) (s : Settings ℝ) (nn : NeuralNetwork ℝ) (input : VecDense ℝ)
    (hnew : NewNeuralNetwork M rng s = .ok nn)
    (hknown : ∀ h ∈ s.HiddenLayers, 0 ≤ h.ActivationFunc ∧ h.ActivationFunc ≤ 4)
    (hsize : ∀ i, i ≤ s.HiddenLayers.length →
      (plannedLayer s i).2.1 * (plannedLayer s i).1 < 9223372036854775808)
    (hin : (input.length : Int) = nn.InputNodes) :
    ∃ out, FeedForward M nn input = .ok out ∧ (out.length : Int) = nn.OutputNodes
      ∧ (∀ y ∈ out, 0 ≤ y) ∧ out.sum = 1 := by
  obtain ⟨hwf, hsm⟩ := NewNeuralNetwork_wellFormed hnew hknown hsize
  exact FeedForward_distribution_of_exp_pos M (fun x => by rw [hM]; exact Real.exp_pos x)
    nn input hwf hsm hin

/-- C8 witness: 4 inputs, one hidden layer of 5 `LeakyRelu` nodes, 3 outputs, learning
rate 0.01, fed the zero vector. -/
theorem FeedForward_softmax_output_witness :
    ∃ nn : NeuralNetwork ℝ,
      NewNeuralNetwork ⟨Real.exp, Real.sinh, Real.cosh, Real.sqrt⟩ (fun k i => ((k + i : Nat) : ℝ))
        ⟨4, 3, 1 / 100, [⟨5, LeakyRelu⟩]⟩ = .ok nn ∧
      (∀ h ∈ [(⟨5, LeakyRelu⟩ : HiddenLayer)], 0 ≤ h.ActivationFunc ∧ h.ActivationFunc ≤ 4) ∧
      (∀ i, i ≤ 1 →
        (plannedLayer (⟨4, 3, 1 / 100, [⟨5, LeakyRelu⟩]⟩ : Settings ℝ) i).2.1
          * (plannedLayer (⟨4, 3, 1 / 100, [⟨5, LeakyRelu⟩]⟩ : Settings ℝ) i).1
          < 9223372036854775808) ∧
      ((([0, 0, 0, 0] : VecDense ℝ).length : Int) = nn.InputNodes) ∧
      ∃ out, FeedForward ⟨Real.exp, Real.sinh, Real.cosh, Real.sqrt⟩ nn [0, 0, 0, 0] = .ok out
        ∧ (out.length : Int) = nn.OutputNodes ∧ (∀ y ∈ out, 0 ≤ y) ∧ out.sum = 1 := by
  have hplan : ∀ i, i ≤ 1 →
      (plannedLayer (⟨4, 3, 1 / 100, [⟨5, LeakyRelu⟩]⟩ : Settings ℝ) i).1 ≤ 5 ∧
      (plannedLayer (⟨4, 3, 1 / 100, [⟨5, LeakyRelu⟩]⟩ : Settings ℝ) i).2.1 ≤ 5 ∧
      0 < (plannedLayer (⟨4, 3, 1 / 100, [⟨5, LeakyRelu⟩]⟩ : Settings ℝ) i).1 ∧
      0 < (plannedLayer (⟨4, 3, 1 / 100, [⟨5, LeakyRelu⟩]⟩ : Settings ℝ) i).2.1 := by
    intro i hi
    interval_cases i
    · simp [plannedLayer]
    · simp [plannedLayer]
  have hsize : ∀ i, i ≤ 1 →
      (plannedLayer (⟨4, 3, 1 / 100, [⟨5, LeakyRelu⟩]⟩ : Settings ℝ) i).2.1
        * (plannedLayer (⟨4, 3, 1 / 100, [⟨5, LeakyRelu⟩]⟩ : Settings ℝ) i).1
        < 9223372036854775808 := by
    intro i hi
    obtain ⟨h1, h2, h3, h4⟩ := hplan i hi
    nlinarith
  have halloc : ∀ i, i ≤ 1 →
      Allocatable (plannedLayer (⟨4, 3, 1 / 100, [⟨5, LeakyRelu⟩]⟩ : Settings ℝ) i).1
        (plannedLayer (⟨4, 3, 1 / 100, [⟨5, LeakyRelu⟩]⟩ : Settings ℝ) i).2.1 := by
    intro i hi
    obtain ⟨h1, h2, h3, h4⟩ := hplan i hi
    have h5 : 0 ≤ (plannedLayer (⟨4, 3, 1 / 100, [⟨5, LeakyRelu⟩]⟩ : Settings ℝ) i).2.1
        * (plannedLayer (⟨4, 3, 1 / 100, [⟨5, LeakyRelu⟩]⟩ : Settings ℝ) i).1 := by positivity
    have h6 : (plannedLayer (⟨4, 3, 1 / 100, [⟨5, LeakyRelu⟩]⟩ : Settings ℝ) i).2.1
        * (plannedLayer (⟨4, 3, 1 / 100, [⟨5, LeakyRelu⟩]⟩ : Settings ℝ) i).1 ≤ 25 := by
      nlinarith
    unfold Allocatable
    rw [wrapInt_of_lt h5 (by omega)]
    exact ⟨h5, le_trans h6 (by decide)⟩
  obtain ⟨nn, hnn⟩ := NewNeuralNetwork_ok_of_checks
    (⟨Real.exp, Real.sinh, Real.cosh, Real.sqrt⟩ : MathLib ℝ) (fun k i => ((k + i : Nat) : ℝ))
    (⟨4, 3, 1 / 100, [⟨5, LeakyRelu⟩]⟩ : Settings ℝ) (by decide) (by decide)
    (by unfold minLearningRate; norm_num) (by norm_num) (by simp) (by simp) halloc
  have hknown : ∀ h ∈ [(⟨5, LeakyRelu⟩ : HiddenLayer)],
      0 ≤ h.ActivationFunc ∧ h.ActivationFunc ≤ 4 := by
    intro h hh
    simp only [List.mem_singleton] at hh
    subst hh
    decide
  have hin : ((([0, 0, 0, 0] : VecDense ℝ).length : Int) = nn.InputNodes) := by
    rw [(NewNeuralNetwork_eq_ok hnn).2.1]
    rfl
  exact ⟨nn, hnn, hknown, hsize, hin,
    FeedForward_softmax_output _ rfl _ _ nn [0, 0, 0, 0] hnn hknown hsize hin⟩

end nn

namespace nn
open mat
variable {R : Type} [LinearOrderedField R]

/-! ## Lists and dense matrices -/

theorem getD_set_ne {α : Type} (xs : List α) (i j : Nat) (v d : α) (h : j ≠ i) :
    (xs.set i v).getD j d = xs.getD j d := by
  rw [List.getD_eq_getElem?_getD, List.getD_eq_getElem?_getD,
    List.getElem?_set_ne (Ne.symm h)]

theorem getD_set_eq {α : Type} (xs : List α) (i : Nat) (v d : α) (h : i < xs.length) :
    (xs.set i v).getD i d = v := by
  rw [List.getD_eq_getElem?_getD, List.getElem?_set_self h]
  rfl

theorem ext_getD {α : Type} {xs ys : List α} (d : α) (hlen : xs.length = ys.length)
    (h : ∀ i, i < xs.length → xs.getD i d = ys.getD i d) : xs = ys := by
  apply List.ext_getElem hlen
  intro i h1 h2
  have := h i h1
  rwa [List.getD_eq_getElem _ _ h1, List.getD_eq_getElem _ _ h2] at this

theorem map_eq_map_getD {α β γ : Type} (f : α → γ) (g : β → γ) {xs : List α} {ys : List β}
    (h : xs.map f = ys.map g) (dx : α) (dy : β) :
    xs.length = ys.length ∧ ∀ i, i < ys.length → f (xs.getD i dx) = g (ys.getD i dy) := by
  have hlen : xs.length = ys.length := by
    have := congrArg List.length h
    simpa using this
  refine ⟨hlen, fun i hi => ?_⟩
  have hx : i < xs.length := by omega
  have h1 : (xs.map f)[i]? = (ys.map g)[i]? := by rw [h]
  rw [List.getElem?_map, List.getElem?_map, List.getElem?_eq_getElem hx,
    List.getElem?_eq_getElem hi] at h1
  rw [List.getD_eq_getElem _ _ hx, List.getD_eq_getElem _ _ hi]
  simpa using h1

theorem getD_range_map {β : Type} (f : Nat → β) (n i : Nat) (d : β) (hi : i < n) :
    ((List.range n).map f).getD i d = f i := by
  rw [List.getD_eq_getElem _ _ (by simpa using hi)]
  simp

theorem Dense.ofFn_congr {r c : Nat} {f g : Nat → Nat → R}
    (h : ∀ i, i < r → ∀ j, j < c → f i j = g i j) : Dense.ofFn r c f = Dense.ofFn r c g := by
  unfold Dense.ofFn
  congr 1
  apply List.map_congr_left
  intro k hk
  have hk2 : k < r * c := List.mem_range.1 hk
  have hc : 0 < c := by
    rcases Nat.eq_zero_or_pos c with h0 | h0
    · rw [h0] at hk2; simp at hk2
    · exact h0
  exact h _ (Nat.div_lt_of_lt_mul (by rwa [Nat.mul_comm] at hk2)) _ (Nat.mod_lt _ hc)

theorem Dense.ofFn_getD {r c : Nat} (f : Nat → Nat → R) {i j : Nat} (hi : i < r) (hj : j < c) :
    (Dense.ofFn r c f).data.getD (i * c + j) 0 = f i j := by
  have hlt : i * c + j < r * c := by
    calc i * c + j < i * c + c := by omega
      _ = (i + 1) * c := by ring
      _ ≤ r * c := Nat.mul_le_mul_right c hi
  unfold Dense.ofFn
  simp only
  rw [getD_range_map _ _ _ _ hlt]
  have h1 : (i * c + j) / c = i := by
    rw [Nat.add_comm, Nat.add_mul_div_right _ _ (by omega), Nat.div_eq_of_lt hj, Nat.zero_add]
  have h2 : (i * c + j) % c = j := by
    rw [Nat.add_comm, Nat.add_mul_mod_self_right, Nat.mod_eq_of_lt hj]
  rw [h1, h2]

theorem Dense.ofFn_self (W : Dense R) (h : W.data.length = W.rows * W.cols) :
    Dense.ofFn W.rows W.cols (fun i j => W.data.getD (i * W.cols + j) 0) = W := by
  obtain ⟨r, c, data⟩ := W
  simp only at h
  unfold Dense.ofFn
  simp only [Dense.mk.injEq, true_and]
  apply ext_getD 0
  · simp [h]
  · intro k hk
    simp only [List.length_map, List.length_range] at hk
    rw [getD_range_map _ _ _ _ hk, Nat.mul_comm (k / c) c, Nat.div_add_mod]

end nn

namespace nn
open mat
variable {R : Type} [LinearOrderedField R]

theorem Dense.reuseAsNonZeroed_dims_ok (m : Dense R) (r c : Nat) (hr : 0 < r) (hc : 0 < c)
    (hmr : m.rows = r) (hmc : m.cols = c) : Dense.reuseAsNonZeroed m r c = .ok () := by
  unfold Dense.reuseAsNonZeroed Dense.IsEmpty
  rw [if_neg (by omega)]
  have h1 : (m.cols == 0) = false := by
    rw [beq_eq_false_iff_ne]
    omega
  rw [h1]
  simp only [Bool.false_eq_true, if_false]
  rw [if_neg (by omega)]

/-- The call `wd.Mul(adj, prev.T())`: the outer product of two vectors. -/
theorem Dense.Mul_outer_ok (wd : Dense R) (adj prev : VecDense R) (ha : 0 < adj.length)
    (hp : 0 < prev.length) (hr : wd.rows = adj.length) (hc : wd.cols = prev.length) :
    Dense.Mul wd (.vec adj) (.transpose (.vec prev))
      = .ok (Dense.ofFn adj.length prev.length fun i j => adj.getD i 0 * prev.getD j 0) := by
  unfold Dense.Mul
  simp only [Matrix.Dims]
  rw [if_neg (by omega : ¬ adj.length = 0), if_neg (by omega : ¬ prev.length = 0)]
  simp only
  rw [if_neg (by simp), Dense.reuseAsNonZeroed_dims_ok wd _ _ ha hp hr hc, except_ok_bind]
  simp [Matrix.At, pure, Except.pure]

/-- The call `wd.Scale(lr, D)` on a dense matrix. -/
theorem Dense.Scale_ok (wd : Dense R) (lr : R) (D : Dense R) (hr0 : 0 < D.rows)
    (hc0 : 0 < D.cols) (hr : wd.rows = D.rows) (hc : wd.cols = D.cols) :
    Dense.Scale wd lr (.dense D)
      = .ok (Dense.ofFn D.rows D.cols fun i j => lr * D.data.getD (i * D.cols + j) 0) := by
  unfold Dense.Scale
  simp only [Matrix.Dims]
  rw [Dense.reuseAsNonZeroed_dims_ok wd _ _ hr0 hc0 hr hc, except_ok_bind]
  rfl

/-- The call `m.Add(A, B)` on dense matrices of one shape. -/
theorem Dense.Add_ok (m A B : Dense R) (hr0 : 0 < A.rows) (hc0 : 0 < A.cols)
    (hr : m.rows = A.rows) (hc : m.cols = A.cols) (hBr : A.rows = B.rows)
    (hBc : A.cols = B.cols) :
    Dense.Add m (.dense A) (.dense B)
      = .ok (Dense.ofFn A.rows A.cols fun i j =>
          A.data.getD (i * A.cols + j) 0 + B.data.getD (i * B.cols + j) 0) := by
  unfold Dense.Add
  simp only [Matrix.Dims]
  rw [if_neg (by simp [hBr, hBc]), Dense.reuseAsNonZeroed_dims_ok m _ _ hr0 hc0 hr hc, except_ok_bind]
  rfl

theorem Dense.Scale_outer_eq (lr : R) (adj prev : VecDense R) :
    (Dense.ofFn (Dense.ofFn adj.length prev.length
        fun i j => adj.getD i 0 * prev.getD j 0).rows
      (Dense.ofFn adj.length prev.length fun i j => adj.getD i 0 * prev.getD j 0).cols
      fun i j => lr * (Dense.ofFn adj.length prev.length
        fun i j => adj.getD i 0 * prev.getD j 0).data.getD
          (i * (Dense.ofFn adj.length prev.length
            fun i j => adj.getD i 0 * prev.getD j 0).cols + j) 0)
      = scaledOuter lr adj prev := by
  unfold scaledOuter
  show Dense.ofFn adj.length prev.length _ = _
  apply Dense.ofFn_congr
  intro i hi j hj
  show lr * (Dense.ofFn adj.length prev.length _).data.getD (i * prev.length + j) 0 = _
  rw [Dense.ofFn_getD _ hi hj]

theorem Dense.Add_scaledOuter_eq (W : Dense R) (lr : R) (adj prev : VecDense R)
    (hr : W.rows = adj.length) (hc : W.cols = prev.length) :
    (Dense.ofFn W.rows W.cols fun i j =>
        W.data.getD (i * W.cols + j) 0
          + (scaledOuter lr adj prev).data.getD (i * (scaledOuter lr adj prev).cols + j) 0)
      = updatedMatrix W lr adj prev := by
  unfold updatedMatrix
  apply Dense.ofFn_congr
  intro i hi j hj
  have : (scaledOuter lr adj prev).cols = prev.length := rfl
  rw [this]
  unfold scaledOuter
  rw [Dense.ofFn_getD _ (by omega) (by omega)]

end nn

namespace nn
open mat
variable {R : Type} [LinearOrderedField R]

/-! ## `Train`: the forward pass -/

theorem layerInput_set_ge (input : VecDense R) (a : List (VecDense R)) (x : VecDense R)
    {i j : Nat} (hj : j ≤ i) : layerInput input (a.set i x) j = layerInput input a j := by
  unfold layerInput
  by_cases h0 : j = 0
  · rw [if_pos h0, if_pos h0]
  · rw [if_neg h0, if_neg h0, getD_set_ne a i (j - 1) x [] (by omega)]

/-- The input of layer `i` has as many entries as the matrix of layer `i` has
columns, when the vectors before it have the sizes of their layers. -/
theorem layerInput_length (ws : List (Weights R)) (input : VecDense R) (a : List (VecDense R))
    (hc0 : (ws.getD 0 Weights.zero).m.cols = input.length)
    (hcs : ∀ i, i + 1 < ws.length →
      (ws.getD (i + 1) Weights.zero).m.cols = (ws.getD i Weights.zero).m.rows)
    (i : Nat) (hi : i < ws.length)
    (ha : ∀ j, j < i → (a.getD j []).length = (ws.getD j Weights.zero).m.rows) :
    (ws.getD i Weights.zero).m.cols = (layerInput input a i).length := by
  cases i with
  | zero => exact hc0
  | succ k =>
    rw [layerInput_succ, ha k (Nat.lt_succ_self k)]
    exact hcs k hi

theorem trainForwardStep_ok (M : MathLib R) (ws : List (Weights R)) (input : VecDense R)
    (outs : List (VecDense R)) (i : Nat) (hi : i < ws.length)
    (hW : (ws.getD i Weights.zero).WellFormed)
    (hlen : outs.length = ws.length)
    (hout : (outs.getD i []).length = (ws.getD i Weights.zero).m.rows)
    (hin : (ws.getD i Weights.zero).m.cols = (layerInput input outs i).length) :
    ∃ o, callActFunc M (ws.getD i Weights.zero).actFunc
          (matVec (ws.getD i Weights.zero).m (layerInput input outs i)) = .ok o ∧
      o.length = (ws.getD i Weights.zero).m.rows ∧
      trainForwardStep M ws input outs i = .ok (outs.set i o) := by
  obtain ⟨-, -, hrpos, -, -, hact, -⟩ := hW
  obtain ⟨o, ho, holen⟩ := callActFunc_ok M (ws.getD i Weights.zero).actFunc
    (matVec (ws.getD i Weights.zero).m (layerInput input outs i)) hact
    (by rw [matVec_length]; exact hrpos)
  refine ⟨o, ho, by rw [holen, matVec_length], ?_⟩
  have hmul : (if i > 0 then do
        let prev ← index outs ((i : Int) - 1)
        VecDense.MulVec (outs.getD i []) (.dense (ws.getD i Weights.zero).m) prev
      else VecDense.MulVec (outs.getD i []) (.dense (ws.getD i Weights.zero).m) input)
      = .ok (matVec (ws.getD i Weights.zero).m (layerInput input outs i)) := by
    cases i with
    | zero =>
      rw [if_neg (by omega)]
      exact VecDense.MulVec_dense_ok _ _ _ hout hrpos hin
    | succ k =>
      rw [if_pos (by omega)]
      have e : (((k + 1 : Nat) : Int) - 1) = (k : Int) := by omega
      rw [e, index_getD [] (by omega : k < outs.length), except_ok_bind]
      rw [layerInput_succ] at hin
      rw [layerInput_succ]
      exact VecDense.MulVec_dense_ok _ _ _ hout hrpos hin
  unfold trainForwardStep
  rw [index_getD [] (by omega : i < outs.length), except_ok_bind,
    index_getD Weights.zero hi, except_ok_bind, hmul, except_ok_bind, ho, except_ok_bind]
  exact setIndex_nat o (by omega)

/-- The loop "Feed forward" of `Train` returns the forward trace, whatever the
buffers held before. -/
theorem trainForward_ok (M : MathLib R) (ws : List (Weights R)) (input : VecDense R)
    (outputs : List (VecDense R))
    (hW : ∀ i, i < ws.length → (ws.getD i Weights.zero).WellFormed)
    (hc0 : (ws.getD 0 Weights.zero).m.cols = input.length)
    (hcs : ∀ i, i + 1 < ws.length →
      (ws.getD (i + 1) Weights.zero).m.cols = (ws.getD i Weights.zero).m.rows)
    (hlen : outputs.length = ws.length)
    (hsz : ∀ i, i < ws.length →
      (outputs.getD i []).length = (ws.getD i Weights.zero).m.rows) :
    ∃ a, trainForward M ws input outputs = .ok a ∧ IsForwardTrace M ws input a ∧
      ∀ i, i < ws.length → (a.getD i []).length = (ws.getD i Weights.zero).m.rows := by
  obtain ⟨a, hrun, halen, hasz, htr⟩ := forRange_ok
    (fun i (outs : List (VecDense R)) => outs.length = ws.length ∧
      (∀ j, j < ws.length → (outs.getD j []).length = (ws.getD j Weights.zero).m.rows) ∧
      (∀ j, j < i → callActFunc M (ws.getD j Weights.zero).actFunc
          (matVec (ws.getD j Weights.zero).m (layerInput input outs j))
            = .ok (outs.getD j [])))
    (trainForwardStep M ws input) ws.length outputs
    ⟨hlen, hsz, fun j hj => absurd hj (Nat.not_lt_zero j)⟩
    (by
      rintro i outs hi ⟨hl, hs, ht⟩
      obtain ⟨o, ho, holen, hstep⟩ := trainForwardStep_ok M ws input outs i hi (hW i hi) hl
        (hs i hi) (layerInput_length ws input outs hc0 hcs i hi (fun j hj => hs j (by omega)))
      refine ⟨outs.set i o, hstep, by simp [hl], ?_, ?_⟩
      · intro j hj
        by_cases hji : j = i
        · subst hji
          rw [getD_set_eq outs j o [] (by omega)]
          exact holen
        · rw [getD_set_ne outs i j o [] hji]
          exact hs j hj
      · intro j hj
        rw [layerInput_set_ge input outs o (by omega)]
        by_cases hji : j = i
        · subst hji
          rw [getD_set_eq outs j o [] (by omega)]
          exact ho
        · rw [getD_set_ne outs i j o [] hji]
          exact ht j (by omega))
  refine ⟨a, hrun, ⟨halen, ?_⟩, hasz⟩
  intro i w hw
  have hi : i < ws.length := (List.getElem?_eq_some_iff.1 hw).1
  have := htr i hi
  rwa [getD_of_getElem? Weights.zero hw] at this

/-- The forward trace of a list of layers on an input is unique. -/
theorem IsForwardTrace.unique {M : MathLib R} {ws : List (Weights R)} {input : VecDense R}
    {a b : List (VecDense R)} (ha : IsForwardTrace M ws input a)
    (hb : IsForwardTrace M ws input b) : a = b := by
  obtain ⟨hal, hat⟩ := ha
  obtain ⟨hbl, hbt⟩ := hb
  apply ext_getD [] (by rw [hal, hbl])
  intro i hi
  induction i using Nat.strong_induction_on with
  | _ i ih =>
    have hiw : i < ws.length := by omega
    have h1 := hat i _ (getElem?_of_lt_getD Weights.zero hiw)
    have h2 := hbt i _ (getElem?_of_lt_getD Weights.zero hiw)
    have hin : layerInput input a i = layerInput input b i := by
      cases i with
      | zero => rfl
      | succ k =>
        rw [layerInput_succ, layerInput_succ]
        exact ih k (Nat.lt_succ_self k) (by omega)
    rw [hin, h2] at h1
    exact (Except.ok.inj h1).symm

end nn

namespace nn
open mat
variable {R : Type} [LinearOrderedField R]

/-! ## `Train`: the errors -/

theorem trainErrorsStep_ok (ws : List (Weights R)) (errs : List (VecDense R)) (i : Nat)
    (hi : i + 1 < ws.length) (hcpos : 0 < (ws.getD (i + 1) Weights.zero).m.cols)
    (hlen : errs.length = ws.length)
    (he : (errs.getD i []).length = (ws.getD (i + 1) Weights.zero).m.cols)
    (hnext : (ws.getD (i + 1) Weights.zero).m.rows = (errs.getD (i + 1) []).length) :
    trainErrorsStep ws errs i
      = .ok (errs.set i (matTVec (ws.getD (i + 1) Weights.zero).m (errs.getD (i + 1) []))) := by
  unfold trainErrorsStep
  rw [index_getD [] (by omega : i < errs.length), except_ok_bind,
    index_getD_succ Weights.zero hi, except_ok_bind,
    index_getD_succ [] (by omega : i + 1 < errs.length), except_ok_bind,
    VecDense.MulVec_transpose_ok _ _ _ he hcpos hnext, except_ok_bind]
  exact setIndex_nat _ (by omega)

/-- The part "Calulate errors" of `Train` returns the error trace, whatever the
buffers held before. -/
theorem trainErrors_ok (ws : List (Weights R)) (target : VecDense R)
    (a errors : List (VecDense R)) (hpos : 0 < ws.length)
    (hP : ∀ i, i < ws.length →
      0 < (ws.getD i Weights.zero).m.rows ∧ 0 < (ws.getD i Weights.zero).m.cols)
    (hcs : ∀ i, i + 1 < ws.length →
      (ws.getD (i + 1) Weights.zero).m.cols = (ws.getD i Weights.zero).m.rows)
    (halen : a.length = ws.length)
    (hlast : (a.getD (ws.length - 1) []).length
      = (ws.getD (ws.length - 1) Weights.zero).m.rows)
    (ht : target.length = (ws.getD (ws.length - 1) Weights.zero).m.rows)
    (helen : errors.length = ws.length)
    (hesz : ∀ i, i < ws.length →
      (errors.getD i []).length = (ws.getD i Weights.zero).m.rows) :
    ∃ e, trainErrors ws target a errors = .ok e ∧ IsErrorTrace ws target a e ∧
      ∀ i, i < ws.length → (e.getD i []).length = (ws.getD i Weights.zero).m.rows := by
  have hl : ws.length - 1 < ws.length := by omega
  obtain ⟨hrpos, -⟩ := hP _ hl
  obtain ⟨e, hrun, hel, hes, helast, hetr⟩ := forDown_ok
    (fun k (errs : List (VecDense R)) => errs.length = ws.length ∧
      (∀ j, j < ws.length → (errs.getD j []).length = (ws.getD j Weights.zero).m.rows) ∧
      errs.getD (ws.length - 1) [] = vecSub target (a.getD (ws.length - 1) []) ∧
      (∀ j, k ≤ j → j + 1 < ws.length →
        errs.getD j [] = matTVec (ws.getD (j + 1) Weights.zero).m (errs.getD (j + 1) [])))
    (trainErrorsStep ws) (ws.length - 1)
    (errors.set (ws.length - 1) (vecSub target (a.getD (ws.length - 1) [])))
    (by
      refine ⟨by simp [helen], ?_, getD_set_eq _ _ _ _ (by omega), fun j h1 h2 => by omega⟩
      intro j hj
      by_cases hjl : j = ws.length - 1
      · rw [hjl, getD_set_eq _ _ _ _ (by omega), vecSub_length, ht]
      · rw [getD_set_ne _ _ _ _ _ hjl]
        exact hesz j hj)
    (by
      rintro i errs hi ⟨hl1, hs1, hlast1, htr1⟩
      have hi1 : i + 1 < ws.length := by omega
      have hstep := trainErrorsStep_ok ws errs i hi1 (hP _ hi1).2 hl1
        (by rw [hs1 i (by omega), hcs i hi1]) (hs1 (i + 1) hi1).symm
      refine ⟨_, hstep, by simp [hl1], ?_, ?_, ?_⟩
      · intro j hj
        by_cases hji : j = i
        · subst hji
          rw [getD_set_eq _ _ _ _ (by omega), matTVec_length, hcs j hi1]
        · rw [getD_set_ne _ _ _ _ _ hji]
          exact hs1 j hj
      · rw [getD_set_ne _ _ _ _ _ (by omega)]
        exact hlast1
      · intro j hj1 hj2
        rw [getD_set_ne _ i (j + 1) _ _ (by omega)]
        by_cases hji : j = i
        · subst hji
          rw [getD_set_eq _ _ _ _ (by omega)]
        · rw [getD_set_ne _ _ _ _ _ hji]
          exact htr1 j (by omega) hj2)
  refine ⟨e, ?_, ⟨hel, helast, ?_⟩, hes⟩
  · unfold trainErrors
    dsimp only
    rw [index_getD_pred [] hpos (by omega : ws.length - 1 < errors.length), except_ok_bind,
      index_getD_pred [] hpos (by omega : ws.length - 1 < a.length), except_ok_bind,
      VecDense.SubVec_ok _ _ _ (by rw [ht, hlast]) (by omega)
        (by rw [hesz _ hl, ht]), except_ok_bind,
      setIndex_nat_pred _ hpos (by omega : ws.length - 1 < errors.length), except_ok_bind]
    exact hrun
  · intro i w hw
    have hi : i + 1 < ws.length := (List.getElem?_eq_some_iff.1 hw).1
    have := hetr i (Nat.zero_le i) hi
    rwa [getD_of_getElem? Weights.zero hw] at this

end nn

namespace nn
open mat
variable {R : Type} [LinearOrderedField R]

/-! ## `Train`: the weight update -/

theorem set_getD_self_gen {α : Type} (v : List α) (i : Nat) (d : α) :
    v.set i (v.getD i d) = v := by
  induction v generalizing i with
  | nil => rfl
  | cons x xs ih =>
    cases i with
    | zero => rfl
    | succ i =>
      show x :: xs.set i (xs.getD i d) = x :: xs
      rw [ih]

theorem set_take_append_drop {α : Type} (X Y : List α) (j : Nat) (d : α)
    (hX : j < X.length) (hY : j < Y.length) :
    (X.take j ++ Y.drop j).set j (X.getD j d) = X.take (j + 1) ++ Y.drop (j + 1) := by
  have hlen : (X.take j).length = j := by simp [Nat.le_of_lt hX]
  rw [List.set_append_right _ _ (by omega), hlen, Nat.sub_self,
    List.drop_eq_getElem_cons hY, List.set_cons_zero, List.take_succ,
    List.getElem?_eq_getElem hX, List.getD_eq_getElem _ _ hX]
  simp only [Option.toList_some, List.append_assoc, List.singleton_append]

theorem VecDense.AtVec_ok (v : VecDense R) (j : Nat) (hj : j < v.length) :
    VecDense.AtVec v j = .ok (v.getD j 0) := by
  unfold VecDense.AtVec
  rw [List.getElem?_eq_getElem hj, List.getD_eq_getElem _ _ hj]

theorem adjustment_length (d : R → R) (e o : VecDense R) :
    (adjustment d e o).length = o.length := by
  simp [adjustment]

theorem adjustment_getD (d : R → R) (e o : VecDense R) (j : Nat) (hj : j < o.length) :
    (adjustment d e o).getD j 0 = e.getD j 0 * d (o.getD j 0) := by
  unfold adjustment
  rw [getD_range_map _ _ _ _ hj]

/-- The inner loop of "Update weights" overwrites `adjVec[i]` with the adjustment
vector of layer `i`. -/
theorem trainAdj_ok (ws : List (Weights R)) (a e av : List (VecDense R)) (i : Nat)
    (d : activationFunctionD) (hiw : i < ws.length)
    (hd : (ws.getD i Weights.zero).derivFunc = some d)
    (hia : i < a.length) (hie : i < e.length) (hiv : i < av.length)
    (hesz : (e.getD i []).length = (a.getD i []).length)
    (hvsz : (av.getD i []).length = (a.getD i []).length) :
    (List.range (a.getD i []).length).foldlM (trainAdjStep ws a e i) av
      = .ok (av.set i (adjustment d.call (e.getD i []) (a.getD i []))) := by
  obtain ⟨t, ht, hInv⟩ := forRange_ok
    (fun j (av1 : List (VecDense R)) => av1 = av.set i
      ((adjustment d.call (e.getD i []) (a.getD i [])).take j ++ (av.getD i []).drop j))
    (trainAdjStep ws a e i) (a.getD i []).length av
    (by
      show av = av.set i (_ ++ _)
      rw [List.take_zero, List.drop_zero, List.nil_append, set_getD_self_gen])
    (by
      intro j av1 hj hav1
      subst hav1
      have hP : ((adjustment d.call (e.getD i []) (a.getD i [])).take j
          ++ (av.getD i []).drop j).length = (a.getD i []).length := by
        simp only [List.length_append, List.length_take, List.length_drop, adjustment_length]
        omega
      refine ⟨_, ?_, rfl⟩
      unfold trainAdjStep
      rw [index_getD [] (by simpa using hiv), except_ok_bind, getD_set_eq _ _ _ _ hiv,
        index_getD [] hie, except_ok_bind, VecDense.AtVec_ok _ _ (by omega), except_ok_bind,
        index_getD Weights.zero hiw, except_ok_bind, index_getD [] hia, except_ok_bind,
        VecDense.AtVec_ok _ _ hj, except_ok_bind, hd]
      simp only [callDerivFunc, except_ok_bind]
      unfold VecDense.SetVec
      rw [if_pos (by omega), except_ok_bind, setIndex_nat _ (by simpa using hiv),
        List.set_set, ← adjustment_getD d.call (e.getD i []) (a.getD i []) j hj,
        set_take_append_drop _ _ _ _ (by rw [adjustment_length]; exact hj) (by omega)])
  rw [ht, hInv]
  congr 2
  rw [← adjustment_length d.call (e.getD i []) (a.getD i []), List.take_length,
    List.drop_of_length_le (by rw [adjustment_length, hvsz]), List.append_nil]

end nn

namespace nn
open mat
variable {R : Type} [LinearOrderedField R]

theorem Weights.deriv_eq {w : Weights R} {d : activationFunctionD} (hd : w.derivFunc = some d) :
    w.deriv = d.call := by
  funext x
  unfold Weights.deriv
  rw [hd]

theorem trainUpdateStep_ok (lr : R) (input : VecDense R) (a e : List (VecDense R))
    (ws : List (Weights R)) (u : UpdateState R) (i : Nat) (hi : i < ws.length)
    (hW : (ws.getD i Weights.zero).WellFormed)
    (hul : u.weights.length = ws.length)
    (hui : u.weights.getD i Weights.zero = ws.getD i Weights.zero)
    (hal : a.length = ws.length) (hel : e.length = ws.length)
    (hasz : (a.getD i []).length = (ws.getD i Weights.zero).m.rows)
    (hesz : (e.getD i []).length = (ws.getD i Weights.zero).m.rows)
    (hvl : u.adjVec.length = ws.length)
    (hvsz : (u.adjVec.getD i []).length = (ws.getD i Weights.zero).m.rows)
    (hdl : u.weightDeltas.length = ws.length)
    (hdr : (u.weightDeltas.getD i ⟨0, 0, []⟩).rows = (ws.getD i Weights.zero).m.rows)
    (hdc : (u.weightDeltas.getD i ⟨0, 0, []⟩).cols = (ws.getD i Weights.zero).m.cols)
    (hin : (ws.getD i Weights.zero).m.cols = (layerInput input a i).length) :
    trainUpdateStep lr input a e u i = .ok
      { weights := u.weights.set i
          { ws.getD i Weights.zero with
            m := updatedMatrix (ws.getD i Weights.zero).m lr (layerAdjustment ws a e i)
              (layerInput input a i) },
        adjVec := u.adjVec.set i (layerAdjustment ws a e i),
        weightDeltas := u.weightDeltas.set i
          (scaledOuter lr (layerAdjustment ws a e i) (layerInput input a i)) } := by
  obtain ⟨-, -, hrpos, hcpos, -, -, hderiv⟩ := hW
  obtain ⟨d, hd⟩ := Option.isSome_iff_exists.1 hderiv
  have hadj : layerAdjustment ws a e i = adjustment d.call (e.getD i []) (a.getD i []) := by
    unfold layerAdjustment
    rw [Weights.deriv_eq hd]
  have hadjlen : (layerAdjustment ws a e i).length = (ws.getD i Weights.zero).m.rows := by
    rw [hadj, adjustment_length, hasz]
  have hloop := trainAdj_ok u.weights a e u.adjVec i d (by omega) (by rw [hui]; exact hd)
    (by omega) (by omega) (by omega) (by rw [hesz, hasz]) (by rw [hvsz, hasz])
  rw [← hadj] at hloop
  have hmul : (if i > 0 then do
        let prev ← index a ((i : Int) - 1)
        Dense.Mul (u.weightDeltas.getD i ⟨0, 0, []⟩) (.vec (layerAdjustment ws a e i))
          (.transpose (.vec prev))
      else Dense.Mul (u.weightDeltas.getD i ⟨0, 0, []⟩) (.vec (layerAdjustment ws a e i))
          (.transpose (.vec input)))
      = .ok (Dense.ofFn (layerAdjustment ws a e i).length (layerInput input a i).length
          fun r c => (layerAdjustment ws a e i).getD r 0 * (layerInput input a i).getD c 0) := by
    have hgen := Dense.Mul_outer_ok (u.weightDeltas.getD i ⟨0, 0, []⟩)
      (layerAdjustment ws a e i) (layerInput input a i) (by omega) (by omega)
      (by rw [hdr, hadjlen]) (by rw [hdc, hin])
    cases i with
    | zero =>
      rw [if_neg (by omega)]
      exact hgen
    | succ k =>
      rw [if_pos (by omega)]
      have e1 : (((k + 1 : Nat) : Int) - 1) = (k : Int) := by omega
      rw [e1, index_getD [] (by omega : k < a.length), except_ok_bind]
      rw [layerInput_succ] at hgen
      rw [layerInput_succ]
      exact hgen
  unfold trainUpdateStep
  rw [index_getD [] (by omega : i < a.length), except_ok_bind, hloop, except_ok_bind,
    index_getD ⟨0, 0, []⟩ (by omega : i < u.weightDeltas.length), except_ok_bind,
    index_getD [] (by simp; omega), except_ok_bind, getD_set_eq _ _ _ _ (by omega),
    hmul, except_ok_bind,
    Dense.Scale_ok _ lr _ (by show 0 < (layerAdjustment ws a e i).length; omega)
      (by show 0 < (layerInput input a i).length; omega) rfl rfl,
    except_ok_bind, Dense.Scale_outer_eq,
    setIndex_nat _ (by omega : i < u.weightDeltas.length), except_ok_bind,
    index_getD Weights.zero (by omega : i < u.weights.length), except_ok_bind, hui,
    Dense.Add_ok _ _ _ hrpos hcpos rfl rfl
      (by show _ = (layerAdjustment ws a e i).length; omega)
      (by show _ = (layerInput input a i).length; omega),
    except_ok_bind,
    Dense.Add_scaledOuter_eq _ lr _ _ (by omega) hin,
    setIndex_nat _ (by omega : i < u.weights.length), except_ok_bind]
  rfl

end nn

namespace nn
open mat
variable {R : Type} [LinearOrderedField R]

/-- The loop "Update weights" of `Train`: every layer gets the matrix
`W_i + lr * outer(adj_i, prev_i)`, computed from the outputs and errors it is given. -/
theorem trainUpdate_ok (lr : R) (input : VecDense R) (a e : List (VecDense R))
    (ws : List (Weights R)) (adjVec : List (VecDense R)) (weightDeltas : List (Dense R))
    (hW : ∀ i, i < ws.length → (ws.getD i Weights.zero).WellFormed)
    (hc0 : (ws.getD 0 Weights.zero).m.cols = input.length)
    (hcs : ∀ i, i + 1 < ws.length →
      (ws.getD (i + 1) Weights.zero).m.cols = (ws.getD i Weights.zero).m.rows)
    (hal : a.length = ws.length) (hel : e.length = ws.length)
    (hasz : ∀ i, i < ws.length → (a.getD i []).length = (ws.getD i Weights.zero).m.rows)
    (hesz : ∀ i, i < ws.length → (e.getD i []).length = (ws.getD i Weights.zero).m.rows)
    (hvl : adjVec.length = ws.length)
    (hvsz : ∀ i, i < ws.length →
      (adjVec.getD i []).length = (ws.getD i Weights.zero).m.rows)
    (hdl : weightDeltas.length = ws.length)
    (hdsz : ∀ i, i < ws.length →
      (weightDeltas.getD i ⟨0, 0, []⟩).rows = (ws.getD i Weights.zero).m.rows ∧
      (weightDeltas.getD i ⟨0, 0, []⟩).cols = (ws.getD i Weights.zero).m.cols) :
    (List.range ws.length).reverse.foldlM (trainUpdateStep lr input a e)
        { weights := ws, adjVec := adjVec, weightDeltas := weightDeltas }
      = .ok { weights := trainedWeights lr ws input a e,
              adjVec := trainedAdjVec ws a e,
              weightDeltas := trainedWeightDeltas lr ws input a e } := by
  obtain ⟨u, hrun, hu1, hu2, hu3, -, hdone⟩ := forDown_ok
    (fun k (u : UpdateState R) =>
      u.weights.length = ws.length ∧ u.adjVec.length = ws.length ∧
      u.weightDeltas.length = ws.length ∧
      (∀ j, j < k → u.weights.getD j Weights.zero = ws.getD j Weights.zero ∧
        u.adjVec.getD j [] = adjVec.getD j [] ∧
        u.weightDeltas.getD j ⟨0, 0, []⟩ = weightDeltas.getD j ⟨0, 0, []⟩) ∧
      (∀ j, k ≤ j → j < ws.length →
        u.weights.getD j Weights.zero =
          { ws.getD j Weights.zero with
            m := updatedMatrix (ws.getD j Weights.zero).m lr (layerAdjustment ws a e j)
              (layerInput input a j) } ∧
        u.adjVec.getD j [] = layerAdjustment ws a e j ∧
        u.weightDeltas.getD j ⟨0, 0, []⟩
          = scaledOuter lr (layerAdjustment ws a e j) (layerInput input a j)))
    (trainUpdateStep lr input a e) ws.length
    { weights := ws, adjVec := adjVec, weightDeltas := weightDeltas }
    ⟨rfl, hvl, hdl, fun j _ => ⟨rfl, rfl, rfl⟩, fun j h1 h2 => by omega⟩
    (by
      rintro i u hi ⟨h1, h2, h3, hlow, hhigh⟩
      obtain ⟨hw, hv, hd⟩ := hlow i (Nat.lt_succ_self i)
      have hstep := trainUpdateStep_ok lr input a e ws u i hi (hW i hi) h1 hw hal hel
        (hasz i hi) (hesz i hi) h2 (by rw [hv]; exact hvsz i hi) h3
        (by rw [hd]; exact (hdsz i hi).1) (by rw [hd]; exact (hdsz i hi).2)
        (layerInput_length ws input a hc0 hcs i hi (fun j hj => hasz j (by omega)))
      refine ⟨_, hstep, by simp [h1], by simp [h2], by simp [h3], ?_, ?_⟩
      · intro j hj
        simp only
        rw [getD_set_ne _ _ _ _ _ (by omega), getD_set_ne _ _ _ _ _ (by omega),
          getD_set_ne _ _ _ _ _ (by omega)]
        exact hlow j (by omega)
      · intro j hj1 hj2
        simp only
        by_cases hji : j = i
        · subst hji
          rw [getD_set_eq _ _ _ _ (by omega), getD_set_eq _ _ _ _ (by omega),
            getD_set_eq _ _ _ _ (by omega)]
          exact ⟨rfl, rfl, rfl⟩
        · rw [getD_set_ne _ _ _ _ _ hji, getD_set_ne _ _ _ _ _ hji,
            getD_set_ne _ _ _ _ _ hji]
          exact hhigh j (by omega) hj2)
  rw [hrun]
  obtain ⟨uw, uv, ud⟩ := u
  simp only at hu1 hu2 hu3 hdone
  have e1 : uw = trainedWeights lr ws input a e := by
    apply ext_getD Weights.zero (by simp [trainedWeights, hu1])
    intro i hi
    rw [(hdone i (Nat.zero_le i) (by omega)).1]
    unfold trainedWeights
    rw [getD_range_map _ _ _ _ (by omega)]
  have e2 : uv = trainedAdjVec ws a e := by
    apply ext_getD [] (by simp [trainedAdjVec, hu2])
    intro i hi
    rw [(hdone i (Nat.zero_le i) (by omega)).2.1]
    unfold trainedAdjVec
    rw [getD_range_map _ _ _ _ (by omega)]
  have e3 : ud = trainedWeightDeltas lr ws input a e := by
    apply ext_getD ⟨0, 0, []⟩ (by simp [trainedWeightDeltas, hu3])
    intro i hi
    rw [(hdone i (Nat.zero_le i) (by omega)).2.2]
    unfold trainedWeightDeltas
    rw [getD_range_map _ _ _ _ (by omega)]
  rw [e1, e2, e3]

/-- The sizes that a well-formed call of `Train` gives, by index. -/
theorem TrainState.WellFormed.sizes {st : TrainState R} (h : st.WellFormed) :
    st.target.length
        = (st.nn.weights.getD (st.nn.weights.length - 1) Weights.zero).m.rows ∧
    (st.outputs.length = st.nn.weights.length ∧ ∀ i, i < st.nn.weights.length →
      (st.outputs.getD i []).length = (st.nn.weights.getD i Weights.zero).m.rows) ∧
    (st.errors.length = st.nn.weights.length ∧ ∀ i, i < st.nn.weights.length →
      (st.errors.getD i []).length = (st.nn.weights.getD i Weights.zero).m.rows) ∧
    (st.adjVec.length = st.nn.weights.length ∧ ∀ i, i < st.nn.weights.length →
      (st.adjVec.getD i []).length = (st.nn.weights.getD i Weights.zero).m.rows) ∧
    (st.weightDeltas.length = st.nn.weights.length ∧ ∀ i, i < st.nn.weights.length →
      (st.weightDeltas.getD i ⟨0, 0, []⟩).rows = (st.nn.weights.getD i Weights.zero).m.rows ∧
      (st.weightDeltas.getD i ⟨0, 0, []⟩).cols = (st.nn.weights.getD i Weights.zero).m.cols) := by
  obtain ⟨hnn, -, htgt, ho, he, hv, hd⟩ := h
  obtain ⟨hpos, hW, -, -, hlastR, -⟩ := hnn.facts
  have vec : ∀ (buf : List (VecDense R)),
      buf.map (fun o => (o.length : Int)) = st.nn.weights.map (·.RNodes) →
      buf.length = st.nn.weights.length ∧ ∀ i, i < st.nn.weights.length →
        (buf.getD i []).length = (st.nn.weights.getD i Weights.zero).m.rows := by
    intro buf hbuf
    obtain ⟨hl, hi⟩ := map_eq_map_getD _ _ hbuf [] Weights.zero
    refine ⟨hl, fun i hlt => ?_⟩
    have h1 := hi i hlt
    obtain ⟨hr, -⟩ := hW i hlt
    simp only at h1
    have : (((buf.getD i []).length : Nat) : Int)
        = ((st.nn.weights.getD i Weights.zero).m.rows : Int) := by rw [h1, hr]
    exact_mod_cast this
  refine ⟨?_, vec _ ho, vec _ he, vec _ hv, ?_⟩
  · obtain ⟨hr, -⟩ := hW (st.nn.weights.length - 1) (by omega)
    have : ((st.target.length : Nat) : Int)
        = ((st.nn.weights.getD (st.nn.weights.length - 1) Weights.zero).m.rows : Int) := by
      rw [htgt, hr, hlastR]
    exact_mod_cast this
  · obtain ⟨hl, hi⟩ := map_eq_map_getD _ _ hd ⟨0, 0, []⟩ Weights.zero
    refine ⟨hl, fun i hlt => ?_⟩
    have h1 := hi i hlt
    obtain ⟨hr, hc, -⟩ := hW i hlt
    simp only [Prod.mk.injEq] at h1
    obtain ⟨h1r, h1c, -⟩ := h1
    constructor
    · have : (((st.weightDeltas.getD i ⟨0, 0, []⟩).rows : Nat) : Int)
          = ((st.nn.weights.getD i Weights.zero).m.rows : Int) := by rw [h1r, hr]
      exact_mod_cast this
    · have : (((st.weightDeltas.getD i ⟨0, 0, []⟩).cols : Nat) : Int)
          = ((st.nn.weights.getD i Weights.zero).m.cols : Int) := by rw [h1c, hc]
      exact_mod_cast this

/-- One well-formed call of `Train` returns, and its result is given by the forward
trace `a` and the error trace `e` of the network as it was before the call. -/
theorem Train_ok (M : MathLib R) (st : TrainState R) (hwf : st.WellFormed) :
    ∃ a e, IsForwardTrace M st.nn.weights st.input a ∧
      IsErrorTrace st.nn.weights st.target a e ∧
      (∀ i, i < st.nn.weights.length →
        (a.getD i []).length = (st.nn.weights.getD i Weights.zero).m.rows) ∧
      (∀ i, i < st.nn.weights.length →
        (e.getD i []).length = (st.nn.weights.getD i Weights.zero).m.rows) ∧
      Train M st = .ok
        { nn := { InputNodes := st.nn.InputNodes, OutputNodes := st.nn.OutputNodes,
                  LearningRate := st.nn.LearningRate,
                  weights := trainedWeights st.nn.LearningRate st.nn.weights st.input a e },
          input := st.input, target := st.target, outputs := a, errors := e,
          adjVec := trainedAdjVec st.nn.weights a e,
          weightDeltas := trainedWeightDeltas st.nn.LearningRate st.nn.weights st.input a e } := by
  obtain ⟨htgt, ⟨hol, hosz⟩, ⟨hel, hesz⟩, ⟨hvl, hvsz⟩, ⟨hdl, hdsz⟩⟩ := hwf.sizes
  obtain ⟨hnn, hin, -⟩ := hwf
  obtain ⟨hpos, hW, -⟩ := hnn.facts
  obtain ⟨hc0, hcs⟩ := hnn.cols hin
  obtain ⟨a, hfwd, hatr, hasz⟩ := trainForward_ok M st.nn.weights st.input st.outputs hW hc0 hcs
    hol hosz
  obtain ⟨e, herr, hetr, hesz2⟩ := trainErrors_ok st.nn.weights st.target a st.errors hpos
    (fun i hi => ⟨(hW i hi).2.2.1, (hW i hi).2.2.2.1⟩)
    hcs hatr.1 (hasz _ (by omega)) htgt hel hesz
  have hupd := trainUpdate_ok st.nn.LearningRate st.input a e st.nn.weights st.adjVec
    st.weightDeltas hW hc0 hcs hatr.1 hetr.1 hasz hesz2 hvl hvsz hdl hdsz
  refine ⟨a, e, hatr, hetr, hasz, hesz2, ?_⟩
  unfold Train
  rw [hfwd, except_ok_bind, herr, except_ok_bind, hupd, except_ok_bind]
  rfl

end nn

namespace nn
open mat
variable {R : Type} [LinearOrderedField R]

/-- C9: one well-formed call of `Train` replaces each layer matrix `W_i` by
`W_i + LearningRate * outer(adj_i, prev_i)`, where `prev_0` is the input and `prev_i`
is `outputs[i-1]`, `errors[last] = target - outputs[last]`,
`errors[i] = transpose(W_{i+1}) * errors[i+1]` below the last layer, and
`adj_i[j] = errors[i][j] * derivative_i(outputs[i][j])`; the outputs `a` and the errors
`e` are the traces of the matrices as they were before the call. -/
theorem Train_update_rule (M : MathLib R) (st : TrainState R) (hwf : st.WellFormed) :
    ∃ st1 a e, Train M st = .ok st1 ∧
      IsForwardTrace M st.nn.weights st.input a ∧
      IsErrorTrace st.nn.weights st.target a e ∧
      st1.nn.weights.length = st.nn.weights.length ∧
      ∀ i w, st.nn.weights[i]? = some w →
        ∃ w1 d, st1.nn.weights[i]? = some w1 ∧ w.derivFunc = some d ∧
          w1.m = updatedMatrix w.m st.nn.LearningRate
            (adjustment d.call (e.getD i []) (a.getD i [])) (layerInput st.input a i) := by
  obtain ⟨a, e, hatr, hetr, -, -, hrun⟩ := Train_ok M st hwf
  obtain ⟨-, hW, -⟩ := hwf.1.facts
  refine ⟨_, a, e, hrun, hatr, hetr, by simp [trainedWeights], ?_⟩
  intro i w hw
  have hi : i < st.nn.weights.length := (List.getElem?_eq_some_iff.1 hw).1
  have hwd := getD_of_getElem? Weights.zero hw
  obtain ⟨-, -, -, -, -, -, hderiv⟩ := hW i hi
  rw [hwd] at hderiv
  obtain ⟨d, hd⟩ := Option.isSome_iff_exists.1 hderiv
  refine ⟨{ st.nn.weights.getD i Weights.zero with
      m := updatedMatrix (st.nn.weights.getD i Weights.zero).m st.nn.LearningRate
        (layerAdjustment st.nn.weights a e i) (layerInput st.input a i) }, d, ?_, hd, ?_⟩
  · show (trainedWeights st.nn.LearningRate st.nn.weights st.input a e)[i]? = _
    unfold trainedWeights
    rw [List.getElem?_map, List.getElem?_range hi]
    rfl
  · show updatedMatrix _ _ _ _ = _
    unfold layerAdjustment
    rw [hwd, Weights.deriv_eq hd]

/-- C9 witness: one training step of `network0` on the sample `([1, 2], [1, 0])`. -/
theorem Train_update_rule_witness :
    trainState0.WellFormed ∧
    ∃ st1 a e, Train ratMath trainState0 = .ok st1 ∧
      IsForwardTrace ratMath trainState0.nn.weights trainState0.input a ∧
      IsErrorTrace trainState0.nn.weights trainState0.target a e ∧
      st1.nn.weights.length = trainState0.nn.weights.length ∧
      ∀ i w, trainState0.nn.weights[i]? = some w →
        ∃ w1 d, st1.nn.weights[i]? = some w1 ∧ w.derivFunc = some d ∧
          w1.m = updatedMatrix w.m trainState0.nn.LearningRate
            (adjustment d.call (e.getD i []) (a.getD i [])) (layerInput trainState0.input a i) :=
  ⟨by decide!, Train_update_rule ratMath trainState0 (by decide!)⟩

/-! ## `Train` at a fixed point -/

theorem getD_zero_of_all_zero (v : List R) (h : ∀ x ∈ v, x = 0) (i : Nat) : v.getD i 0 = 0 := by
  by_cases hi : i < v.length
  · rw [List.getD_eq_getElem _ _ hi]
    exact h _ (List.getElem_mem hi)
  · rw [List.getD_eq_default _ _ (not_lt.1 hi)]

theorem vecSub_self_zero (t : VecDense R) : ∀ x ∈ vecSub t t, x = 0 := by
  intro x hx
  unfold vecSub at hx
  obtain ⟨i, -, rfl⟩ := List.mem_map.1 hx
  exact sub_self _

theorem matTVec_zero (W : Dense R) (e : VecDense R) (h : ∀ x ∈ e, x = 0) :
    ∀ y ∈ matTVec W e, y = 0 := by
  intro y hy
  unfold matTVec at hy
  obtain ⟨j, -, rfl⟩ := List.mem_map.1 hy
  apply List.sum_eq_zero
  intro z hz
  obtain ⟨i, -, rfl⟩ := List.mem_map.1 hz
  rw [getD_zero_of_all_zero e h, mul_zero]

theorem adjustment_zero (d : R → R) (e o : VecDense R) (h : ∀ x ∈ e, x = 0) :
    ∀ y ∈ adjustment d e o, y = 0 := by
  intro y hy
  unfold adjustment at hy
  obtain ⟨j, -, rfl⟩ := List.mem_map.1 hy
  rw [getD_zero_of_all_zero e h, zero_mul]

theorem scaledOuter_zero (lr : R) (adj prev : VecDense R) (h : ∀ x ∈ adj, x = 0) :
    ∀ y ∈ (scaledOuter lr adj prev).data, y = 0 := by
  intro y hy
  unfold scaledOuter Dense.ofFn at hy
  obtain ⟨k, -, rfl⟩ := List.mem_map.1 hy
  show lr * (adj.getD (k / prev.length) 0 * prev.getD (k % prev.length) 0) = 0
  rw [getD_zero_of_all_zero adj h, zero_mul, mul_zero]

theorem updatedMatrix_zero (W : Dense R) (lr : R) (adj prev : VecDense R)
    (h : ∀ x ∈ adj, x = 0) (hW : W.data.length = W.rows * W.cols) :
    updatedMatrix W lr adj prev = W := by
  unfold updatedMatrix
  have : (fun i j => W.data.getD (i * W.cols + j) 0 + lr * (adj.getD i 0 * prev.getD j 0))
      = fun i j => W.data.getD (i * W.cols + j) 0 := by
    funext i j
    rw [getD_zero_of_all_zero adj h, zero_mul, mul_zero, add_zero]
  rw [this]
  exact Dense.ofFn_self W hW

/-- In an error trace that starts from a zero error, every error is zero. -/
theorem IsErrorTrace.all_zero {ws : List (Weights R)} {target : VecDense R}
    {a e : List (VecDense R)} (he : IsErrorTrace ws target a e) (hpos : 0 < ws.length)
    (hlast : ∀ x ∈ e.getD (ws.length - 1) [], x = 0) :
    ∀ i, i < ws.length → ∀ x ∈ e.getD i [], x = 0 := by
  obtain ⟨-, -, htr⟩ := he
  have key : ∀ k, k < ws.length → ∀ x ∈ e.getD (ws.length - 1 - k) [], x = 0 := by
    intro k
    induction k with
    | zero => intro _; exact hlast
    | succ k ih =>
      intro hk
      have h1 : ws.length - 1 - (k + 1) + 1 = ws.length - 1 - k := by omega
      have h2 := htr (ws.length - 1 - (k + 1)) _
        (getElem?_of_lt_getD Weights.zero (by omega : ws.length - 1 - (k + 1) + 1 < ws.length))
      rw [h2, h1]
      exact matTVec_zero _ _ (ih (by omega))
  intro i hi
  have := key (ws.length - 1 - i) (by omega)
  have h3 : ws.length - 1 - (ws.length - 1 - i) = i := by omega
  rwa [h3] at this

/-- C10: a well-formed call of `Train` whose target is what `FeedForward` returns on
the input under the current weights leaves every error vector and every weight-delta
matrix zero, and every weight matrix (the whole network) exactly as it was. -/
theorem Train_fixed_point (M : MathLib R) (st : TrainState R) (hwf : st.WellFormed)
    (htarget : FeedForward M st.nn st.input = .ok st.target) :
    ∃ st1, Train M st = .ok st1 ∧
      st1.errors.length = st.nn.weights.length ∧ (∀ v ∈ st1.errors, ∀ x ∈ v, x = 0) ∧
      st1.weightDeltas.length = st.nn.weights.length ∧
      (∀ D ∈ st1.weightDeltas, ∀ x ∈ D.data, x = 0) ∧
      st1.nn = st.nn := by
  obtain ⟨a, e, hatr, hetr, hasz, hesz, hrun⟩ := Train_ok M st hwf
  obtain ⟨hpos, hW, -⟩ := hwf.1.facts
  obtain ⟨b, hbtr, -, hbrun⟩ := FeedForwardRun_ok M st.nn st.input hwf.1 hwf.2.1
  have hab : a = b := hatr.unique hbtr
  subst hab
  have htgt : st.target = a.getD (st.nn.weights.length - 1) [] := by
    unfold FeedForward at htarget
    rw [hbrun] at htarget
    exact (Except.ok.inj htarget).symm
  have hzero : ∀ i, i < st.nn.weights.length → ∀ x ∈ e.getD i [], x = 0 := by
    apply hetr.all_zero hpos
    rw [hetr.2.1, ← htgt]
    exact vecSub_self_zero st.target
  have hadj : ∀ i, i < st.nn.weights.length →
      ∀ x ∈ layerAdjustment st.nn.weights a e i, x = 0 :=
    fun i hi => adjustment_zero _ _ _ (hzero i hi)
  refine ⟨_, hrun, hetr.1, ?_, by simp [trainedWeightDeltas], ?_, ?_⟩
  · intro v hv x hx
    obtain ⟨i, hi, rfl⟩ := List.getElem_of_mem hv
    have hi2 : i < st.nn.weights.length := by rw [← hetr.1]; exact hi
    have := hzero i hi2 x
    rw [List.getD_eq_getElem _ _ hi] at this
    exact this hx
  · intro D hD x hx
    simp only [trainedWeightDeltas] at hD
    obtain ⟨i, hi, rfl⟩ := List.mem_map.1 hD
    exact scaledOuter_zero _ _ _ (hadj i (List.mem_range.1 hi)) x hx
  · have hws : trainedWeights st.nn.LearningRate st.nn.weights st.input a e = st.nn.weights := by
      apply ext_getD Weights.zero (by simp [trainedWeights])
      intro i hi
      have hi2 : i < st.nn.weights.length := by simpa [trainedWeights] using hi
      unfold trainedWeights
      rw [getD_range_map _ _ _ _ hi2,
        updatedMatrix_zero _ _ _ _ (hadj i hi2) (hW i hi2).2.2.2.2.1]
    show NeuralNetwork.mk _ _ _ _ = st.nn
    rw [hws]

/-- C10 witness: `network0` trained towards its own output on `[0, 0]`. -/
theorem Train_fixed_point_witness :
    trainStateFixedPoint.WellFormed ∧
    FeedForward ratMath trainStateFixedPoint.nn trainStateFixedPoint.input
      = .ok trainStateFixedPoint.target ∧
    ∃ st1, Train ratMath trainStateFixedPoint = .ok st1 ∧
      st1.errors.length = trainStateFixedPoint.nn.weights.length ∧
      (∀ v ∈ st1.errors, ∀ x ∈ v, x = 0) ∧
      st1.weightDeltas.length = trainStateFixedPoint.nn.weights.length ∧
      (∀ D ∈ st1.weightDeltas, ∀ x ∈ D.data, x = 0) ∧
      st1.nn = trainStateFixedPoint.nn :=
  ⟨by decide!, by decide!,
   Train_fixed_point ratMath trainStateFixedPoint (by decide!) (by decide!)⟩

end nn

namespace nn
open mat
variable {R : Type} [LinearOrderedField R]

/-! ## The registry `Funcs` -/

/-- C14 counterexample: for the activation kind `7` the registry reports no error: it
returns the pair `(nil, nil)`, and `FromFile` loads a document that names kind `7`
into a network without any error. -/
theorem Funcs_unknown_no_error :
    ActivationFunction.Funcs 7 = (none, none) ∧
    FromFile (plainEncoding ℚ) "nn.json"
        (fun n => if n = "nn.json" then some documentUnknownActivation else none)
      = .ok networkNilActivation := by
  decide!

/-- C14 (amended): for every activation kind outside the five known ones (integer
code not in `0..4`) `Funcs` returns the pair `(nil, nil)` and no error; for each of
the five known kinds it returns that kind's forward function and derivative
function. -/
theorem Funcs_registry (M : MathLib R) (af : Int) :
    ((af < 0 ∨ 4 < af) → ActivationFunction.Funcs af = (none, none)) ∧
    (ActivationFunction.Funcs Sigmoid = (some .sigmoid, some .sigmoidD)
      ∧ activationFunction.sigmoid.call M = sigmoid M
      ∧ (activationFunctionD.sigmoidD.call : R → R) = sigmoidD) ∧
    (ActivationFunction.Funcs Tanh = (some .tanh, some .tanhD)
      ∧ activationFunction.tanh.call M = tanh M
      ∧ (activationFunctionD.tanhD.call : R → R) = tanhD) ∧
    (ActivationFunction.Funcs Relu = (some .relu, some .reluD)
      ∧ activationFunction.relu.call M = (relu : VecProc R)
      ∧ (activationFunctionD.reluD.call : R → R) = reluD) ∧
    (ActivationFunction.Funcs LeakyRelu = (some .lRelu, some .lReluD)
      ∧ activationFunction.lRelu.call M = (lRelu : VecProc R)
      ∧ (activationFunctionD.lReluD.call : R → R) = lReluD) ∧
    (ActivationFunction.Funcs SoftMax = (some .softMax, some .softMaxD)
      ∧ activationFunction.softMax.call M = softMax M
      ∧ (activationFunctionD.softMaxD.call : R → R) = softMaxD) := by
  refine ⟨?_, ⟨rfl, rfl, rfl⟩, ⟨rfl, rfl, rfl⟩, ⟨rfl, rfl, rfl⟩, ⟨rfl, rfl, rfl⟩, ⟨rfl, rfl, rfl⟩⟩
  intro h
  have h0 : ¬ af = (0 : Int) := by omega
  have h1 : ¬ af = (1 : Int) := by omega
  have h2 : ¬ af = (2 : Int) := by omega
  have h3 : ¬ af = (3 : Int) := by omega
  have h4 : ¬ af = (4 : Int) := by omega
  unfold ActivationFunction.Funcs Sigmoid Tanh Relu LeakyRelu SoftMax
  rw [if_neg h0, if_neg h1, if_neg h2, if_neg h3, if_neg h4]

/-- C14 witness: the activation kind `7`. -/
theorem Funcs_registry_witness :
    ((7 : Int) < 0 ∨ 4 < (7 : Int)) ∧ ActivationFunction.Funcs 7 = (none, none) :=
  ⟨by decide, (Funcs_registry ratMath 7).1 (by decide)⟩

end nn

namespace nn
open mat
variable {R : Type} [LinearOrderedField R]

/-! ## `ToFile` and `FromFile` -/

theorem mapM_map_ok {α β γ : Type} (f : β → Except Failure γ) (p : α → β) (g : α → γ)
    (l : List α) (h : ∀ a ∈ l, f (p a) = .ok (g a)) : (l.map p).mapM f = .ok (l.map g) := by
  induction l with
  | nil => rfl
  | cons a l ih =>
    rw [List.map_cons, List.mapM_cons, h a (List.mem_cons_self _ _),
      ih (fun b hb => h b (List.mem_cons_of_mem _ hb))]
    rfl

theorem mapM_ok {α β : Type} (f : α → Except Failure β) (g : α → β) (l : List α)
    (h : ∀ a ∈ l, f a = .ok (g a)) : l.mapM f = .ok (l.map g) := by
  have := mapM_map_ok f id g l h
  rwa [List.map_id] at this

/-- What `ToFile` followed by `FromFile` yields when the library encoders decode what
they encoded: every layer with its sizes, kind and matrix, and with the functions
that `Funcs` returns for its kind. -/
theorem FromFile_ToFile_eq {B D : Type} (E : Encoding R B D)
    (hbin : ∀ m, ∃ b, E.MarshalBinary m = .ok b ∧ E.UnmarshalBinary b = .ok m)
    (hjson : ∀ d, ∃ j, E.jsonMarshal d = .ok j ∧ E.jsonUnmarshal j = .ok d)
    (nn : NeuralNetwork R) (fileName : String) (fs : Files D) :
    ∃ fs1, ToFile E nn fileName fs = .ok fs1 ∧
      FromFile E fileName fs1 = .ok
        { InputNodes := nn.InputNodes, OutputNodes := nn.OutputNodes,
          LearningRate := nn.LearningRate,
          weights := nn.weights.map fun w =>
            { LNodes := w.LNodes, RNodes := w.RNodes, ActFunc := w.ActFunc, m := w.m,
              actFunc := (ActivationFunction.Funcs w.ActFunc).1,
              derivFunc := (ActivationFunction.Funcs w.ActFunc).2 } } := by
  choose enc henc hdec using hbin
  have h1 : nn.weights.mapM (toWJSON E) = .ok (nn.weights.map fun w =>
      ({ LNodes := w.LNodes, RNodes := w.RNodes, ActFunc := w.ActFunc,
         M := enc w.m } : wJSON B)) := by
    apply mapM_ok
    intro w _
    unfold toWJSON
    rw [henc w.m]
    rfl
  obtain ⟨j, hj1, hj2⟩ := hjson
    { InputNodes := nn.InputNodes, OutputNodes := nn.OutputNodes,
      LearningRate := nn.LearningRate,
      Weights := nn.weights.map fun w =>
        ({ LNodes := w.LNodes, RNodes := w.RNodes, ActFunc := w.ActFunc,
           M := enc w.m } : wJSON B) }
  refine ⟨fun n => if n = fileName then some j else fs n, ?_, ?_⟩
  · unfold ToFile
    rw [h1, except_ok_bind]
    simp only []
    rw [hj1]
    rfl
  · unfold FromFile ReadFile
    simp only [if_true, fatalOnError, except_ok_bind]
    rw [hj2]
    simp only [except_ok_bind]
    rw [mapM_map_ok (fromWJSON E) _ (fun w =>
        ({ LNodes := w.LNodes, RNodes := w.RNodes, ActFunc := w.ActFunc, m := w.m,
           actFunc := (ActivationFunction.Funcs w.ActFunc).1,
           derivFunc := (ActivationFunction.Funcs w.ActFunc).2 } : Weights R))]
    · rfl
    · intro w _
      unfold fromWJSON
      simp only [hdec w.m, fatalOnError, except_ok_bind]
      rfl

theorem map_resolved_eq (ws : List (Weights R))
    (h : ∀ w ∈ ws, (w.actFunc, w.derivFunc) = ActivationFunction.Funcs w.ActFunc) :
    (ws.map fun w =>
      ({ LNodes := w.LNodes, RNodes := w.RNodes, ActFunc := w.ActFunc, m := w.m,
         actFunc := (ActivationFunction.Funcs w.ActFunc).1,
         derivFunc := (ActivationFunction.Funcs w.ActFunc).2 } : Weights R)) = ws := by
  conv_rhs => rw [← List.map_id ws]
  apply List.map_congr_left
  intro w hw
  have := h w hw
  obtain ⟨l, r, a, m, f, d⟩ := w
  simp only at this ⊢
  rw [← this]
  rfl

/-- C13: when the library encoders decode what they encoded, `FromFile` applied to the
document written by `ToFile` returns a network with the same `InputNodes`,
`OutputNodes`, `LearningRate` and number of layers, each layer with the same `LNodes`,
`RNodes`, `ActFunc` and matrix and with the functions resolved again from `ActFunc`;
for a network whose functions are those of its kinds (every network the package
builds), the reloaded network is the same network, so `FeedForward` agrees on every
input. -/
theorem FromFile_ToFile_roundtrip {B D : Type} (E : Encoding R B D)
    (hbin : ∀ m, ∃ b, E.MarshalBinary m = .ok b ∧ E.UnmarshalBinary b = .ok m)
    (hjson : ∀ d, ∃ j, E.jsonMarshal d = .ok j ∧ E.jsonUnmarshal j = .ok d)
    (M : MathLib R) (nn : NeuralNetwork R) (fileName : String) (fs : Files D) :
    ∃ (fs1 : Files D) (nn1 : NeuralNetwork R), ToFile E nn fileName fs = .ok fs1 ∧ FromFile E fileName fs1 = .ok nn1 ∧
      nn1.InputNodes = nn.InputNodes ∧ nn1.OutputNodes = nn.OutputNodes ∧
      nn1.LearningRate = nn.LearningRate ∧ nn1.weights.length = nn.weights.length ∧
      (∀ (i : Nat) (w : Weights R), nn.weights[i]? = some w → ∃ w1 : Weights R, nn1.weights[i]? = some w1 ∧
        w1.LNodes = w.LNodes ∧ w1.RNodes = w.RNodes ∧ w1.ActFunc = w.ActFunc ∧ w1.m = w.m ∧
        (w1.actFunc, w1.derivFunc) = ActivationFunction.Funcs w.ActFunc) ∧
      (nn.Resolved → nn1 = nn ∧ ∀ input, FeedForward M nn1 input = FeedForward M nn input) := by
  obtain ⟨fs1, hto, hfrom⟩ := FromFile_ToFile_eq E hbin hjson nn fileName fs
  refine ⟨fs1, _, hto, hfrom, rfl, rfl, rfl, by simp, ?_, ?_⟩
  · intro i w hw
    refine ⟨{ LNodes := w.LNodes, RNodes := w.RNodes, ActFunc := w.ActFunc, m := w.m,
              actFunc := (ActivationFunction.Funcs w.ActFunc).1,
              derivFunc := (ActivationFunction.Funcs w.ActFunc).2 }, ?_, rfl, rfl, rfl, rfl, rfl⟩
    simp only [List.getElem?_map, hw, Option.map_some']
  · intro hres
    have : (NeuralNetwork.mk nn.InputNodes nn.OutputNodes nn.LearningRate
        (nn.weights.map fun w =>
          ({ LNodes := w.LNodes, RNodes := w.RNodes, ActFunc := w.ActFunc, m := w.m,
             actFunc := (ActivationFunction.Funcs w.ActFunc).1,
             derivFunc := (ActivationFunction.Funcs w.ActFunc).2 } : Weights R))) = nn := by
      rw [map_resolved_eq nn.weights hres]
    exact ⟨this, fun input => by rw [this]⟩

/-- C13 witness: `network0` written and read back with encoders that write a value as
itself. -/
theorem FromFile_ToFile_roundtrip_witness :
    (∀ m, ∃ b, (plainEncoding ℚ).MarshalBinary m = .ok b
      ∧ (plainEncoding ℚ).UnmarshalBinary b = .ok m) ∧
    (∀ d, ∃ j, (plainEncoding ℚ).jsonMarshal d = .ok j
      ∧ (plainEncoding ℚ).jsonUnmarshal j = .ok d) ∧
    ∃ (fs1 : Files (nnJSON ℚ (Dense ℚ))) (nn1 : NeuralNetwork ℚ),
      ToFile (plainEncoding ℚ) network0 "nn.json" (noFiles _) = .ok fs1 ∧
      FromFile (plainEncoding ℚ) "nn.json" fs1 = .ok nn1 ∧
      nn1.InputNodes = network0.InputNodes ∧ nn1.OutputNodes = network0.OutputNodes ∧
      nn1.LearningRate = network0.LearningRate ∧
      nn1.weights.length = network0.weights.length ∧
      (∀ (i : Nat) (w : Weights ℚ), network0.weights[i]? = some w →
        ∃ w1 : Weights ℚ, nn1.weights[i]? = some w1 ∧
        w1.LNodes = w.LNodes ∧ w1.RNodes = w.RNodes ∧ w1.ActFunc = w.ActFunc ∧ w1.m = w.m ∧
        (w1.actFunc, w1.derivFunc) = ActivationFunction.Funcs w.ActFunc) ∧
      (network0.Resolved → nn1 = network0 ∧
        ∀ input, FeedForward ratMath nn1 input = FeedForward ratMath network0 input) :=
  ⟨fun m => ⟨m, rfl, rfl⟩, fun d => ⟨d, rfl, rfl⟩,
   FromFile_ToFile_roundtrip (plainEncoding ℚ) (fun m => ⟨m, rfl, rfl⟩) (fun d => ⟨d, rfl, rfl⟩)
     ratMath network0 "nn.json" (noFiles _)⟩

end nn

namespace nn
open mat
variable {R : Type} [LinearOrderedField R]

/-! ## The derivatives in the registry -/

theorem scalarOf_sigmoid (M : MathLib R) (t : R) :
    scalarOf (sigmoid M) t = 1 / (1 + M.Exp (-t)) := by
  unfold scalarOf sigmoid
  simp only [overwriteEach_eq_map]
  rfl

theorem scalarOf_tanh (M : MathLib R) (t : R) :
    scalarOf (tanh M) t = M.Sinh t / M.Cosh t := by
  unfold scalarOf tanh
  simp only [overwriteEach_eq_map]
  rfl

theorem scalarOf_relu (t : R) : scalarOf (relu : VecProc R) t = if t < 0 then 0 else t := by
  unfold scalarOf
  rw [relu_eq_map]
  rfl

theorem scalarOf_lRelu (t : R) :
    scalarOf (lRelu : VecProc R) t = if t < 0 then (1 / 100) * t else t := by
  unfold scalarOf
  rw [lRelu_eq_map]
  rfl

/-- C19: with the real exponential, hyperbolic sine and cosine, the registered
derivative at the activated value is the derivative of the registered forward
function at the pre-activation: for every real `x` for `sigmoid` and `tanh`, and for
every real `x ≠ 0` for `lRelu` (where it is `0.01` for `x < 0` and `1` for `x > 0`). -/
theorem derivative_at_activated (M : MathLib ℝ) (hexp : M.Exp = Real.exp)
    (hsinh : M.Sinh = Real.sinh) (hcosh : M.Cosh = Real.cosh) (x : ℝ) :
    (scalarOf (sigmoid M) x = 1 / (1 + Real.exp (-x)) ∧
      HasDerivAt (scalarOf (sigmoid M)) (sigmoidD (scalarOf (sigmoid M) x)) x) ∧
    (scalarOf (tanh M) x = Real.sinh x / Real.cosh x ∧
      HasDerivAt (scalarOf (tanh M)) (tanhD (scalarOf (tanh M) x)) x) ∧
    (x ≠ 0 →
      HasDerivAt (scalarOf (lRelu : VecProc ℝ)) (lReluD (scalarOf (lRelu : VecProc ℝ) x)) x ∧
      lReluD (scalarOf (lRelu : VecProc ℝ) x) = if x < 0 then 1 / 100 else 1) := by
  refine ⟨⟨?_, ?_⟩, ⟨?_, ?_⟩, ?_⟩
  · rw [scalarOf_sigmoid, hexp]
  · have hf : scalarOf (sigmoid M) = fun t => 1 / (1 + Real.exp (-t)) := by
      funext t
      rw [scalarOf_sigmoid, hexp]
    have hpos : (0 : ℝ) < 1 + Real.exp (-x) := by positivity
    have h1 : HasDerivAt (fun t : ℝ => Real.exp (-t)) (Real.exp (-x) * (-1)) x :=
      (Real.hasDerivAt_exp (-x)).comp x (hasDerivAt_neg x)
    have h2 : HasDerivAt (fun t : ℝ => 1 + Real.exp (-t)) (Real.exp (-x) * (-1)) x :=
      h1.const_add 1
    have h3 := h2.inv (ne_of_gt hpos)
    have h4 : (fun t : ℝ => 1 / (1 + Real.exp (-t))) = fun t => (1 + Real.exp (-t))⁻¹ := by
      funext t
      rw [one_div]
    have hval : sigmoidD (scalarOf (sigmoid M) x)
        = -(Real.exp (-x) * (-1)) / (1 + Real.exp (-x)) ^ 2 := by
      rw [scalarOf_sigmoid, hexp]
      unfold sigmoidD
      field_simp
      ring
    rw [hval, hf, h4]
    exact h3
  · rw [scalarOf_tanh, hsinh, hcosh]
  · have hf : scalarOf (tanh M) = fun t => Real.sinh t / Real.cosh t := by
      funext t
      rw [scalarOf_tanh, hsinh, hcosh]
    have hc : Real.cosh x ≠ 0 := ne_of_gt (Real.cosh_pos x)
    have hval : tanhD (scalarOf (tanh M) x)
        = (Real.cosh x * Real.cosh x - Real.sinh x * Real.sinh x) / Real.cosh x ^ 2 := by
      rw [scalarOf_tanh, hsinh, hcosh]
      unfold tanhD
      field_simp
      left
      ring
    rw [hval, hf]
    exact (Real.hasDerivAt_sinh x).div (Real.hasDerivAt_cosh x) hc
  · intro hx
    have hf : scalarOf (lRelu : VecProc ℝ) = fun t => if t < 0 then (1 / 100) * t else t := by
      funext t
      rw [scalarOf_lRelu]
    rcases lt_or_gt_of_ne hx with hneg | hpos
    · have hval : lReluD (scalarOf (lRelu : VecProc ℝ) x) = 1 / 100 := by
        rw [scalarOf_lRelu, if_pos hneg]
        unfold lReluD
        rw [if_pos (by linarith)]
      rw [hval, if_pos hneg]
      refine ⟨?_, rfl⟩
      have h1 : HasDerivAt (fun t : ℝ => (1 / 100) * t) (1 / 100) x := by
        simpa using (hasDerivAt_id x).const_mul (1 / 100 : ℝ)
      apply h1.congr_of_eventuallyEq
      rw [hf]
      filter_upwards [isOpen_Iio.mem_nhds (show x ∈ Set.Iio (0 : ℝ) from hneg)] with t ht
      simp only [if_pos (show t < 0 from ht)]
    · have hval : lReluD (scalarOf (lRelu : VecProc ℝ) x) = 1 := by
        rw [scalarOf_lRelu, if_neg (not_lt.2 hpos.le)]
        unfold lReluD
        rw [if_neg (not_lt.2 hpos.le)]
      rw [hval, if_neg (not_lt.2 hpos.le)]
      refine ⟨?_, rfl⟩
      apply (hasDerivAt_id x).congr_of_eventuallyEq
      rw [hf]
      filter_upwards [isOpen_Ioi.mem_nhds (show x ∈ Set.Ioi (0 : ℝ) from hpos)] with t ht
      simp only [if_neg (not_lt.2 (le_of_lt (show 0 < t from ht))), id]

/-- C19 witness: the real `math` functions at `x = 1`. -/
theorem derivative_at_activated_witness :
    (⟨Real.exp, Real.sinh, Real.cosh, Real.sqrt⟩ : MathLib ℝ).Exp = Real.exp ∧
    (⟨Real.exp, Real.sinh, Real.cosh, Real.sqrt⟩ : MathLib ℝ).Sinh = Real.sinh ∧
    (⟨Real.exp, Real.sinh, Real.cosh, Real.sqrt⟩ : MathLib ℝ).Cosh = Real.cosh ∧
    (1 : ℝ) ≠ 0 ∧
    HasDerivAt (scalarOf (sigmoid ⟨Real.exp, Real.sinh, Real.cosh, Real.sqrt⟩))
      (sigmoidD (scalarOf (sigmoid ⟨Real.exp, Real.sinh, Real.cosh, Real.sqrt⟩) 1)) 1 ∧
    HasDerivAt (scalarOf (tanh ⟨Real.exp, Real.sinh, Real.cosh, Real.sqrt⟩))
      (tanhD (scalarOf (tanh ⟨Real.exp, Real.sinh, Real.cosh, Real.sqrt⟩) 1)) 1 ∧
    HasDerivAt (scalarOf (lRelu : VecProc ℝ)) (lReluD (scalarOf (lRelu : VecProc ℝ) 1)) 1 :=
  ⟨rfl, rfl, rfl, one_ne_zero,
   (derivative_at_activated ⟨Real.exp, Real.sinh, Real.cosh, Real.sqrt⟩ rfl rfl rfl 1).1.2,
   (derivative_at_activated ⟨Real.exp, Real.sinh, Real.cosh, Real.sqrt⟩ rfl rfl rfl 1).2.1.2,
   ((derivative_at_activated ⟨Real.exp, Real.sinh, Real.cosh, Real.sqrt⟩ rfl rfl rfl 1).2.2
      one_ne_zero).1⟩

end nn

namespace nn
open mat
variable {R : Type} [LinearOrderedField R]

/-! ## The forward pass of `Train` and `FeedForward` -/

/-- The loop of `FeedForward` on a well-formed network holds `a_{k-1}` after `k`
iterations. -/
theorem FeedForwardAfter_ok (M : MathLib R) (nn : NeuralNetwork R) (input : VecDense R)
    (hwf : nn.WellFormed) (hin : (input.length : Int) = nn.InputNodes)
    (a : List (VecDense R)) (ha : IsForwardTrace M nn.weights input a)
    (hasz : ∀ i, i < nn.weights.length →
      (a.getD i []).length = (nn.weights.getD i Weights.zero).m.rows)
    (k : Nat) (hk : k ≤ nn.weights.length) :
    FeedForwardAfter M nn input k = .ok (layerInput input a k) := by
  obtain ⟨hpos, hW, -⟩ := hwf.facts
  obtain ⟨hc0, hcs⟩ := hwf.cols hin
  obtain ⟨t, ht, hInv⟩ := forRange_ok
    (fun i (st : FeedForwardState R) =>
      st = { nn := nn, input := input, hiddenInput := layerInput input a i })
    (FeedForwardState.step M) k
    { nn := nn, input := input, hiddenInput := VecDenseCopyOf input } rfl
    (by
      intro i st hi hst
      subst hst
      have hi2 : i < nn.weights.length := by omega
      obtain ⟨hrows, -, hrpos, -⟩ := hW i hi2
      have hlenIn := layerInput_length nn.weights input a hc0 hcs i hi2
        (fun j hj => hasz j (by omega))
      have hout := ha.2 i _ (getElem?_of_lt_getD Weights.zero hi2)
      refine ⟨_, ?_, rfl⟩
      unfold FeedForwardState.step feedForwardStep
      simp only
      rw [index_getD Weights.zero hi2, except_ok_bind,
        NewVecDense_none_ok (nn.weights.getD i Weights.zero).m.rows hrpos hrows,
        except_ok_bind,
        VecDense.MulVec_dense_ok _ _ _ (by simp) hrpos hlenIn, except_ok_bind, hout,
        layerInput_succ]
      rfl)
  unfold FeedForwardAfter
  rw [ht, hInv]
  rfl

/-- C16: in a well-formed call of `Train`, whatever the buffers held before, the
forward pass leaves in `outputs[i]` the `i`-th intermediate activation vector of
`FeedForward(input)` under the weights before the call, and in `outputs[last]` what
`FeedForward(input)` returns under those weights. -/
theorem Train_forward_is_FeedForward (M : MathLib R) (st : TrainState R)
    (hwf : st.WellFormed) :
    ∃ st1, Train M st = .ok st1 ∧
      st1.outputs.length = st.nn.weights.length ∧
      (∀ i, i < st.nn.weights.length →
        FeedForwardAfter M st.nn st.input (i + 1) = .ok (st1.outputs.getD i [])) ∧
      FeedForward M st.nn st.input = .ok (st1.outputs.getD (st.nn.weights.length - 1) []) := by
  obtain ⟨a, e, hatr, -, hasz, -, hrun⟩ := Train_ok M st hwf
  obtain ⟨b, hbtr, -, hbrun⟩ := FeedForwardRun_ok M st.nn st.input hwf.1 hwf.2.1
  have hab : a = b := hatr.unique hbtr
  subst hab
  refine ⟨_, hrun, hatr.1, ?_, ?_⟩
  · intro i hi
    rw [FeedForwardAfter_ok M st.nn st.input hwf.1 hwf.2.1 a hatr hasz (i + 1) (by omega),
      layerInput_succ]
  · unfold FeedForward
    rw [hbrun]
    rfl

/-- C16 witness: one training step of `network0` with buffers left by an earlier
call. -/
theorem Train_forward_is_FeedForward_witness :
    trainStateFixedPoint.WellFormed ∧
    ∃ st1, Train ratMath trainStateFixedPoint = .ok st1 ∧
      st1.outputs.length = trainStateFixedPoint.nn.weights.length ∧
      (∀ i, i < trainStateFixedPoint.nn.weights.length →
        FeedForwardAfter ratMath trainStateFixedPoint.nn trainStateFixedPoint.input (i + 1)
          = .ok (st1.outputs.getD i [])) ∧
      FeedForward ratMath trainStateFixedPoint.nn trainStateFixedPoint.input
        = .ok (st1.outputs.getD (trainStateFixedPoint.nn.weights.length - 1) []) :=
  ⟨by decide!, Train_forward_is_FeedForward ratMath trainStateFixedPoint (by decide!)⟩

/-! ## `relu` and `reluD` in `Train` -/

theorem reluD_of_nonneg (x : R) (hx : 0 ≤ x) : reluD x = 1 := by
  unfold reluD
  rw [if_neg (not_lt.2 hx)]

theorem relu_output_nonneg (M : MathLib R) (v out : VecDense R)
    (h : callActFunc M (some .relu) v = .ok out) : ∀ y ∈ out, 0 ≤ y := by
  have h1 : relu v = .ok out := h
  rw [relu_eq_map] at h1
  have h2 := Except.ok.inj h1
  intro y hy
  rw [← h2] at hy
  obtain ⟨x, -, rfl⟩ := List.mem_map.1 hy
  split_ifs with hneg
  · exact le_refl 0
  · exact not_lt.1 hneg

/-- In a well-formed call of `Train` the buffer `adjVec[i]` of a layer `i` whose
activation is `Relu` ends equal to `errors[i]`. -/
theorem Train_relu_wellFormed (M : MathLib R) (st : TrainState R) (hwf : st.WellFormed) :
    ∃ st1, Train M st = .ok st1 ∧
      ∀ (i : Nat) (w : Weights R), st.nn.weights[i]? = some w → w.ActFunc = Relu →
        (w.actFunc, w.derivFunc) = ActivationFunction.Funcs w.ActFunc →
        ∃ adj : VecDense R, st1.adjVec[i]? = some adj ∧ st1.errors[i]? = some adj := by
  obtain ⟨a, e, hatr, hetr, hasz, hesz, hrun⟩ := Train_ok M st hwf
  refine ⟨_, hrun, ?_⟩
  intro i w hw hkind hres
  have hi : i < st.nn.weights.length := (List.getElem?_eq_some_iff.1 hw).1
  have hwd := getD_of_getElem? Weights.zero hw
  rw [hkind] at hres
  have hact : w.actFunc = some .relu := congrArg Prod.fst hres
  have hder : w.derivFunc = some .reluD := congrArg Prod.snd hres
  have hout := hatr.2 i w hw
  rw [hact] at hout
  have hnonneg := relu_output_nonneg M _ _ hout
  have hadj : layerAdjustment st.nn.weights a e i = e.getD i [] := by
    unfold layerAdjustment
    rw [hwd, Weights.deriv_eq hder]
    apply ext_getD 0
    · rw [adjustment_length, hasz i hi, hesz i hi]
    · intro j hj
      rw [adjustment_length] at hj
      rw [adjustment_getD _ _ _ _ hj]
      have : (0 : R) ≤ (a.getD i []).getD j 0 := by
        rw [List.getD_eq_getElem _ _ hj]
        exact hnonneg _ (List.getElem_mem hj)
      show (e.getD i []).getD j 0 * reluD ((a.getD i []).getD j 0) = _
      rw [reluD_of_nonneg _ this, mul_one]
  refine ⟨e.getD i [], ?_, ?_⟩
  · show (trainedAdjVec st.nn.weights a e)[i]? = _
    unfold trainedAdjVec
    rw [List.getElem?_map, List.getElem?_range hi, Option.map_some', hadj]
  · show e[i]? = _
    exact getElem?_of_lt_getD [] (by rw [hetr.1]; exact hi)

end nn

namespace nn
open mat
variable {R : Type} [LinearOrderedField R]

/-! ## What `Train` leaves unchanged -/

/-- A loop over any list that returned has kept every invariant its body keeps. -/
theorem foldlM_of_ok {σ ι : Type} (Inv : σ → Prop) (f : σ → ι → Except Failure σ)
    (l : List ι) (s0 t : σ) (h0 : Inv s0)
    (hstep : ∀ s i u, Inv s → f s i = .ok u → Inv u)
    (h : l.foldlM f s0 = .ok t) : Inv t := by
  induction l generalizing s0 with
  | nil =>
    simp [pure, Except.pure] at h
    exact h ▸ h0
  | cons x xs ih =>
    rw [List.foldlM_cons] at h
    obtain ⟨u, hu, hf⟩ := except_bind_eq_ok h
    exact ih u (hstep s0 x u h0 hu) hf

theorem Dense.Add_self_dims {m wd r : Dense R}
    (h : Dense.Add m (.dense m) (.dense wd) = .ok r) : r.rows = m.rows ∧ r.cols = m.cols := by
  unfold Dense.Add at h
  split_ifs at h with h1
  obtain ⟨u, -, h⟩ := except_bind_eq_ok h
  simp only [pure, Except.pure, Except.ok.injEq] at h
  subst h
  exact ⟨rfl, rfl⟩

theorem map_set_of_eq {α β : Type} (f : α → β) (xs : List α) (i : Nat) (x y : α)
    (hx : xs[i]? = some x) (hxy : f y = f x) : (xs.set i y).map f = xs.map f := by
  apply List.ext_getElem?
  intro j
  rw [List.getElem?_map, List.getElem?_map, List.getElem?_set]
  by_cases hij : i = j
  · subst hij
    have hi : i < xs.length := (List.getElem?_eq_some_iff.1 hx).1
    rw [if_pos rfl, if_pos hi, hx, Option.map_some', Option.map_some', hxy]
  · rw [if_neg hij]

/-- One iteration of "Update weights" that returned has kept the frame of every
layer. -/
theorem trainUpdateStep_frame {lr : R} {input : VecDense R} {outputs errors : List (VecDense R)}
    {u v : UpdateState R} {i : Nat}
    (h : trainUpdateStep lr input outputs errors u i = .ok v) :
    v.weights.map Weights.frame = u.weights.map Weights.frame := by
  unfold trainUpdateStep at h
  obtain ⟨o, -, h⟩ := except_bind_eq_ok h
  obtain ⟨adjVec, -, h⟩ := except_bind_eq_ok h
  obtain ⟨wd, -, h⟩ := except_bind_eq_ok h
  obtain ⟨adj, -, h⟩ := except_bind_eq_ok h
  obtain ⟨wd1, -, h⟩ := except_bind_eq_ok h
  obtain ⟨wd2, -, h⟩ := except_bind_eq_ok h
  obtain ⟨wds, -, h⟩ := except_bind_eq_ok h
  obtain ⟨w, hw, h⟩ := except_bind_eq_ok h
  obtain ⟨m, hm, h⟩ := except_bind_eq_ok h
  obtain ⟨ws, hws, h⟩ := except_bind_eq_ok h
  simp only [pure, Except.pure, Except.ok.injEq] at h
  subst h
  obtain ⟨-, hw⟩ := index_eq_ok hw
  obtain ⟨-, -, hws⟩ := setIndex_eq_ok hws
  obtain ⟨hr, hc⟩ := Dense.Add_self_dims hm
  subst hws
  apply map_set_of_eq _ _ _ w _ hw
  simp only [Weights.frame, hr, hc]

/-- A call of `Train` that returned has kept the fields of the network, the frame of
every layer, and the caller's two vectors. -/
theorem Train_eq_ok {M : MathLib R} {st st1 : TrainState R} (h : Train M st = .ok st1) :
    st1.nn.InputNodes = st.nn.InputNodes ∧ st1.nn.OutputNodes = st.nn.OutputNodes ∧
    st1.nn.LearningRate = st.nn.LearningRate ∧
    st1.nn.weights.map Weights.frame = st.nn.weights.map Weights.frame ∧
    st1.input = st.input ∧ st1.target = st.target := by
  unfold Train at h
  obtain ⟨outputs, -, h⟩ := except_bind_eq_ok h
  obtain ⟨errors, -, h⟩ := except_bind_eq_ok h
  obtain ⟨u, hu, h⟩ := except_bind_eq_ok h
  simp only [pure, Except.pure, Except.ok.injEq] at h
  subst h
  refine ⟨rfl, rfl, rfl, ?_, rfl, rfl⟩
  exact foldlM_of_ok
    (fun (v : UpdateState R) => v.weights.map Weights.frame = st.nn.weights.map Weights.frame)
    _ _ _ u rfl (fun s i v hs hv => (trainUpdateStep_frame hv).trans hs) hu

/-- The layer-dimension chain is a property of the two sizes of the network and of the
frames of its layers. -/
theorem NeuralNetwork.Chain.of_frame {nn nn1 : NeuralNetwork R} (h : nn.Chain)
    (hin : nn1.InputNodes = nn.InputNodes) (hout : nn1.OutputNodes = nn.OutputNodes)
    (hfr : nn1.weights.map Weights.frame = nn.weights.map Weights.frame) : nn1.Chain := by
  have hL : nn1.weights.map (·.LNodes) = nn.weights.map (·.LNodes) := by
    have := congrArg (List.map (fun (p : Int × Int × ActivationFunction ×
      Option activationFunction × Option activationFunctionD × Nat × Nat) => p.1)) hfr
    simpa only [List.map_map] using this
  have hR : nn1.weights.map (·.RNodes) = nn.weights.map (·.RNodes) := by
    have := congrArg (List.map (fun (p : Int × Int × ActivationFunction ×
      Option activationFunction × Option activationFunctionD × Nat × Nat) => p.2.1)) hfr
    simpa only [List.map_map] using this
  have hRA : nn1.weights.map (fun w => (w.RNodes, w.ActFunc))
      = nn.weights.map (fun w => (w.RNodes, w.ActFunc)) := by
    have := congrArg (List.map (fun (p : Int × Int × ActivationFunction ×
      Option activationFunction × Option activationFunctionD × Nat × Nat) =>
        (p.2.1, p.2.2.1))) hfr
    simpa only [List.map_map] using this
  obtain ⟨h1, h2, h3⟩ := h
  refine ⟨?_, ?_, ?_⟩
  · rw [← List.head?_map, hL, List.head?_map, h1, hin]
  · rw [List.map_dropLast, hR, ← List.map_dropLast, h2, List.map_tail, List.map_tail, hL]
  · rw [← List.getLast?_map, hRA, List.getLast?_map, h3, hout]

/-- A network returned by `NewNeuralNetwork` satisfies the layer-dimension chain. -/
theorem NewNeuralNetwork_chain {M : MathLib R} {rng : Nat → Nat → R} {s : Settings R}
    {nn : NeuralNetwork R} (h : NewNeuralNetwork M rng s = .ok nn) : nn.Chain := by
  obtain ⟨-, hin, hout, -, hlen, hlayers⟩ := NewNeuralNetwork_eq_ok h
  have hget : ∀ i (hi : i < nn.weights.length),
      newRandomWeights M (rng i) (plannedLayer s i).1 (plannedLayer s i).2.1
        (plannedLayer s i).2.2 = .ok nn.weights[i] := by
    intro i hi
    obtain ⟨w, hw, hnew⟩ := hlayers i (by omega)
    rw [List.getElem?_eq_getElem hi] at hw
    cases hw
    exact hnew
  have hpos : 0 < nn.weights.length := by omega
  have hlast : nn.weights.length - 1 < nn.weights.length := by omega
  refine ⟨?_, ?_, ?_⟩
  · rw [List.head?_eq_getElem?, List.getElem?_eq_getElem hpos]
    obtain ⟨-, -, hL, -⟩ := newRandomWeights_eq_ok (hget 0 hpos)
    simp only [Option.map_some', Option.some.injEq]
    rw [hL, hin]
    simp [plannedLayer]
  · apply List.ext_getElem
    · simp
    · intro i h1 h2
      simp only [List.length_map, List.length_dropLast, List.length_tail] at h1 h2
      simp only [List.getElem_map, List.getElem_dropLast, List.getElem_tail]
      obtain ⟨-, -, -, hR, -⟩ := newRandomWeights_eq_ok (hget i (by omega))
      obtain ⟨-, -, hL, -⟩ := newRandomWeights_eq_ok (hget (i + 1) (by omega))
      rw [hR, hL]
      exact plannedLayer_chain s i (by omega)
  · rw [List.getLast?_eq_getElem?, List.getElem?_eq_getElem hlast]
    obtain ⟨-, -, -, hR, hA, -⟩ := newRandomWeights_eq_ok (hget _ hlast)
    simp only [Option.map_some', Option.some.injEq, Prod.mk.injEq]
    rw [hR, hA, hout]
    have hk : ¬ (nn.weights.length - 1 < s.HiddenLayers.length) := by omega
    simp [plannedLayer, hk]

/-- A sequence of calls of `Train` that returned has kept the sizes of the network and
the frame of every layer. -/
theorem TrainCalls_eq_ok {M : MathLib R} {nn nn1 : NeuralNetwork R} {calls : List (TrainCall R)}
    (h : TrainCalls M nn calls = .ok nn1) :
    nn1.InputNodes = nn.InputNodes ∧ nn1.OutputNodes = nn.OutputNodes ∧
    nn1.LearningRate = nn.LearningRate ∧
    nn1.weights.map Weights.frame = nn.weights.map Weights.frame := by
  refine foldlM_of_ok
    (fun (x : NeuralNetwork R) => x.InputNodes = nn.InputNodes ∧ x.OutputNodes = nn.OutputNodes ∧
      x.LearningRate = nn.LearningRate ∧
      x.weights.map Weights.frame = nn.weights.map Weights.frame)
    _ calls nn nn1 ⟨rfl, rfl, rfl, rfl⟩ ?_ h
  intro x c y hx hy
  cases hT : Train M ⟨x, c.input, c.target, c.outputs, c.errors, c.adjVec, c.weightDeltas⟩ with
  | error e =>
    rw [hT] at hy
    cases hy
  | ok st1 =>
    rw [hT] at hy
    have hy2 : st1.nn = y := Except.ok.inj hy
    obtain ⟨h1, h2, h3, h4, -⟩ := Train_eq_ok hT
    subst hy2
    exact ⟨h1.trans hx.1, h2.trans hx.2.1, h3.trans hx.2.2.1, h4.trans hx.2.2.2⟩

/-- C18: a call of `Train` that returns leaves `InputNodes`, `OutputNodes`,
`LearningRate`, the number of layers, and of every layer `LNodes`, `RNodes`, `ActFunc`,
the two function values and the shape of the matrix as they were, and the caller's
input and target vectors too; hence a network returned by `NewNeuralNetwork` still
satisfies the layer-dimension chain after any sequence of `Train` calls. -/
theorem Train_frame (M : MathLib R) :
    (∀ st st1 : TrainState R, Train M st = .ok st1 →
      st1.nn.InputNodes = st.nn.InputNodes ∧ st1.nn.OutputNodes = st.nn.OutputNodes ∧
      st1.nn.LearningRate = st.nn.LearningRate ∧
      st1.nn.weights.length = st.nn.weights.length ∧
      (∀ (i : Nat) (w : Weights R), st.nn.weights[i]? = some w →
        ∃ w1 : Weights R, st1.nn.weights[i]? = some w1 ∧
          w1.LNodes = w.LNodes ∧ w1.RNodes = w.RNodes ∧ w1.ActFunc = w.ActFunc ∧
          w1.actFunc = w.actFunc ∧ w1.derivFunc = w.derivFunc ∧
          w1.m.rows = w.m.rows ∧ w1.m.cols = w.m.cols) ∧
      st1.input = st.input ∧ st1.target = st.target) ∧
    (∀ (rng : Nat → Nat → R) (s : Settings R) (nn0 nn1 : NeuralNetwork R)
        (calls : List (TrainCall R)),
      NewNeuralNetwork M rng s = .ok nn0 → TrainCalls M nn0 calls = .ok nn1 → nn1.Chain) := by
  constructor
  · intro st st1 h
    obtain ⟨h1, h2, h3, h4, h5, h6⟩ := Train_eq_ok h
    have hlen : st1.nn.weights.length = st.nn.weights.length := by
      have := congrArg List.length h4
      simpa only [List.length_map] using this
    refine ⟨h1, h2, h3, hlen, ?_, h5, h6⟩
    intro i w hw
    have hi : i < st.nn.weights.length := (List.getElem?_eq_some_iff.1 hw).1
    have hi1 : i < st1.nn.weights.length := by omega
    have hget := congrArg (fun l => l[i]?) h4
    simp only [List.getElem?_map, hw, List.getElem?_eq_getElem hi1, Option.map_some',
      Option.some.injEq, Weights.frame, Prod.mk.injEq] at hget
    obtain ⟨g1, g2, g3, g4, g5, g6, g7⟩ := hget
    exact ⟨_, List.getElem?_eq_getElem hi1, g1, g2, g3, g4, g5, g6, g7⟩
  · intro rng s nn0 nn1 calls hnew hcalls
    obtain ⟨h1, h2, -, h4⟩ := TrainCalls_eq_ok hcalls
    exact (NewNeuralNetwork_chain hnew).of_frame h1 h2 h4

/-- C18 witness: a call of `Train` on the network built from `settings0` returns and
keeps the frame, and the network after two calls satisfies the chain. -/
theorem Train_frame_witness :
    (∃ st1, Train ratMath trainState0 = .ok st1 ∧
      st1.nn.InputNodes = trainState0.nn.InputNodes ∧
      st1.nn.OutputNodes = trainState0.nn.OutputNodes ∧
      st1.nn.LearningRate = trainState0.nn.LearningRate ∧
      st1.nn.weights.length = trainState0.nn.weights.length ∧
      (∀ (i : Nat) (w : Weights ℚ), trainState0.nn.weights[i]? = some w →
        ∃ w1 : Weights ℚ, st1.nn.weights[i]? = some w1 ∧
          w1.LNodes = w.LNodes ∧ w1.RNodes = w.RNodes ∧ w1.ActFunc = w.ActFunc ∧
          w1.actFunc = w.actFunc ∧ w1.derivFunc = w.derivFunc ∧
          w1.m.rows = w.m.rows ∧ w1.m.cols = w.m.cols) ∧
      st1.input = trainState0.input ∧ st1.target = trainState0.target) ∧
    NewNeuralNetwork ratMath rng0 settings0 = .ok network0 ∧
    (∃ nn1, TrainCalls ratMath network0 trainCalls0 = .ok nn1 ∧ nn1.Chain) := by
  have h0 : NewNeuralNetwork ratMath rng0 settings0 = .ok network0 := by decide!
  refine ⟨?_, h0, ?_⟩
  · cases h : Train ratMath trainState0 with
    | error e =>
      have : (Train ratMath trainState0).isOk = true := by decide!
      rw [h] at this
      cases this
    | ok st1 => exact ⟨st1, rfl, (Train_frame ratMath).1 trainState0 st1 h⟩
  · cases h : TrainCalls ratMath network0 trainCalls0 with
    | error e =>
      have : (TrainCalls ratMath network0 trainCalls0).isOk = true := by decide!
      rw [h] at this
      cases this
    | ok nn1 =>
      exact ⟨nn1, rfl, (Train_frame ratMath).2 rng0 settings0 network0 nn1 trainCalls0 h0 h⟩

end nn

namespace nn
open mat dataset
variable {R : Type} [LinearOrderedField R] {σ : Type}

/-! ## `TrainWithDataset`: the checks at the top -/

/-- C15: if `ds.NumInputs() != InputNodes`, or `ds.NumLabels() != OutputNodes`, or
`iterations < 1`, then `TrainWithDataset` stops with `log.Fatal` while the dataset is in
the state in which it was passed (no `Reset`, no `NextSample`, no `Close` has acted on
it) and the network is the one that was passed, every weight matrix included. -/
theorem TrainWithDataset_validation (M : MathLib R) (ds : Dataset R σ)
    (draws : Nat → Nat → Nat → Nat) (nn : NeuralNetwork R) (s : σ)
    (batchSize iterations : Int) (fuel : Nat)
    (h : ds.NumInputs s ≠ nn.InputNodes ∨ ds.NumLabels s ≠ nn.OutputNodes ∨ iterations < 1) :
    ∃ msg, TrainWithDataset M ds draws nn s batchSize iterations fuel
      = some (.error (.fatal msg, some (nn, s))) := by
  unfold TrainWithDataset
  by_cases h1 : nn.InputNodes ≠ ds.NumInputs s
  · rw [if_pos h1]
    exact ⟨_, rfl⟩
  · rw [if_neg h1]
    by_cases h2 : nn.OutputNodes ≠ ds.NumLabels s
    · rw [if_pos h2]
      exact ⟨_, rfl⟩
    · rw [if_neg h2]
      have h3 : iterations < 1 := by
        rcases h with h | h | h
        · exact absurd (Ne.symm h) h1
        · exact absurd (Ne.symm h) h2
        · exact h
      rw [if_pos h3]
      exact ⟨_, rfl⟩

/-- C15 witness: a dataset of three-valued samples given to `network0`, whose state
counts the calls of `Reset` and `NextSample`. -/
theorem TrainWithDataset_validation_witness :
    ((listDataset 3 2 samplesLong).NumInputs ⟨0, 0, 0, 0⟩ ≠ network0.InputNodes
      ∨ (listDataset 3 2 samplesLong).NumLabels ⟨0, 0, 0, 0⟩ ≠ network0.OutputNodes
      ∨ (1 : Int) < 1) ∧
    ∃ msg, TrainWithDataset ratMath (listDataset 3 2 samplesLong) (fun _ => draws0) network0
        ⟨0, 0, 0, 0⟩ 5 1 10
      = some (.error (.fatal msg, some (network0, ⟨0, 0, 0, 0⟩))) :=
  ⟨Or.inl (by decide),
   TrainWithDataset_validation ratMath (listDataset 3 2 samplesLong) (fun _ => draws0) network0
     ⟨0, 0, 0, 0⟩ 5 1 10 (Or.inl (by decide))⟩

end nn

namespace nn
open mat dataset
variable {R : Type} [LinearOrderedField R] {σ : Type}

/-! ## `Test` -/

/-- On a well-formed network `FeedForward` returns a vector of `OutputNodes` entries,
which is not empty. -/
theorem FeedForward_ok_length (M : MathLib R) (nn : NeuralNetwork R) (input : VecDense R)
    (hwf : nn.WellFormed) (hin : (input.length : Int) = nn.InputNodes) :
    ∃ out, FeedForward M nn input = .ok out ∧ (out.length : Int) = nn.OutputNodes
      ∧ 0 < out.length := by
  obtain ⟨hpos, hW, -, -, hlastR, -⟩ := hwf.facts
  obtain ⟨a, -, hlens, hrun⟩ := FeedForwardRun_ok M nn input hwf hin
  have hlast : nn.weights.length - 1 < nn.weights.length := by omega
  obtain ⟨hrows, -, hrpos, -⟩ := hW _ hlast
  refine ⟨a.getD (nn.weights.length - 1) [], ?_, ?_, ?_⟩
  · unfold FeedForward
    rw [hrun]
    rfl
  · rw [hlens _ hlast, hrows, hlastR]
  · rw [hlens _ hlast]
    exact hrpos

/-- The loop of `floats.MaxIdx` keeps the first maximum of the values seen so far. -/
theorem floats_maxIdxLoop_spec (pre s : List R) (max : R) (ind : Nat)
    (hind : ind < pre.length) (hmax : pre.getD ind 0 = max)
    (hle : ∀ y ∈ pre, y ≤ max) (hfirst : ∀ j, j < ind → pre.getD j 0 < max) :
    (floats.maxIdxLoop s max ind pre.length).2 < (pre ++ s).length ∧
    (∀ y ∈ pre ++ s, y ≤ (pre ++ s).getD (floats.maxIdxLoop s max ind pre.length).2 0) ∧
    ∀ j, j < (floats.maxIdxLoop s max ind pre.length).2 →
      (pre ++ s).getD j 0 < (pre ++ s).getD (floats.maxIdxLoop s max ind pre.length).2 0 := by
  induction s generalizing pre max ind with
  | nil =>
    simp only [floats.maxIdxLoop, List.append_nil]
    rw [hmax]
    exact ⟨hind, hle, hfirst⟩
  | cons v vs ih =>
    have happ : pre ++ v :: vs = (pre ++ [v]) ++ vs := by simp
    have hlen : (pre ++ [v]).length = pre.length + 1 := by simp
    unfold floats.maxIdxLoop
    by_cases hv : v > max
    · rw [if_pos hv, happ, ← hlen]
      apply ih (pre ++ [v]) v pre.length
      · rw [hlen]; omega
      · rw [List.getD_eq_getElem?_getD, List.getElem?_append_right (le_refl _)]
        simp
      · intro y hy
        rcases List.mem_append.1 hy with h | h
        · exact le_of_lt (lt_of_le_of_lt (hle y h) hv)
        · rw [List.mem_singleton.1 h]
      · intro j hj
        rw [List.getD_eq_getElem?_getD, List.getElem?_append_left hj,
          ← List.getD_eq_getElem?_getD]
        rw [List.getD_eq_getElem _ _ hj]
        exact lt_of_le_of_lt (hle _ (List.getElem_mem hj)) hv
    · rw [if_neg hv, happ, ← hlen]
      apply ih (pre ++ [v]) max ind
      · rw [hlen]; omega
      · rw [List.getD_eq_getElem?_getD, List.getElem?_append_left hind,
          ← List.getD_eq_getElem?_getD]
        exact hmax
      · intro y hy
        rcases List.mem_append.1 hy with h | h
        · exact hle y h
        · rw [List.mem_singleton.1 h]
          exact not_lt.1 hv
      · intro j hj
        rw [List.getD_eq_getElem?_getD, List.getElem?_append_left (by omega),
          ← List.getD_eq_getElem?_getD]
        exact hfirst j hj

/-- On a non-empty slice `floats.MaxIdx` returns the index of the first maximum. -/
theorem floats_MaxIdx_ok (s : List R) (hs : 0 < s.length) :
    ∃ label, floats.MaxIdx s = .ok label ∧ IsFirstMaxIdx s label := by
  cases s with
  | nil => simp at hs
  | cons x xs =>
    have h := floats_maxIdxLoop_spec [x] xs x 0 (by simp) rfl
      (by intro y hy; rw [List.mem_singleton.1 hy]) (fun j hj => absurd hj (Nat.not_lt_zero j))
    simp only [List.length_singleton, List.singleton_append] at h
    refine ⟨_, rfl, Int.natCast_nonneg _, ?_, ?_, ?_⟩
    · rw [Int.toNat_ofNat]; exact h.1
    · rw [Int.toNat_ofNat]; exact h.2.1
    · rw [Int.toNat_ofNat]; exact h.2.2

/-- The body of the loop of `Test` on a sample of the right length. -/
theorem testSample_ok (M : MathLib R) (nn : NeuralNetwork R) (sample : DataSample R)
    (st : TestState R σ) (hwf : nn.WellFormed)
    (hin : (sample.InputVec.length : Int) = nn.InputNodes)
    (hres : (st.results.length : Int) = nn.OutputNodes) :
    ∃ out label, FeedForward M nn sample.InputVec = .ok out ∧ IsFirstMaxIdx out label ∧
      testSample M nn sample st = .ok
        { ds := st.ds, results := out, labelResults := st.labelResults ++ [label],
          rightCnt := st.rightCnt + (if label = sample.Label then 1 else 0),
          wrongCnt := st.wrongCnt + (if label = sample.Label then 0 else 1) } ∧
      (out.length : Int) = nn.OutputNodes := by
  obtain ⟨out, hout, hlen, hpos⟩ := FeedForward_ok_length M nn sample.InputVec hwf hin
  obtain ⟨label, hlabel, hmax⟩ := floats_MaxIdx_ok out hpos
  refine ⟨out, label, hout, hmax, ?_, hlen⟩
  have hcol : mat.Col st.results 0 out = .ok out := by
    have hne : ¬ out.length = 0 := by omega
    unfold mat.Col
    simp only [Matrix.Dims, if_neg hne]
    rw [if_neg (by simp), if_neg (by simp; omega)]
  unfold testSample
  rw [hout, except_ok_bind, hcol, except_ok_bind, hlabel, except_ok_bind]
  by_cases h : label = sample.Label
  · simp only [h, if_true, pure, Except.pure, add_zero]
  · simp only [h, if_false, pure, Except.pure, add_zero]

theorem correctCount_cons (x : DataSample R) (xs : List (DataSample R)) (l : Int)
    (ls : List Int) :
    correctCount (x :: xs) (l :: ls)
      = (if l = x.Label then 1 else 0) + correctCount xs ls := by
  unfold correctCount
  rw [List.zipWith_cons_cons, List.count_cons]
  by_cases h : l = x.Label
  · simp [h]; omega
  · simp [h]

/-- The loop of `Test` over the samples that the dataset yields. -/
theorem testLoop_ok (M : MathLib R) (nn : NeuralNetwork R) (ds : Dataset R σ)
    (hwf : nn.WellFormed) (xs : List (DataSample R)) :
    ∀ (x : DataSample R) (st : TestState R σ) (fuel : Nat),
      ds.yields st.ds xs →
      (∀ y ∈ x :: xs, (y.InputVec.length : Int) = nn.InputNodes) →
      (st.results.length : Int) = nn.OutputNodes → xs.length < fuel →
      ∃ (st1 : TestState R σ) (labels : List Int),
        testLoop M nn ds fuel (some x) st = some (.ok st1) ∧
        st1.labelResults = st.labelResults ++ labels ∧
        List.Forall₂ (fun (sample : DataSample R) label =>
          ∃ out, FeedForward M nn sample.InputVec = .ok out ∧ IsFirstMaxIdx out label)
          (x :: xs) labels ∧
        st1.rightCnt = st.rightCnt + (correctCount (x :: xs) labels : Int) ∧
        st1.rightCnt + st1.wrongCnt = st.rightCnt + st.wrongCnt + ((xs.length + 1 : Nat) : Int) := by
  induction xs with
  | nil =>
    intro x st fuel hy hlen hres hfuel
    obtain ⟨out, label, hout, hmax, hstep, holen⟩ := testSample_ok M nn x st hwf
      (hlen x (List.mem_cons_self _ _)) hres
    obtain ⟨k, rfl⟩ : ∃ k, fuel = k + 1 := ⟨fuel - 1, by omega⟩
    have hy1 : (ds.NextSample st.ds).1 = none := hy
    refine ⟨TestState.mk (ds.NextSample st.ds).2 out (st.labelResults ++ [label])
        (st.rightCnt + (if label = x.Label then 1 else 0))
        (st.wrongCnt + (if label = x.Label then 0 else 1)),
      [label], ?_, rfl, ?_, ?_, ?_⟩
    · rw [testLoop, hstep]
      simp only
      rw [hy1]
      cases k <;> rfl
    · exact List.Forall₂.cons ⟨out, hout, hmax⟩ List.Forall₂.nil
    · simp only [correctCount, List.zipWith_cons_cons, List.zipWith_nil_right]
      by_cases h : label = x.Label <;> simp [h]
    · simp only
      by_cases h : label = x.Label <;> simp [h] <;> omega
  | cons z zs ih =>
    intro x st fuel hy hlen hres hfuel
    obtain ⟨out, label, hout, hmax, hstep, holen⟩ := testSample_ok M nn x st hwf
      (hlen x (List.mem_cons_self _ _)) hres
    obtain ⟨k, rfl⟩ : ∃ k, fuel = k + 1 := ⟨fuel - 1, by simp at hfuel; omega⟩
    obtain ⟨hy1, hy2⟩ : (ds.NextSample st.ds).1 = some z
        ∧ ds.yields (ds.NextSample st.ds).2 zs := hy
    obtain ⟨st1, labels, hrun, hlabels, hall, hright, hsum⟩ := ih z
      { ds := (ds.NextSample st.ds).2, results := out,
        labelResults := st.labelResults ++ [label],
        rightCnt := st.rightCnt + (if label = x.Label then 1 else 0),
        wrongCnt := st.wrongCnt + (if label = x.Label then 0 else 1) } k hy2
      (fun y hy => hlen y (List.mem_cons_of_mem _ hy)) holen
      (by simp at hfuel; omega)
    refine ⟨st1, label :: labels, ?_, ?_, ?_, ?_, ?_⟩
    · rw [testLoop, hstep]
      simp only
      rw [hy1]
      exact hrun
    · rw [hlabels]
      simp
    · exact List.Forall₂.cons ⟨out, hout, hmax⟩ hall
    · rw [hright, correctCount_cons]
      simp only
      push_cast
      by_cases h : label = x.Label
      · simp [h]; omega
      · simp [h]
    · rw [hsum]
      simp only [List.length_cons]
      by_cases h : label = x.Label <;> simp [h] <;> omega

/-- C12 counterexample: `network0` has two input nodes and the dataset reports two
inputs and two labels, but its sample carries three input values: `Test` stops in
`FeedForward` with `log.Fatal` and returns no labels. -/
theorem Test_sample_length_fatal :
    network0.InputNodes = (listDataset 2 2 samplesLong).NumInputs ⟨0, 0, 0, 0⟩ ∧
    network0.OutputNodes = (listDataset 2 2 samplesLong).NumLabels ⟨0, 0, 0, 0⟩ ∧
    (listDataset 2 2 samplesLong).yields ⟨0, 0, 0, 0⟩ samplesLong ∧
    Test ratMath network0 (listDataset 2 2 samplesLong) ⟨0, 0, 0, 0⟩ 10
      = some (.error
          (.fatal "Number of input values not equal to number of input nodes")) := by
  refine ⟨by decide, by decide, ⟨rfl, rfl⟩, ?_⟩
  decide!

/-- C12 (amended): in exact real arithmetic, for a well-formed network and a dataset
with matching `NumInputs`/`NumLabels` that yields `N` samples, each with `InputNodes`
input values, `Test` returns `N` labels in the order of the samples, the `i`-th being
the index of the first maximum of `FeedForward(sample_i.InputVec)`; for `N ≥ 1` the
number it prints is `(number of i whose label equals sample_i.Label) / N * 100`, and
for `N = 0` it is the NaN of `0 / 0`. -/
theorem Test_labels (M : MathLib R) (nn : NeuralNetwork R) (ds : Dataset R σ) (s : σ)
    (samples : List (DataSample R)) (fuel : Nat) (hwf : nn.WellFormed)
    (hni : nn.InputNodes = ds.NumInputs s) (hnl : nn.OutputNodes = ds.NumLabels s)
    (hy : ds.yields s samples)
    (hlen : ∀ x ∈ samples, (x.InputVec.length : Int) = nn.InputNodes)
    (hfuel : samples.length ≤ fuel) :
    ∃ r, Test M nn ds s fuel = some (.ok r) ∧
      r.labelResults.length = samples.length ∧
      List.Forall₂ (fun (sample : DataSample R) label =>
        ∃ out, FeedForward M nn sample.InputVec = .ok out ∧ IsFirstMaxIdx out label)
        samples r.labelResults ∧
      (1 ≤ samples.length →
        r.res = some ((correctCount samples r.labelResults : R) / (samples.length : R) * 100)) ∧
      (samples.length = 0 → r.res = none) := by
  obtain ⟨hpos, hW, -, -, hlastR, -⟩ := hwf.facts
  have hout : 0 < nn.OutputNodes := by
    obtain ⟨hrows, -, hrpos, -⟩ := hW (nn.weights.length - 1) (by omega)
    rw [← hlastR, ← hrows]
    exact_mod_cast hrpos
  unfold Test
  rw [if_neg (by simp [hni]), if_neg (by simp [hnl]), if_neg (by omega)]
  cases samples with
  | nil =>
    have hy1 : (ds.NextSample s).1 = none := hy
    simp only
    rw [hy1]
    refine ⟨_, by cases fuel <;> rfl, rfl, List.Forall₂.nil, ?_, ?_⟩
    · intro h
      simp at h
    · intro _
      simp
  | cons x xs =>
    obtain ⟨hy1, hy2⟩ : (ds.NextSample s).1 = some x ∧ ds.yields (ds.NextSample s).2 xs := hy
    obtain ⟨st1, labels, hrun, hlabels, hall, hright, hsum⟩ := testLoop_ok M nn ds hwf xs x
      { ds := (ds.NextSample s).2, results := List.replicate nn.OutputNodes.toNat 0,
        labelResults := [], rightCnt := 0, wrongCnt := 0 } fuel hy2 hlen
      (by simp; omega) (by simpa using hfuel)
    simp only
    rw [hy1, hrun]
    simp only [List.nil_append] at hlabels
    refine ⟨_, rfl, ?_, ?_, ?_, ?_⟩
    · simp only
      rw [hlabels]
      exact hall.length_eq.symm
    · simp only
      rw [hlabels]
      exact hall
    · intro _
      have hne : ¬ (st1.rightCnt + st1.wrongCnt = 0) := by
        rw [hsum]
        simp only [zero_add]
        omega
      simp only
      rw [if_neg hne, hsum, hright, hlabels]
      simp
    · intro h
      simp at h

/-- On a dataset that yields no sample, `Test` returns no label and prints the NaN of
`0 / 0`. -/
theorem Test_empty_dataset :
    (Test ratMath network0 (listDataset 2 2 []) ⟨0, 0, 0, 0⟩ 3).map
      (fun r => r.map fun t => (t.labelResults, t.res)) = some (.ok ([], none)) := by
  decide!

/-- C12 witness: `Test` of `network0` on the three samples `samples0`. -/
theorem Test_labels_witness :
    network0.WellFormed ∧
    ∃ r, Test ratMath network0 (listDataset 2 2 samples0) ⟨0, 0, 0, 0⟩ 3 = some (.ok r) ∧
      r.labelResults.length = samples0.length ∧
      List.Forall₂ (fun (sample : DataSample ℚ) label =>
        ∃ out, FeedForward ratMath network0 sample.InputVec = .ok out
          ∧ IsFirstMaxIdx out label)
        samples0 r.labelResults ∧
      (1 ≤ samples0.length →
        r.res = some ((correctCount samples0 r.labelResults : ℚ) / (samples0.length : ℚ) * 100)) ∧
      (samples0.length = 0 → r.res = none) :=
  ⟨by decide!,
   Test_labels ratMath network0 (listDataset 2 2 samples0) ⟨0, 0, 0, 0⟩ samples0 3
     (by decide!) (by decide) (by decide) ⟨rfl, rfl, rfl, rfl⟩ (by decide!) (by decide)⟩

end nn

/-! ## `dataFetchAsync` -/

theorem swapAt_perm {α : Type} (xs : List α) (i j : Nat) : (swapAt xs i j).Perm xs := by
  classical
  unfold swapAt
  cases hi : xs[i]? with
  | none => exact List.Perm.refl _
  | some a =>
    cases hj : xs[j]? with
    | none => exact List.Perm.refl _
    | some b =>
      simp only
      obtain ⟨hil, ha⟩ := List.getElem?_eq_some_iff.1 hi
      obtain ⟨hjl, hb⟩ := List.getElem?_eq_some_iff.1 hj
      by_cases hij : i = j
      · subst hij
        have hab : a = b := by rw [← ha, ← hb]
        subst hab
        rw [List.set_set]
        have : xs.set i a = xs := by
          have e := nn.getD_of_getElem? a hi
          calc xs.set i a = xs.set i (xs.getD i a) := by rw [e]
            _ = xs := nn.set_getD_self_gen xs i a
        rw [this]
      · rw [List.perm_iff_count]
        intro c
        have hjl2 : j < (xs.set i b).length := by simpa using hjl
        rw [List.count_set _ _ _ _ hjl2, List.count_set _ _ _ _ hil,
          List.getElem_set_ne hij, ha, hb]
        have hle : (if (a == c) = true then 1 else 0) ≤ xs.count c := by
          split_ifs with h
          · have hac : a = c := by simpa using h
            subst hac
            exact List.count_pos_iff.2 (ha ▸ List.getElem_mem hil)
          · exact Nat.zero_le _
        generalize (if (a == c) = true then 1 else 0) = p at hle ⊢
        generalize (if (b == c) = true then 1 else 0) = q
        omega

theorem rand_Shuffle_perm {α : Type} (draw : Nat → Nat) (n : Nat) (xs : List α) :
    (rand.Shuffle draw n (fun i j (ys : List α) => swapAt ys i j) xs).Perm xs := by
  unfold rand.Shuffle
  generalize ((List.range (n - 1)).map (· + 1)).reverse = l
  induction l generalizing xs with
  | nil => exact List.Perm.refl _
  | cons i l ih =>
    rw [List.foldl_cons]
    exact (ih _).trans (swapAt_perm xs i _)

theorem Chan_sendAll_ok {α : Type} (xs : List α) (ch : Chan α) (h : ch.closed = false) :
    xs.foldlM Chan.send ch = .ok { sent := ch.sent ++ xs, closed := false } := by
  induction xs generalizing ch with
  | nil =>
    obtain ⟨sent, closed⟩ := ch
    simp only at h
    subst h
    simp [pure, Except.pure]
  | cons x xs ih =>
    rw [List.foldlM_cons]
    have hs : ch.send x = .ok { sent := ch.sent ++ [x], closed := false } := by
      obtain ⟨sent, closed⟩ := ch
      simp only at h
      subst h
      rfl
    rw [hs, except_ok_bind, ih _ rfl]
    simp

namespace nn
open mat dataset
variable {R : Type} [LinearOrderedField R] {σ : Type}

/-- The closure `sendSamples` on an open channel sends a permutation of `samples`. -/
theorem sendSamples_ok (draws : Nat → Nat → Nat) (st : FetchState R σ)
    (h : st.dataChan.closed = false) :
    ∃ group : List (DataSample R), group.Perm st.samples ∧
      sendSamples draws st = .ok
        { ds := st.ds, samples := group,
          dataChan := { sent := st.dataChan.sent ++ group, closed := false },
          sends := st.sends + 1 } := by
  refine ⟨rand.Shuffle (draws st.sends) st.samples.length
    (fun i j (xs : List (DataSample R)) => swapAt xs i j) st.samples,
    rand_Shuffle_perm _ _ _, ?_⟩
  unfold sendSamples
  simp only
  rw [Chan_sendAll_ok _ _ h, except_ok_bind]
  rfl

theorem Dataset_yields_iff (ds : Dataset R σ) (s : σ) (xs : List (DataSample R)) :
    ds.yields s xs ↔ ds.yieldsAfter (ds.NextSample s).1 (ds.NextSample s).2 xs := by
  cases xs with
  | nil =>
    show (ds.NextSample s).1 = none ↔ _
    cases h : (ds.NextSample s).1 with
    | none => simp [Dataset.yieldsAfter]
    | some x => simp [Dataset.yieldsAfter]
  | cons x xs =>
    show ((ds.NextSample s).1 = some x ∧ ds.yields (ds.NextSample s).2 xs) ↔ _
    cases h : (ds.NextSample s).1 with
    | none => simp [Dataset.yieldsAfter]
    | some y =>
      simp only [Dataset.yieldsAfter, Option.some.injEq, List.cons.injEq]
      constructor
      · rintro ⟨rfl, hy⟩
        exact ⟨xs, ⟨rfl, rfl⟩, hy⟩
      · rintro ⟨zs, ⟨rfl, rfl⟩, hy⟩
        exact ⟨rfl, hy⟩

end nn

namespace nn
open mat dataset
variable {R : Type} [LinearOrderedField R] {σ : Type}

theorem dataFetchLoop_none (ds : Dataset R σ) (draws : Nat → Nat → Nat) (size : Int)
    (fuel : Nat) (st : FetchState R σ) :
    dataFetchLoop ds draws size fuel none st = some (.ok st) := by
  cases fuel <;> rfl

/-- The loop of `dataFetchAsync` over the samples `rest` that are still to come: it
sends the full batches of `samples ++ rest`, each as a permutation of itself, and
leaves the samples after the last full batch in `samples`. -/
theorem dataFetchLoop_ok (ds : Dataset R σ) (draws : Nat → Nat → Nat) (B : Nat) (hB : 1 ≤ B)
    (rest : List (DataSample R)) :
    ∀ (next : Option (DataSample R)) (st : FetchState R σ) (fuel : Nat),
      ds.yieldsAfter next st.ds rest → st.dataChan.closed = false →
      st.samples.length < B → rest.length ≤ fuel →
      ∃ (st1 : FetchState R σ) (groups : List (List (DataSample R))),
        dataFetchLoop ds draws (B : Int) fuel next st = some (.ok st1) ∧
        st1.dataChan = { sent := st.dataChan.sent ++ groups.flatten, closed := false } ∧
        groups.length = (st.samples ++ rest).length / B ∧
        (∀ g, g < groups.length →
          (groups.getD g []).Perm (((st.samples ++ rest).drop (g * B)).take B)) ∧
        groups.flatten.Perm ((st.samples ++ rest).take (groups.length * B)) ∧
        st1.samples = (st.samples ++ rest).drop (groups.length * B) := by
  induction rest with
  | nil =>
    intro next st fuel hya hopen hlt hfuel
    cases next with
    | some x =>
      obtain ⟨xs, hx, -⟩ := hya
      cases hx
    | none =>
      refine ⟨st, [], dataFetchLoop_none _ _ _ _ _, ?_, ?_, ?_, ?_, ?_⟩
      · obtain ⟨d, sm, ⟨sent, closed⟩, k⟩ := st
        simp only at hopen
        subst hopen
        simp
      · simp only [List.append_nil, List.length_nil]
        exact (Nat.div_eq_of_lt hlt).symm
      · intro g hg
        simp at hg
      · simp
      · simp
  | cons x xs ih =>
    intro next st fuel hya hopen hlt hfuel
    cases next with
    | none => cases hya
    | some x1 =>
      obtain ⟨xs1, hx, hy⟩ := hya
      obtain ⟨rfl, rfl⟩ := List.cons.inj hx
      obtain ⟨k, rfl⟩ : ∃ k, fuel = k + 1 := ⟨fuel - 1, by simp at hfuel; omega⟩
      have hk : xs.length ≤ k := by simpa using hfuel
      have hya2 := (Dataset_yields_iff ds st.ds xs).1 hy
      have happ : st.samples ++ x :: xs = (st.samples ++ [x]) ++ xs := by simp
      have hcl : (st.samples ++ [x]).length = st.samples.length + 1 := by simp
      by_cases hfull : (st.samples ++ [x]).length = B
      · obtain ⟨group, hperm, hsend⟩ := sendSamples_ok draws
          { st with samples := st.samples ++ [x] } hopen
        obtain ⟨st1, groups, hrun, hch, hlen, hgr, hjoin, hsam⟩ := ih (ds.NextSample st.ds).1
          { ds := (ds.NextSample st.ds).2, samples := [],
            dataChan := { sent := st.dataChan.sent ++ group, closed := false },
            sends := st.sends + 1 } k hya2 rfl (by simp; omega) hk
        simp only [List.nil_append] at hlen hgr hjoin hsam
        refine ⟨st1, group :: groups, ?_, ?_, ?_, ?_, ?_, ?_⟩
        · rw [dataFetchLoop]
          simp only
          rw [if_pos (by exact_mod_cast hfull), hsend]
          exact hrun
        · rw [hch]
          simp
        · rw [happ, List.length_append, hfull, List.length_cons, hlen, Nat.add_div_left _ (by omega)]
        · intro g hg
          rw [happ]
          cases g with
          | zero =>
            simp only [List.getD_cons_zero, Nat.zero_mul, List.drop_zero]
            rw [List.take_left' hfull]
            exact hperm
          | succ g =>
            have e : (g + 1) * B = (st.samples ++ [x]).length + g * B := by
              rw [hfull, Nat.succ_mul]; omega
            rw [List.getD_cons_succ, e, List.drop_append]
            exact hgr g (by simpa using hg)
        · rw [happ, List.flatten_cons, List.length_cons]
          have e : (groups.length + 1) * B = (st.samples ++ [x]).length + groups.length * B := by
            rw [hfull, Nat.succ_mul]; omega
          rw [e, List.take_append]
          exact hperm.append hjoin
        · rw [hsam, happ, List.length_cons]
          have e : (groups.length + 1) * B = (st.samples ++ [x]).length + groups.length * B := by
            rw [hfull, Nat.succ_mul]; omega
          rw [e, List.drop_append]
      · obtain ⟨st1, groups, hrun, hch, hlen, hgr, hjoin, hsam⟩ := ih (ds.NextSample st.ds).1
          { ds := (ds.NextSample st.ds).2, samples := st.samples ++ [x],
            dataChan := st.dataChan, sends := st.sends } k hya2 hopen
          (by show (st.samples ++ [x]).length < B; omega) hk
        simp only at hch hlen hgr hjoin hsam
        rw [← happ] at hlen hgr hjoin hsam
        refine ⟨st1, groups, ?_, hch, hlen, hgr, hjoin, hsam⟩
        rw [dataFetchLoop]
        simp only
        rw [if_neg (by exact_mod_cast hfull)]
        exact hrun

theorem ceil_div_eq (N B : Nat) (hB : 1 ≤ B) :
    (N + B - 1) / B = N / B + (if N % B = 0 then 0 else 1) := by
  have h1 := Nat.div_add_mod N B
  have h2 := Nat.mod_lt N (by omega : B > 0)
  have h3 : B * (N / B) = N / B * B := Nat.mul_comm _ _
  by_cases h : N % B = 0
  · rw [if_pos h, Nat.add_zero]
    apply Nat.div_eq_of_lt_le
    · omega
    · rw [Nat.succ_mul]; omega
  · rw [if_neg h]
    apply Nat.div_eq_of_lt_le
    · rw [Nat.succ_mul]; omega
    · rw [Nat.succ_mul, Nat.succ_mul]; omega

/-- C11: for a dataset that yields the samples `s_1..s_N` and a batch size `B ≥ 1`,
whatever numbers the shuffles draw, `dataFetchAsync` sends `N` samples on the channel
and then closes it; what it sends is a sequence of `ceil(N/B)` consecutive groups,
group `g` being a permutation of the slice `s_{gB+1} .. s_{min((g+1)B, N)}`, so the
whole is a permutation of the samples. -/
theorem dataFetchAsync_batches (ds : Dataset R σ) (draws : Nat → Nat → Nat) (s : σ)
    (dataChan : Chan (DataSample R)) (size : Int) (fuel : Nat) (samples : List (DataSample R))
    (hB : 1 ≤ size) (hopen : dataChan.closed = false) (hy : ds.yields s samples)
    (hfuel : samples.length ≤ fuel) :
    ∃ (s1 : σ) (groups : List (List (DataSample R))),
      dataFetchAsync ds draws s dataChan size fuel
        = some (.ok (s1, { sent := dataChan.sent ++ groups.flatten, closed := true })) ∧
      groups.flatten.length = samples.length ∧
      groups.flatten.Perm samples ∧
      groups.length = (samples.length + size.toNat - 1) / size.toNat ∧
      ∀ g, g < groups.length →
        (groups.getD g []).Perm ((samples.drop (g * size.toNat)).take size.toNat) := by
  obtain ⟨B, rfl⟩ : ∃ B : Nat, size = (B : Int) := ⟨size.toNat, by omega⟩
  have hB1 : 1 ≤ B := by omega
  simp only [Int.toNat_ofNat]
  obtain ⟨st1, groups, hrun, hch, hlen, hgr, hjoin, hsam⟩ := dataFetchLoop_ok ds draws B hB1
    samples (ds.NextSample s).1
    { ds := (ds.NextSample s).2, samples := [], dataChan := dataChan, sends := 0 } fuel
    ((Dataset_yields_iff ds s samples).1 hy) hopen (by simp; omega) hfuel
  simp only [List.nil_append] at hch hlen hgr hjoin hsam
  obtain ⟨group, hperm, hsend⟩ := sendSamples_ok draws st1 (by rw [hch])
  have hq1 : samples.length / B * B ≤ samples.length := Nat.div_mul_le_self _ _
  have hmod := Nat.div_add_mod samples.length B
  have hmodlt := Nat.mod_lt samples.length (by omega : B > 0)
  have hcomm : B * (samples.length / B) = samples.length / B * B := Nat.mul_comm _ _
  have hrun2 : dataFetchAsync ds draws s dataChan (B : Int) fuel
      = some (.ok (st1.ds, { sent := dataChan.sent ++ (groups.flatten ++ group), closed := true })) := by
    unfold dataFetchAsync
    rw [if_neg (by omega)]
    simp only
    rw [hrun]
    simp only
    rw [hsend, except_ok_bind]
    simp only [hch, Chan.close]
    simp only [Bool.false_eq_true, if_false, pure, Except.pure, List.append_assoc]
    rfl
  have hall : (groups.flatten ++ group).Perm samples := by
    have h1 : (groups.flatten ++ group).Perm
        (samples.take (groups.length * B) ++ samples.drop (groups.length * B)) :=
      hjoin.append (hsam ▸ hperm)
    rwa [List.take_append_drop] at h1
  by_cases hr : samples.length % B = 0
  · have hnil : st1.samples = [] := by
      rw [hsam, hlen]
      apply List.drop_eq_nil_of_le
      omega
    have hg : group = [] := by
      rw [hnil] at hperm
      exact hperm.eq_nil
    rw [hg, List.append_nil] at hrun2 hall
    refine ⟨st1.ds, groups, hrun2, hall.length_eq, hall, ?_, hgr⟩
    rw [hlen, ceil_div_eq _ _ hB1, if_pos hr, Nat.add_zero]
  · refine ⟨st1.ds, groups ++ [group], ?_, ?_, ?_, ?_, ?_⟩
    · rw [hrun2]
      simp
    · rw [List.flatten_append, List.flatten_singleton]
      exact hall.length_eq
    · rw [List.flatten_append, List.flatten_singleton]
      exact hall
    · rw [List.length_append, List.length_singleton, hlen, ceil_div_eq _ _ hB1, if_neg hr]
    · intro g hg
      rw [List.length_append, List.length_singleton] at hg
      by_cases hgl : g < groups.length
      · rw [List.getD_append _ _ _ _ hgl]
        exact hgr g hgl
      · have hge : g = groups.length := by omega
        subst hge
        rw [List.getD_append_right _ _ _ _ (le_refl _), Nat.sub_self, List.getD_cons_zero,
          List.take_of_length_le]
        · rw [← hsam]; exact hperm
        · rw [List.length_drop, hlen]; omega

/-- C11 witness: three samples in batches of two. -/
theorem dataFetchAsync_batches_witness :
    ((1 : Int) ≤ 2 ∧ (listDataset 2 2 samples0).yields ⟨0, 0, 0, 0⟩ samples0) ∧
    ∃ (s1 : Cursor) (groups : List (List (DataSample ℚ))),
      dataFetchAsync (listDataset 2 2 samples0) draws0 ⟨0, 0, 0, 0⟩ ⟨[], false⟩ 2 3
        = some (.ok (s1, { sent := [] ++ groups.flatten, closed := true })) ∧
      groups.flatten.length = samples0.length ∧
      groups.flatten.Perm samples0 ∧
      groups.length = (samples0.length + (2 : Int).toNat - 1) / (2 : Int).toNat ∧
      ∀ g, g < groups.length →
        (groups.getD g []).Perm ((samples0.drop (g * (2 : Int).toNat)).take (2 : Int).toNat) :=
  ⟨⟨by decide, rfl, rfl, rfl, rfl⟩,
   dataFetchAsync_batches (listDataset 2 2 samples0) draws0 ⟨0, 0, 0, 0⟩ ⟨[], false⟩ 2 3
     samples0 (by decide) rfl ⟨rfl, rfl, rfl, rfl⟩ (by decide)⟩

end nn

/-! ## `Train`: dimensions and bounds -/

section SafeLoops

variable {σ : Type}

/-- An upward `for` loop whose body either keeps the invariant or stops with the
failure `E` runs to its end or stops with `E`. -/
theorem forRange_safe (E : Failure) (Q : Prop) (Inv : Nat → σ → Prop)
    (f : σ → Nat → Except Failure σ) (n : Nat) (s0 : σ) (h0 : Inv 0 s0)
    (hstep : ∀ i s, i < n → Inv i s →
      (∃ t, f s i = .ok t ∧ Inv (i + 1) t) ∨ (f s i = .error E ∧ Q)) :
    (∃ t, (List.range n).foldlM f s0 = .ok t ∧ Inv n t)
      ∨ ((List.range n).foldlM f s0 = .error E ∧ Q) := by
  induction n with
  | zero => exact Or.inl ⟨s0, rfl, h0⟩
  | succ n ih =>
    rcases ih (fun i s hi => hstep i s (Nat.lt_succ_of_lt hi)) with ⟨t, ht, hInv⟩ | ⟨herr, hq⟩
    · rcases hstep n t (Nat.lt_succ_self n) hInv with ⟨u, hu, hI⟩ | ⟨he, hq⟩
      · exact Or.inl ⟨u, by rw [foldlM_range_succ, ht, except_ok_bind, hu], hI⟩
      · exact Or.inr ⟨by rw [foldlM_range_succ, ht, except_ok_bind, he], hq⟩
    · exact Or.inr ⟨by rw [foldlM_range_succ, herr, except_error_bind], hq⟩

/-- A downward `for` loop whose body either keeps the invariant or stops with the
failure `E` runs to its end or stops with `E`. -/
theorem forDown_safe (E : Failure) (Q : Prop) (Inv : Nat → σ → Prop)
    (f : σ → Nat → Except Failure σ) (n : Nat) (s0 : σ) (h0 : Inv n s0)
    (hstep : ∀ i s, i < n → Inv (i + 1) s →
      (∃ t, f s i = .ok t ∧ Inv i t) ∨ (f s i = .error E ∧ Q)) :
    (∃ t, (List.range n).reverse.foldlM f s0 = .ok t ∧ Inv 0 t)
      ∨ ((List.range n).reverse.foldlM f s0 = .error E ∧ Q) := by
  induction n generalizing s0 with
  | zero => exact Or.inl ⟨s0, rfl, h0⟩
  | succ n ih =>
    rcases hstep n s0 (Nat.lt_succ_self n) h0 with ⟨u, hu, hI⟩ | ⟨he, hq⟩
    · rcases ih u hI (fun i s hi => hstep i s (Nat.lt_succ_of_lt hi))
        with ⟨t, ht, hI2⟩ | ⟨herr, hq⟩
      · exact Or.inl ⟨t, by rw [foldlM_range_reverse_succ, hu, except_ok_bind, ht], hI2⟩
      · exact Or.inr ⟨by rw [foldlM_range_reverse_succ, hu, except_ok_bind, herr], hq⟩
    · exact Or.inr ⟨by rw [foldlM_range_reverse_succ, he, except_error_bind], hq⟩

end SafeLoops

namespace nn
open mat dataset
variable {R : Type} [LinearOrderedField R]

/-- One iteration of "Feed forward" in `Train` on buffers of the right sizes comes
down to the call of the activation function. -/
theorem trainForwardStep_run (M : MathLib R) (ws : List (Weights R)) (input : VecDense R)
    (outs : List (VecDense R)) (i : Nat) (hi : i < ws.length)
    (hrpos : 0 < (ws.getD i Weights.zero).m.rows)
    (hlen : outs.length = ws.length)
    (hout : (outs.getD i []).length = (ws.getD i Weights.zero).m.rows)
    (hin : (ws.getD i Weights.zero).m.cols = (layerInput input outs i).length) :
    trainForwardStep M ws input outs i
      = (callActFunc M (ws.getD i Weights.zero).actFunc
          (matVec (ws.getD i Weights.zero).m (layerInput input outs i)) >>= fun o =>
            setIndex outs (i : Int) o) := by
  have hmul : (if i > 0 then do
        let prev ← index outs ((i : Int) - 1)
        VecDense.MulVec (outs.getD i []) (.dense (ws.getD i Weights.zero).m) prev
      else VecDense.MulVec (outs.getD i []) (.dense (ws.getD i Weights.zero).m) input)
      = .ok (matVec (ws.getD i Weights.zero).m (layerInput input outs i)) := by
    cases i with
    | zero =>
      rw [if_neg (by omega)]
      exact VecDense.MulVec_dense_ok _ _ _ hout hrpos hin
    | succ k =>
      rw [if_pos (by omega)]
      have e : (((k + 1 : Nat) : Int) - 1) = (k : Int) := by omega
      rw [e, index_getD [] (by omega : k < outs.length), except_ok_bind]
      rw [layerInput_succ] at hin
      rw [layerInput_succ]
      exact VecDense.MulVec_dense_ok _ _ _ hout hrpos hin
  unfold trainForwardStep
  rw [index_getD [] (by omega : i < outs.length), except_ok_bind,
    index_getD Weights.zero hi, except_ok_bind, hmul, except_ok_bind]

/-- The loop "Feed forward" of `Train` on buffers of the right sizes runs to its end,
and then no activation function is nil, or stops at the call of a nil activation
function. -/
theorem trainForward_safe (M : MathLib R) (ws : List (Weights R)) (input : VecDense R)
    (outputs : List (VecDense R))
    (hrp : ∀ i, i < ws.length → 0 < (ws.getD i Weights.zero).m.rows)
    (hc0 : (ws.getD 0 Weights.zero).m.cols = input.length)
    (hcs : ∀ i, i + 1 < ws.length →
      (ws.getD (i + 1) Weights.zero).m.cols = (ws.getD i Weights.zero).m.rows)
    (hlen : outputs.length = ws.length)
    (hsz : ∀ i, i < ws.length →
      (outputs.getD i []).length = (ws.getD i Weights.zero).m.rows) :
    (∃ a, trainForward M ws input outputs = .ok a ∧ a.length = ws.length ∧
      (∀ i, i < ws.length → (a.getD i []).length = (ws.getD i Weights.zero).m.rows) ∧
      (∀ i, i < ws.length → (ws.getD i Weights.zero).actFunc.isSome = true)) ∨
    (trainForward M ws input outputs = .error nilDereference ∧
      ∃ i, i < ws.length ∧ (ws.getD i Weights.zero).actFunc = none) := by
  have h := forRange_safe nilDereference
    (∃ i, i < ws.length ∧ (ws.getD i Weights.zero).actFunc = none)
    (fun i (outs : List (VecDense R)) => outs.length = ws.length ∧
      (∀ j, j < ws.length → (outs.getD j []).length = (ws.getD j Weights.zero).m.rows) ∧
      (∀ j, j < i → (ws.getD j Weights.zero).actFunc.isSome = true))
    (trainForwardStep M ws input) ws.length outputs
    ⟨hlen, hsz, fun j hj => absurd hj (Nat.not_lt_zero j)⟩
    (by
      rintro i outs hi ⟨hl, hs, ht⟩
      have hrun := trainForwardStep_run M ws input outs i hi (hrp i hi) hl (hs i hi)
        (layerInput_length ws input outs hc0 hcs i hi (fun j hj => hs j (by omega)))
      cases hact : (ws.getD i Weights.zero).actFunc with
      | none =>
        right
        refine ⟨?_, i, hi, hact⟩
        rw [hrun, hact]
        rfl
      | some g =>
        obtain ⟨o, ho, holen⟩ := callActFunc_ok M (some g)
          (matVec (ws.getD i Weights.zero).m (layerInput input outs i)) rfl
          (by rw [matVec_length]; exact hrp i hi)
        left
        refine ⟨outs.set i o, ?_, by simp [hl], ?_, ?_⟩
        · rw [hrun, hact, ho, except_ok_bind]
          exact setIndex_nat o (by omega)
        · intro j hj
          by_cases hji : j = i
          · subst hji
            rw [getD_set_eq outs j o [] (by omega), holen, matVec_length]
          · rw [getD_set_ne outs i j o [] hji]
            exact hs j hj
        · intro j hj
          by_cases hji : j = i
          · subst hji
            rw [hact]
            rfl
          · exact ht j (by omega))
  unfold trainForward
  rcases h with ⟨a, hrun, hl, hs, ht⟩ | herr
  · exact Or.inl ⟨a, hrun, hl, hs, ht⟩
  · exact Or.inr herr

/-- One iteration of "Update weights" on a layer whose derivative function is nil
stops at the call of that function. -/
theorem trainUpdateStep_nil (lr : R) (input : VecDense R) (a e : List (VecDense R))
    (ws : List (Weights R)) (u : UpdateState R) (i : Nat) (hi : i < ws.length)
    (hul : u.weights.length = ws.length)
    (hui : u.weights.getD i Weights.zero = ws.getD i Weights.zero)
    (hd : (ws.getD i Weights.zero).derivFunc = none)
    (hal : a.length = ws.length) (hel : e.length = ws.length)
    (hasz : 0 < (a.getD i []).length) (hesz : 0 < (e.getD i []).length)
    (hvl : u.adjVec.length = ws.length) :
    trainUpdateStep lr input a e u i = .error nilDereference := by
  obtain ⟨n, hn⟩ : ∃ n, (a.getD i []).length = n + 1 := ⟨(a.getD i []).length - 1, by omega⟩
  have hadj : trainAdjStep u.weights a e i u.adjVec 0 = .error nilDereference := by
    unfold trainAdjStep
    rw [index_getD [] (by omega : i < u.adjVec.length), except_ok_bind,
      index_getD [] (by omega : i < e.length), except_ok_bind,
      VecDense.AtVec_ok _ _ hesz, except_ok_bind,
      index_getD Weights.zero (by omega : i < u.weights.length), except_ok_bind,
      index_getD [] (by omega : i < a.length), except_ok_bind,
      VecDense.AtVec_ok _ _ hasz, except_ok_bind, hui, hd]
    rfl
  unfold trainUpdateStep
  rw [index_getD [] (by omega : i < a.length), except_ok_bind, hn, List.range_succ_eq_map,
    List.foldlM_cons, hadj]
  rfl

/-- The loop "Update weights" of `Train` on vectors and buffers of the right sizes
runs to its end or stops at the call of a nil derivative function. -/
theorem trainUpdate_safe (lr : R) (input : VecDense R) (a e : List (VecDense R))
    (ws : List (Weights R)) (adjVec : List (VecDense R)) (weightDeltas : List (Dense R))
    (hS : ∀ i, i < ws.length → (ws.getD i Weights.zero).Shaped ∧
      0 < (ws.getD i Weights.zero).m.rows ∧ 0 < (ws.getD i Weights.zero).m.cols)
    (hact : ∀ i, i < ws.length → (ws.getD i Weights.zero).actFunc.isSome = true)
    (hc0 : (ws.getD 0 Weights.zero).m.cols = input.length)
    (hcs : ∀ i, i + 1 < ws.length →
      (ws.getD (i + 1) Weights.zero).m.cols = (ws.getD i Weights.zero).m.rows)
    (hal : a.length = ws.length) (hel : e.length = ws.length)
    (hasz : ∀ i, i < ws.length → (a.getD i []).length = (ws.getD i Weights.zero).m.rows)
    (hesz : ∀ i, i < ws.length → (e.getD i []).length = (ws.getD i Weights.zero).m.rows)
    (hvl : adjVec.length = ws.length)
    (hvsz : ∀ i, i < ws.length →
      (adjVec.getD i []).length = (ws.getD i Weights.zero).m.rows)
    (hdl : weightDeltas.length = ws.length)
    (hdsz : ∀ i, i < ws.length →
      (weightDeltas.getD i ⟨0, 0, []⟩).rows = (ws.getD i Weights.zero).m.rows ∧
      (weightDeltas.getD i ⟨0, 0, []⟩).cols = (ws.getD i Weights.zero).m.cols) :
    (∃ u, (List.range ws.length).reverse.foldlM (trainUpdateStep lr input a e)
        { weights := ws, adjVec := adjVec, weightDeltas := weightDeltas } = .ok u) ∨
    ((List.range ws.length).reverse.foldlM (trainUpdateStep lr input a e)
        { weights := ws, adjVec := adjVec, weightDeltas := weightDeltas }
      = .error nilDereference ∧
      ∃ i, i < ws.length ∧ (ws.getD i Weights.zero).derivFunc = none) := by
  have h := forDown_safe nilDereference
    (∃ i, i < ws.length ∧ (ws.getD i Weights.zero).derivFunc = none)
    (fun k (u : UpdateState R) =>
      u.weights.length = ws.length ∧ u.adjVec.length = ws.length ∧
      u.weightDeltas.length = ws.length ∧
      (∀ j, j < k → u.weights.getD j Weights.zero = ws.getD j Weights.zero ∧
        u.adjVec.getD j [] = adjVec.getD j [] ∧
        u.weightDeltas.getD j ⟨0, 0, []⟩ = weightDeltas.getD j ⟨0, 0, []⟩))
    (trainUpdateStep lr input a e) ws.length
    { weights := ws, adjVec := adjVec, weightDeltas := weightDeltas }
    ⟨rfl, hvl, hdl, fun j _ => ⟨rfl, rfl, rfl⟩⟩
    (by
      rintro i u hi ⟨h1, h2, h3, hlow⟩
      obtain ⟨hw, hv, hd⟩ := hlow i (Nat.lt_succ_self i)
      obtain ⟨⟨hr, hc, hdata⟩, hrpos, hcpos⟩ := hS i hi
      cases hder : (ws.getD i Weights.zero).derivFunc with
      | none =>
        right
        exact ⟨trainUpdateStep_nil lr input a e ws u i hi h1 hw hder hal hel
          (by rw [hasz i hi]; exact hrpos) (by rw [hesz i hi]; exact hrpos) h2, i, hi, hder⟩
      | some d =>
        left
        have hWi : (ws.getD i Weights.zero).WellFormed :=
          ⟨hr, hc, hrpos, hcpos, hdata, hact i hi, by rw [hder]; rfl⟩
        have hstep := trainUpdateStep_ok lr input a e ws u i hi hWi h1 hw hal hel
          (hasz i hi) (hesz i hi) h2 (by rw [hv]; exact hvsz i hi) h3
          (by rw [hd]; exact (hdsz i hi).1) (by rw [hd]; exact (hdsz i hi).2)
          (layerInput_length ws input a hc0 hcs i hi (fun j hj => hasz j (by omega)))
        refine ⟨_, hstep, by simp [h1], by simp [h2], by simp [h3], ?_⟩
        intro j hj
        simp only
        rw [getD_set_ne _ _ _ _ _ (by omega), getD_set_ne _ _ _ _ _ (by omega),
          getD_set_ne _ _ _ _ _ (by omega)]
        exact hlow j (by omega))
  rcases h with ⟨u, hrun, -⟩ | herr
  · exact Or.inl ⟨u, hrun⟩
  · exact Or.inr herr

/-- A call of `Train` on matrices, vectors and buffers of the right sizes returns or
stops at the call of a nil function value. -/
theorem Train_safe_of_sizes (M : MathLib R) (st : TrainState R)
    (hpos : 0 < st.nn.weights.length)
    (hS : ∀ i, i < st.nn.weights.length → (st.nn.weights.getD i Weights.zero).Shaped ∧
      0 < (st.nn.weights.getD i Weights.zero).m.rows ∧
      0 < (st.nn.weights.getD i Weights.zero).m.cols)
    (hc0 : (st.nn.weights.getD 0 Weights.zero).m.cols = st.input.length)
    (hcs : ∀ i, i + 1 < st.nn.weights.length →
      (st.nn.weights.getD (i + 1) Weights.zero).m.cols
        = (st.nn.weights.getD i Weights.zero).m.rows)
    (htgt : st.target.length
      = (st.nn.weights.getD (st.nn.weights.length - 1) Weights.zero).m.rows)
    (hol : st.outputs.length = st.nn.weights.length)
    (hosz : ∀ i, i < st.nn.weights.length →
      (st.outputs.getD i []).length = (st.nn.weights.getD i Weights.zero).m.rows)
    (hel : st.errors.length = st.nn.weights.length)
    (hesz : ∀ i, i < st.nn.weights.length →
      (st.errors.getD i []).length = (st.nn.weights.getD i Weights.zero).m.rows)
    (hvl : st.adjVec.length = st.nn.weights.length)
    (hvsz : ∀ i, i < st.nn.weights.length →
      (st.adjVec.getD i []).length = (st.nn.weights.getD i Weights.zero).m.rows)
    (hdl : st.weightDeltas.length = st.nn.weights.length)
    (hdsz : ∀ i, i < st.nn.weights.length →
      (st.weightDeltas.getD i ⟨0, 0, []⟩).rows = (st.nn.weights.getD i Weights.zero).m.rows ∧
      (st.weightDeltas.getD i ⟨0, 0, []⟩).cols = (st.nn.weights.getD i Weights.zero).m.cols) :
    (∃ st1, Train M st = .ok st1) ∨
    (Train M st = .error nilDereference ∧
      ∃ i, i < st.nn.weights.length ∧
        ((st.nn.weights.getD i Weights.zero).actFunc = none
          ∨ (st.nn.weights.getD i Weights.zero).derivFunc = none)) := by
  rcases trainForward_safe M st.nn.weights st.input st.outputs (fun i hi => (hS i hi).2.1)
    hc0 hcs hol hosz with ⟨a, hfwd, hal, hasz, hact⟩ | ⟨hfail, i, hi, hnil⟩
  · obtain ⟨e, herr, hetr, hesz2⟩ := trainErrors_ok st.nn.weights st.target a st.errors hpos
      (fun i hi => (hS i hi).2) hcs hal (hasz _ (by omega)) htgt hel hesz
    rcases trainUpdate_safe st.nn.LearningRate st.input a e st.nn.weights st.adjVec
      st.weightDeltas hS hact hc0 hcs hal hetr.1 hasz hesz2 hvl hvsz hdl hdsz
      with ⟨u, hu⟩ | ⟨hupd, i, hi, hnil⟩
    · left
      refine Exists.intro (TrainState.mk
        ⟨st.nn.InputNodes, st.nn.OutputNodes, st.nn.LearningRate, u.weights⟩ st.input
        st.target a e u.adjVec u.weightDeltas) ?_
      unfold Train
      rw [hfwd, except_ok_bind, herr, except_ok_bind, hu, except_ok_bind]
      rfl
    · right
      refine ⟨?_, i, hi, Or.inr hnil⟩
      unfold Train
      rw [hfwd, except_ok_bind, herr, except_ok_bind, hupd]
      rfl
  · right
    refine ⟨?_, i, hi, Or.inl hnil⟩
    unfold Train
    rw [hfail]
    rfl

end nn

namespace nn
open mat dataset
variable {R : Type} [LinearOrderedField R]

/-- The layer-dimension chain, by index. -/
theorem NeuralNetwork.Chain.chain_facts {nn : NeuralNetwork R} (h : nn.Chain) :
    0 < nn.weights.length ∧
    (nn.weights.getD 0 Weights.zero).LNodes = nn.InputNodes ∧
    (∀ i, i + 1 < nn.weights.length →
      (nn.weights.getD i Weights.zero).RNodes = (nn.weights.getD (i + 1) Weights.zero).LNodes) ∧
    (nn.weights.getD (nn.weights.length - 1) Weights.zero).RNodes = nn.OutputNodes := by
  obtain ⟨hhead, hchain, hlast⟩ := h
  have hpos : 0 < nn.weights.length := by
    cases hw : nn.weights with
    | nil => simp [hw] at hhead
    | cons w ws => simp
  refine ⟨hpos, ?_, ?_, ?_⟩
  · rw [List.head?_eq_getElem?, List.getElem?_eq_getElem hpos] at hhead
    rw [List.getD_eq_getElem _ _ hpos]
    simpa using hhead
  · intro i hi
    rw [List.getD_eq_getElem _ _ (by omega : i < nn.weights.length),
      List.getD_eq_getElem _ _ hi]
    have h1 : i < (nn.weights.dropLast.map (·.RNodes)).length := by
      simp only [List.length_map, List.length_dropLast]
      omega
    have h2 : i < (nn.weights.tail.map (·.LNodes)).length := by
      simp only [List.length_map, List.length_tail]
      omega
    have h3 : (nn.weights.dropLast.map (·.RNodes))[i] = (nn.weights.tail.map (·.LNodes))[i] := by
      simp only [hchain]
    simpa [List.getElem_dropLast, List.getElem_tail] using h3
  · rw [List.getLast?_eq_getElem?,
      List.getElem?_eq_getElem (by omega : nn.weights.length - 1 < nn.weights.length)] at hlast
    rw [List.getD_eq_getElem _ _ (by omega : nn.weights.length - 1 < nn.weights.length)]
    simp only [Option.map_some', Option.some.injEq, Prod.mk.injEq] at hlast
    exact hlast.1

theorem NewVecDense_none_eq_ok {n : Int} {v : VecDense R} (h : NewVecDense n none = .ok v) :
    0 < n ∧ (v.length : Int) = n := by
  unfold NewVecDense at h
  by_cases h1 : n ≤ 0
  · rw [if_pos h1] at h
    split_ifs at h
  · rw [if_neg h1] at h
    simp only [Except.ok.injEq] at h
    subst h
    refine ⟨by omega, ?_⟩
    rw [List.length_replicate]
    omega

theorem NewDense_none_eq_ok {r c : Int} {d : Dense R} (h : NewDense r c none = .ok d) :
    0 < r ∧ 0 < c ∧ (d.rows : Int) = r ∧ (d.cols : Int) = c := by
  unfold NewDense at h
  by_cases h1 : r ≤ 0 ∨ c ≤ 0
  · rw [if_pos h1] at h
    split_ifs at h
  · rw [if_neg h1] at h
    simp only at h
    by_cases h2 : wrapInt (r * c) < 0 ∨ maxFloat64s < wrapInt (r * c)
    · rw [if_pos h2] at h
      cases h
    · rw [if_neg h2] at h
      simp only [Except.ok.injEq] at h
      subst h
      have hr : 0 < r := by omega
      have hc : 0 < c := by omega
      exact ⟨hr, hc, by simp only; omega, by simp only; omega⟩

/-- What the allocation loop of `TrainWithDataset` builds for one layer. -/
theorem allocLayer_eq_ok {w : Weights R} {p : VecDense R × VecDense R × VecDense R × Dense R}
    (h : allocLayer w = .ok p) :
    0 < w.RNodes ∧ 0 < w.LNodes ∧ (p.1.length : Int) = w.RNodes ∧
    (p.2.1.length : Int) = w.RNodes ∧ (p.2.2.1.length : Int) = w.RNodes ∧
    (p.2.2.2.rows : Int) = w.RNodes ∧ (p.2.2.2.cols : Int) = w.LNodes := by
  unfold allocLayer at h
  obtain ⟨o, ho, h⟩ := except_bind_eq_ok h
  obtain ⟨e, he, h⟩ := except_bind_eq_ok h
  obtain ⟨a, ha, h⟩ := except_bind_eq_ok h
  obtain ⟨d, hd, h⟩ := except_bind_eq_ok h
  simp only [pure, Except.pure, Except.ok.injEq] at h
  subst h
  obtain ⟨hr, ho⟩ := NewVecDense_none_eq_ok ho
  obtain ⟨-, he⟩ := NewVecDense_none_eq_ok he
  obtain ⟨-, ha⟩ := NewVecDense_none_eq_ok ha
  obtain ⟨-, hc, hdr, hdc⟩ := NewDense_none_eq_ok hd
  exact ⟨hr, hc, ho, he, ha, hdr, hdc⟩

theorem mapM_eq_ok {α β : Type} (f : α → Except Failure β) (l : List α) :
    ∀ ys : List β, l.mapM f = .ok ys → List.Forall₂ (fun x y => f x = .ok y) l ys := by
  induction l with
  | nil =>
    intro ys h
    simp only [List.mapM_nil, pure, Except.pure, Except.ok.injEq] at h
    subst h
    exact List.Forall₂.nil
  | cons x xs ih =>
    intro ys h
    rw [List.mapM_cons] at h
    obtain ⟨y, hy, h⟩ := except_bind_eq_ok h
    obtain ⟨zs, hzs, h⟩ := except_bind_eq_ok h
    simp only [pure, Except.pure, Except.ok.injEq] at h
    subst h
    exact List.Forall₂.cons hy (ih zs hzs)

theorem forall₂_map_eq {α β γ : Type} {P : α → β → Prop} {l : List α} {ys : List β}
    (h : List.Forall₂ P l ys) (f : β → γ) (g : α → γ) (hfg : ∀ x y, P x y → f y = g x) :
    ys.map f = l.map g := by
  induction h with
  | nil => rfl
  | cons hxy _ ih => rw [List.map_cons, List.map_cons, hfg _ _ hxy, ih]

theorem forall₂_left {α β : Type} {P : α → β → Prop} {Q : α → Prop} {l : List α}
    {ys : List β} (h : List.Forall₂ P l ys) (hPQ : ∀ x y, P x y → Q x) : ∀ x ∈ l, Q x := by
  induction h with
  | nil => intro x hx; cases hx
  | cons hxy _ ih =>
    intro x hx
    rcases List.mem_cons.1 hx with rfl | hx
    · exact hPQ _ _ hxy
    · exact ih x hx

/-- The buffers that `TrainWithDataset` allocates for a network whose last layer ends
in `OutputNodes`: every layer has positive sizes and the buffers have the sizes of the
layers. -/
theorem allocBuffers_eq_ok {nn : NeuralNetwork R} {b : Buffers R}
    (h : allocBuffers nn = .ok b)
    (hlast : (nn.weights.getD (nn.weights.length - 1) Weights.zero).RNodes = nn.OutputNodes) :
    (∀ w ∈ nn.weights, 0 < w.RNodes ∧ 0 < w.LNodes) ∧
    b.outputs.map (fun o => (o.length : Int)) = nn.weights.map (·.RNodes) ∧
    b.errors.map (fun o => (o.length : Int)) = nn.weights.map (·.RNodes) ∧
    b.adjVec.map (fun o => (o.length : Int)) = nn.weights.map (·.RNodes) ∧
    b.weightDeltas.map (fun d => ((d.rows : Int), (d.cols : Int)))
      = nn.weights.map (fun w => (w.RNodes, w.LNodes)) := by
  unfold allocBuffers at h
  obtain ⟨layers, hlayers, h⟩ := except_bind_eq_ok h
  obtain ⟨last, hlastv, h⟩ := except_bind_eq_ok h
  obtain ⟨errors, herrors, h⟩ := except_bind_eq_ok h
  simp only [pure, Except.pure, Except.ok.injEq] at h
  subst h
  have hall := mapM_eq_ok allocLayer nn.weights layers hlayers
  have herr0 : (layers.map (·.2.1)).map (fun o => (o.length : Int)) = nn.weights.map (·.RNodes) := by
    rw [List.map_map]
    exact forall₂_map_eq hall _ _ (fun w p hp => (allocLayer_eq_ok hp).2.2.2.1)
  refine ⟨forall₂_left hall (fun w p hp => ⟨(allocLayer_eq_ok hp).1, (allocLayer_eq_ok hp).2.1⟩),
    ?_, ?_, ?_, ?_⟩
  · simp only [List.map_map]
    exact forall₂_map_eq hall _ _ (fun w p hp => (allocLayer_eq_ok hp).2.2.1)
  · obtain ⟨hz, hlt, hset⟩ := setIndex_eq_ok herrors
    simp only
    rw [hset, ← herr0]
    simp only [List.length_map] at hz hlt
    have hidx : (((layers.length : Int) - 1).toNat) = layers.length - 1 := by omega
    simp only [List.length_map, hidx]
    obtain ⟨hlen, hpt⟩ := map_eq_map_getD _ _ herr0 [] Weights.zero
    simp only [List.length_map] at hlen
    have hi : layers.length - 1 < (layers.map (·.2.1)).length := by
      simp only [List.length_map]; omega
    apply map_set_of_eq _ _ _ ((layers.map (·.2.1)).getD (layers.length - 1) []) _
      (getElem?_of_lt_getD [] hi)
    have h1 := hpt (layers.length - 1) (by omega)
    simp only at h1
    rw [h1, hlen, hlast]
    exact (NewVecDense_none_eq_ok hlastv).2
  · simp only [List.map_map]
    exact forall₂_map_eq hall _ _ (fun w p hp => (allocLayer_eq_ok hp).2.2.2.2.1)
  · simp only [List.map_map]
    exact forall₂_map_eq hall _ _ (fun w p hp => by
      obtain ⟨-, -, -, -, -, h1, h2⟩ := allocLayer_eq_ok hp
      simp only [Function.comp, h1, h2])

/-- The sizes of a list of vectors that has the lengths of the buffers `bs`, which
have the lengths `RNodes` of the layers `ws` of shaped matrices. -/
theorem buffer_sizes (ws : List (Weights R)) (xs bs : List (VecDense R))
    (hrows : ∀ i, i < ws.length →
      ((ws.getD i Weights.zero).m.rows : Int) = (ws.getD i Weights.zero).RNodes)
    (hxs : xs.map List.length = bs.map List.length)
    (hbs : bs.map (fun o => (o.length : Int)) = ws.map (·.RNodes)) :
    xs.length = ws.length ∧ ∀ i, i < ws.length →
      (xs.getD i []).length = (ws.getD i Weights.zero).m.rows := by
  obtain ⟨hl1, hp1⟩ := map_eq_map_getD _ _ hxs [] []
  obtain ⟨hl2, hp2⟩ := map_eq_map_getD _ _ hbs [] Weights.zero
  refine ⟨by omega, fun i hi => ?_⟩
  have h1 := hp1 i (by omega)
  have h2 := hp2 i hi
  simp only at h2
  have : (((xs.getD i []).length : Nat) : Int) = ((ws.getD i Weights.zero).m.rows : Int) := by
    rw [h1, h2, hrows i hi]
  exact_mod_cast this

/-- When the network satisfies the layer-dimension chain, every matrix has the shape
`RNodes × LNodes`, the buffers have the sizes of those that `TrainWithDataset` allocates
for this network, the input has `InputNodes` and the target `OutputNodes` entries, then
every index access and every matrix or vector operation of `Train` is in bounds and
dimension-compatible: `Train` returns, and the one way in which it can stop instead is
the call through a nil function value of a layer. -/
theorem Train_returns_or_nil (M : MathLib R) (st : TrainState R) (b : Buffers R)
    (hchain : st.nn.Chain) (hshape : ∀ w ∈ st.nn.weights, w.Shaped)
    (halloc : allocBuffers st.nn = .ok b) (hsized : st.SizedAs b)
    (hin : (st.input.length : Int) = st.nn.InputNodes)
    (htg : (st.target.length : Int) = st.nn.OutputNodes) :
    (∃ st1, Train M st = .ok st1) ∨
    (Train M st = .error nilDereference ∧
      ∃ w ∈ st.nn.weights, w.actFunc = none ∨ w.derivFunc = none) := by
  obtain ⟨hpos, hfirst, hadj, hlast⟩ := hchain.chain_facts
  obtain ⟨hposn, hbo, hbe, hba, hbd⟩ := allocBuffers_eq_ok halloc hlast
  obtain ⟨hso, hse, hsa, hsd⟩ := hsized
  have hmem : ∀ i, i < st.nn.weights.length →
      st.nn.weights.getD i Weights.zero ∈ st.nn.weights := by
    intro i hi
    rw [List.getD_eq_getElem _ _ hi]
    exact List.getElem_mem hi
  have hrows : ∀ i, i < st.nn.weights.length →
      ((st.nn.weights.getD i Weights.zero).m.rows : Int)
        = (st.nn.weights.getD i Weights.zero).RNodes :=
    fun i hi => (hshape _ (hmem i hi)).1
  have hcols : ∀ i, i < st.nn.weights.length →
      ((st.nn.weights.getD i Weights.zero).m.cols : Int)
        = (st.nn.weights.getD i Weights.zero).LNodes :=
    fun i hi => (hshape _ (hmem i hi)).2.1
  obtain ⟨hol, hosz⟩ := buffer_sizes st.nn.weights st.outputs b.outputs hrows hso hbo
  obtain ⟨hel, hesz⟩ := buffer_sizes st.nn.weights st.errors b.errors hrows hse hbe
  obtain ⟨hvl, hvsz⟩ := buffer_sizes st.nn.weights st.adjVec b.adjVec hrows hsa hba
  have hd1 := map_eq_map_getD _ _ hsd ⟨0, 0, []⟩ ⟨0, 0, []⟩
  have hd2 := map_eq_map_getD _ _ hbd ⟨0, 0, []⟩ Weights.zero
  have hdl : st.weightDeltas.length = st.nn.weights.length := by omega
  have hsafe := Train_safe_of_sizes M st hpos
    (fun i hi => by
      obtain ⟨hr, hl⟩ := hposn _ (hmem i hi)
      have h1 := hrows i hi
      have h2 := hcols i hi
      exact ⟨hshape _ (hmem i hi), by omega, by omega⟩)
    (by
      have h2 := hcols 0 hpos
      have : ((st.nn.weights.getD 0 Weights.zero).m.cols : Int) = (st.input.length : Int) := by
        rw [h2, hfirst, hin]
      exact_mod_cast this)
    (fun i hi => by
      have h1 := hrows i (by omega)
      have h2 := hcols (i + 1) hi
      have : ((st.nn.weights.getD (i + 1) Weights.zero).m.cols : Int)
          = ((st.nn.weights.getD i Weights.zero).m.rows : Int) := by
        rw [h2, h1, hadj i hi]
      exact_mod_cast this)
    (by
      have h1 := hrows (st.nn.weights.length - 1) (by omega)
      have : ((st.target.length : Nat) : Int)
          = ((st.nn.weights.getD (st.nn.weights.length - 1) Weights.zero).m.rows : Int) := by
        rw [htg, h1, hlast]
      exact_mod_cast this)
    hol hosz hel hesz hvl hvsz hdl
    (fun i hi => by
      have h1 := hd1.2 i (by omega)
      have h2 := hd2.2 i hi
      simp only [Prod.mk.injEq] at h1 h2
      have h3 := hrows i hi
      have h4 := hcols i hi
      constructor
      · have : (((st.weightDeltas.getD i ⟨0, 0, []⟩).rows : Nat) : Int)
            = ((st.nn.weights.getD i Weights.zero).m.rows : Int) := by
          rw [h1.1, h2.1, h3]
        exact_mod_cast this
      · have : (((st.weightDeltas.getD i ⟨0, 0, []⟩).cols : Nat) : Int)
            = ((st.nn.weights.getD i Weights.zero).m.cols : Int) := by
          rw [h1.2, h2.2, h4]
        exact_mod_cast this)
  rcases hsafe with hok | ⟨herr, i, hi, hnil⟩
  · exact Or.inl hok
  · exact Or.inr ⟨herr, _, hmem i hi, hnil⟩

/-- C17 counterexample: `networkNilActivation` satisfies the layer-dimension chain, its
matrices have the shape `RNodes × LNodes`, the buffers are those that `TrainWithDataset`
allocates for it, the input and the target have one entry as the network has one input
and one output node, and `Train` does not complete: it stops at the call of the nil
function value of the first layer. -/
theorem Train_nil_function_stops :
    trainStateNilActivation.nn.Chain ∧
    (∀ w ∈ trainStateNilActivation.nn.weights, w.Shaped) ∧
    allocBuffers trainStateNilActivation.nn = .ok buffersNilActivation ∧
    trainStateNilActivation.SizedAs buffersNilActivation ∧
    (trainStateNilActivation.input.length : Int) = trainStateNilActivation.nn.InputNodes ∧
    (trainStateNilActivation.target.length : Int) = trainStateNilActivation.nn.OutputNodes ∧
    NewNeuralNetwork ratMath rng0 settingsUnknownActivation = .ok trainStateNilActivation.nn ∧
    Train ratMath trainStateNilActivation = .error nilDereference ∧
    ¬ ∃ st1, Train ratMath trainStateNilActivation = .ok st1 := by
  have hstop : Train ratMath trainStateNilActivation = .error nilDereference := by decide!
  refine ⟨by decide!, by decide!, by decide!, by decide!, by decide!, by decide!, by decide!,
    hstop, ?_⟩
  rintro ⟨st1, h⟩
  rw [hstop] at h
  cases h

/-- C17 (amended): when the network satisfies the layer-dimension chain, every matrix
has the shape `RNodes × LNodes`, both function values of every layer are non-nil, the
buffers have the sizes of those that `TrainWithDataset` allocates for this network, the
input has `InputNodes` and the target `OutputNodes` entries, then every index access and
every matrix or vector operation of `Train` is in bounds and dimension-compatible, and
`Train` completes. -/
theorem Train_dimension_safe (M : MathLib R) (st : TrainState R) (b : Buffers R)
    (hchain : st.nn.Chain) (hshape : ∀ w ∈ st.nn.weights, w.Shaped)
    (hfun : ∀ w ∈ st.nn.weights, w.actFunc ≠ none ∧ w.derivFunc ≠ none)
    (halloc : allocBuffers st.nn = .ok b) (hsized : st.SizedAs b)
    (hin : (st.input.length : Int) = st.nn.InputNodes)
    (htg : (st.target.length : Int) = st.nn.OutputNodes) :
    ∃ st1, Train M st = .ok st1 := by
  rcases Train_returns_or_nil M st b hchain hshape halloc hsized hin htg with
    hok | ⟨-, w, hw, hnil⟩
  · exact hok
  · exfalso
    rcases hnil with h | h
    · exact (hfun w hw).1 h
    · exact (hfun w hw).2 h

/-- C17 witness: `Train` returns on `network0` with the buffers that `TrainWithDataset`
allocates for it. -/
theorem Train_dimension_safe_witness :
    trainState0.nn.Chain ∧ (∀ w ∈ trainState0.nn.weights, w.Shaped) ∧
    (∀ w ∈ trainState0.nn.weights, w.actFunc ≠ none ∧ w.derivFunc ≠ none) ∧
    allocBuffers trainState0.nn = .ok buffers0 ∧ trainState0.SizedAs buffers0 ∧
    (trainState0.input.length : Int) = trainState0.nn.InputNodes ∧
    (trainState0.target.length : Int) = trainState0.nn.OutputNodes ∧
    ∃ st1, Train ratMath trainState0 = .ok st1 :=
  ⟨by decide!, by decide!, by decide!, by decide!, by decide!, by decide!, by decide!,
   Train_dimension_safe ratMath trainState0 buffers0 (by decide!) (by decide!) (by decide!)
     (by decide!) (by decide!) (by decide!) (by decide!)⟩

end nn

/-! ## `Train`: what a call that returned has computed for a `Relu` layer -/

section DownLoop

variable {σ : Type}

/-- A downward `for` loop that returned has kept every invariant its body keeps. -/
theorem forDown_of_ok (Inv : Nat → σ → Prop) (f : σ → Nat → Except Failure σ) (n : Nat)
    (s0 t : σ) (h0 : Inv n s0)
    (hstep : ∀ i s u, i < n → Inv (i + 1) s → f s i = .ok u → Inv i u)
    (h : (List.range n).reverse.foldlM f s0 = .ok t) : Inv 0 t := by
  induction n generalizing s0 with
  | zero =>
    simp [pure, Except.pure] at h
    exact h ▸ h0
  | succ n ih =>
    rw [foldlM_range_reverse_succ] at h
    obtain ⟨u, hu, hf⟩ := except_bind_eq_ok h
    exact ih u (hstep n s0 u (Nat.lt_succ_self n) h0 hu)
      (fun i s v hi => hstep i s v (Nat.lt_succ_of_lt hi)) hf

end DownLoop

namespace nn
open mat
variable {R : Type} [LinearOrderedField R]

theorem index_eq_ok_nat {α : Type} {xs : List α} {i : Nat} {x : α}
    (h : index xs (i : Int) = .ok x) : xs[i]? = some x := by
  have := (index_eq_ok h).2
  rwa [Int.toNat_ofNat] at this

theorem setIndex_eq_ok_nat {α : Type} {xs ys : List α} {i : Nat} {v : α}
    (h : setIndex xs (i : Int) v = .ok ys) : i < xs.length ∧ ys = xs.set i v := by
  obtain ⟨-, h1, h2⟩ := setIndex_eq_ok h
  rw [Int.toNat_ofNat] at h1 h2
  exact ⟨h1, h2⟩

theorem VecDense.AtVec_eq_ok {v : VecDense R} {j : Nat} {x : R}
    (h : VecDense.AtVec v j = .ok x) : j < v.length ∧ x = v.getD j 0 := by
  unfold VecDense.AtVec at h
  cases hv : v[j]? with
  | none => rw [hv] at h; cases h
  | some y =>
    rw [hv] at h
    obtain ⟨hj, -⟩ := List.getElem?_eq_some_iff.1 hv
    exact ⟨hj, by rw [getD_of_getElem? 0 hv]; exact (Except.ok.inj h).symm⟩

/-- One iteration of "Feed forward" that returned has put the result of the
activation function of layer `i` into `outputs[i]`. -/
theorem trainForwardStep_eq_ok {M : MathLib R} {ws : List (Weights R)} {input : VecDense R}
    {outs outs1 : List (VecDense R)} {i : Nat}
    (h : trainForwardStep M ws input outs i = .ok outs1) :
    i < outs.length ∧ ∃ (w : Weights R) (v o : VecDense R), ws[i]? = some w ∧
      callActFunc M w.actFunc v = .ok o ∧ outs1 = outs.set i o := by
  unfold trainForwardStep at h
  obtain ⟨out0, -, h⟩ := except_bind_eq_ok h
  obtain ⟨w, hw, h⟩ := except_bind_eq_ok h
  obtain ⟨v, -, h⟩ := except_bind_eq_ok h
  obtain ⟨o, ho, h⟩ := except_bind_eq_ok h
  obtain ⟨hlt, hset⟩ := setIndex_eq_ok_nat h
  exact ⟨hlt, w, v, o, index_eq_ok_nat hw, ho, hset⟩

/-- After a loop "Feed forward" that returned, the outputs of a layer whose activation
function is `relu` are not negative. -/
theorem trainForward_relu_nonneg {M : MathLib R} {ws : List (Weights R)} {input : VecDense R}
    {outputs a : List (VecDense R)} (h : trainForward M ws input outputs = .ok a) :
    ∀ (i : Nat) (w : Weights R), ws[i]? = some w → w.actFunc = some .relu →
      ∀ y ∈ a.getD i [], 0 ≤ y := by
  have hInv := forRange_of_ok
    (fun k (outs : List (VecDense R)) => ∀ (i : Nat) (w : Weights R), i < k →
      ws[i]? = some w → w.actFunc = some .relu → ∀ y ∈ outs.getD i [], 0 ≤ y)
    (trainForwardStep M ws input) ws.length outputs a
    (fun i w hi => absurd hi (Nat.not_lt_zero i))
    (by
      intro k outs outs1 hk hInv hstep i w hi hw hact
      obtain ⟨hlt, w1, v, o, hw1, hcall, hset⟩ := trainForwardStep_eq_ok hstep
      subst hset
      by_cases hik : i = k
      · subst hik
        rw [getD_set_eq outs i o [] hlt]
        have hww : w = w1 := by
          rw [hw] at hw1
          exact Option.some.inj hw1
        subst hww
        rw [hact] at hcall
        exact relu_output_nonneg M v o hcall
      · rw [getD_set_ne outs k i o [] hik]
        exact hInv i w (by omega) hw hact)
    h
  intro i w hw hact
  exact hInv i w (List.getElem?_eq_some_iff.1 hw).1 hw hact

/-- One iteration of the inner loop of "Update weights" that returned has written
entry `j` of `adjVec[i]`. -/
theorem trainAdjStep_eq_ok {ws : List (Weights R)} {outputs errors av av1 : List (VecDense R)}
    {i j : Nat} (h : trainAdjStep ws outputs errors i av j = .ok av1) :
    ∃ (w : Weights R) (dv : R), ws[i]? = some w ∧
      callDerivFunc w.derivFunc ((outputs.getD i []).getD j 0) = .ok dv ∧
      i < av.length ∧ j < (av.getD i []).length ∧ j < (outputs.getD i []).length ∧
      av1 = av.set i ((av.getD i []).set j ((errors.getD i []).getD j 0 * dv)) := by
  unfold trainAdjStep at h
  obtain ⟨adj, hadj, h⟩ := except_bind_eq_ok h
  obtain ⟨e, he, h⟩ := except_bind_eq_ok h
  obtain ⟨ej, hej, h⟩ := except_bind_eq_ok h
  obtain ⟨w, hw, h⟩ := except_bind_eq_ok h
  obtain ⟨o, ho, h⟩ := except_bind_eq_ok h
  obtain ⟨oj, hoj, h⟩ := except_bind_eq_ok h
  obtain ⟨dv, hdv, h⟩ := except_bind_eq_ok h
  obtain ⟨adj1, hadj1, h⟩ := except_bind_eq_ok h
  obtain ⟨hlt, hset⟩ := setIndex_eq_ok_nat h
  have hadj2 := getD_of_getElem? [] (index_eq_ok_nat hadj)
  have he2 := getD_of_getElem? [] (index_eq_ok_nat he)
  have ho2 := getD_of_getElem? [] (index_eq_ok_nat ho)
  obtain ⟨-, hej2⟩ := VecDense.AtVec_eq_ok hej
  obtain ⟨hjo, hoj2⟩ := VecDense.AtVec_eq_ok hoj
  unfold VecDense.SetVec at hadj1
  split_ifs at hadj1 with hj
  have hadj3 := Except.ok.inj hadj1
  subst hset hadj3 hej2 hoj2 hadj2 he2 ho2
  exact ⟨w, dv, index_eq_ok_nat hw, hdv, hlt, hj, hjo, rfl⟩

/-- The inner loop of "Update weights" that returned, on a layer whose derivative
function is `reluD` and whose outputs are not negative, has copied the errors of the
layer into `adjVec[i]`, and has left the other vectors of `adjVec` as they were. -/
theorem trainAdj_relu {ws : List (Weights R)} {outputs errors av av1 : List (VecDense R)}
    {i n : Nat} (h : (List.range n).foldlM (trainAdjStep ws outputs errors i) av = .ok av1) :
    (∀ k, k ≠ i → av1.getD k [] = av.getD k []) ∧
    ∀ (w : Weights R), ws[i]? = some w → w.derivFunc = some .reluD →
      (∀ y ∈ outputs.getD i [], 0 ≤ y) →
      ∀ j, j < n → (av1.getD i []).getD j 0 = (errors.getD i []).getD j 0 := by
  have hInv := forRange_of_ok
    (fun m (x : List (VecDense R)) => (∀ k, k ≠ i → x.getD k [] = av.getD k []) ∧
      ∀ (w : Weights R), ws[i]? = some w → w.derivFunc = some .reluD →
        (∀ y ∈ outputs.getD i [], 0 ≤ y) →
        ∀ j, j < m → (x.getD i []).getD j 0 = (errors.getD i []).getD j 0)
    (trainAdjStep ws outputs errors i) n av av1
    ⟨fun k _ => rfl, fun w _ _ _ j hj => absurd hj (Nat.not_lt_zero j)⟩
    (by
      rintro m x x1 hm ⟨hfr, hInv⟩ hstep
      obtain ⟨w1, dv, hw1, hdv, hlt, hjl, hjo, hset⟩ := trainAdjStep_eq_ok hstep
      subst hset
      refine ⟨fun k hk => ?_, ?_⟩
      · rw [getD_set_ne _ _ _ _ _ hk]
        exact hfr k hk
      · intro w hw hd hnn j hj
        rw [getD_set_eq _ _ _ _ hlt]
        have hww : w = w1 := by
          rw [hw] at hw1
          exact Option.some.inj hw1
        subst hww
        by_cases hjm : j = m
        · subst hjm
          rw [getD_set_eq _ _ _ _ hjl]
          rw [hd] at hdv
          have hdv2 : dv = reluD ((outputs.getD i []).getD j 0) := (Except.ok.inj hdv).symm
          have hge : (0 : R) ≤ (outputs.getD i []).getD j 0 := by
            rw [List.getD_eq_getElem _ _ hjo]
            exact hnn _ (List.getElem_mem hjo)
          rw [hdv2, reluD_of_nonneg _ hge, mul_one]
        · rw [getD_set_ne _ _ _ _ _ hjm]
          exact hInv w hw hd hnn j (by omega))
    h
  exact hInv

/-- One iteration of "Update weights" that returned has run the inner loop on
`adjVec`. -/
theorem trainUpdateStep_adjVec {lr : R} {input : VecDense R}
    {outputs errors : List (VecDense R)} {u v : UpdateState R} {i : Nat}
    (h : trainUpdateStep lr input outputs errors u i = .ok v) :
    (List.range (outputs.getD i []).length).foldlM
      (trainAdjStep u.weights outputs errors i) u.adjVec = .ok v.adjVec := by
  unfold trainUpdateStep at h
  obtain ⟨o, ho, h⟩ := except_bind_eq_ok h
  obtain ⟨adjVec, hadj, h⟩ := except_bind_eq_ok h
  obtain ⟨wd, -, h⟩ := except_bind_eq_ok h
  obtain ⟨adj, -, h⟩ := except_bind_eq_ok h
  obtain ⟨wd1, -, h⟩ := except_bind_eq_ok h
  obtain ⟨wd2, -, h⟩ := except_bind_eq_ok h
  obtain ⟨wds, -, h⟩ := except_bind_eq_ok h
  obtain ⟨w, -, h⟩ := except_bind_eq_ok h
  obtain ⟨m, -, h⟩ := except_bind_eq_ok h
  obtain ⟨ws, -, h⟩ := except_bind_eq_ok h
  simp only [pure, Except.pure, Except.ok.injEq] at h
  subst h
  rw [getD_of_getElem? [] (index_eq_ok_nat ho)]
  exact hadj

/-- After a loop "Update weights" that returned, `adjVec[i]` holds the errors of every
layer `i` whose derivative function is `reluD` and whose outputs are not negative. -/
theorem trainUpdate_relu {lr : R} {input : VecDense R} {outputs errors : List (VecDense R)}
    {ws : List (Weights R)} {adjVec : List (VecDense R)} {weightDeltas : List (Dense R)}
    {u : UpdateState R}
    (h : (List.range ws.length).reverse.foldlM (trainUpdateStep lr input outputs errors)
      { weights := ws, adjVec := adjVec, weightDeltas := weightDeltas } = .ok u) :
    ∀ (i : Nat) (w : Weights R), ws[i]? = some w → w.derivFunc = some .reluD →
      (∀ y ∈ outputs.getD i [], 0 ≤ y) →
      ∀ j, j < (outputs.getD i []).length →
        (u.adjVec.getD i []).getD j 0 = (errors.getD i []).getD j 0 := by
  have hInv := forDown_of_ok
    (fun k (x : UpdateState R) => x.weights.map Weights.frame = ws.map Weights.frame ∧
      ∀ (i : Nat) (w : Weights R), k ≤ i → ws[i]? = some w → w.derivFunc = some .reluD →
        (∀ y ∈ outputs.getD i [], 0 ≤ y) →
        ∀ j, j < (outputs.getD i []).length →
          (x.adjVec.getD i []).getD j 0 = (errors.getD i []).getD j 0)
    (trainUpdateStep lr input outputs errors) ws.length
    { weights := ws, adjVec := adjVec, weightDeltas := weightDeltas } u
    ⟨rfl, fun i w hi hw => by
      have := (List.getElem?_eq_some_iff.1 hw).1
      omega⟩
    (by
      rintro k x x1 hk ⟨hfr, hInv⟩ hstep
      have hloop := trainAdj_relu (trainUpdateStep_adjVec hstep)
      refine ⟨(trainUpdateStep_frame hstep).trans hfr, ?_⟩
      intro i w hki hw hd hnn j hj
      by_cases hik : i = k
      · subst hik
        have hget := congrArg (fun l => l[i]?) hfr
        simp only [List.getElem?_map, hw, Option.map_some'] at hget
        cases hx : x.weights[i]? with
        | none => rw [hx] at hget; cases hget
        | some w1 =>
          rw [hx] at hget
          simp only [Option.map_some', Option.some.injEq, Weights.frame, Prod.mk.injEq] at hget
          exact hloop.2 w1 hx (by rw [hget.2.2.2.2.1, hd]) hnn j hj
      · rw [hloop.1 i hik]
        exact hInv i w (by omega) hw hd hnn j hj)
    h
  intro i w hw hd hnn j hj
  exact hInv.2 i w (Nat.zero_le i) hw hd hnn j hj

/-- A call of `Train` that returned has left in `adjVec[i]` the entries of `errors[i]`,
for every layer `i` whose functions are `relu` and `reluD`. -/
theorem Train_relu_of_ok {M : MathLib R} {st st1 : TrainState R} (h : Train M st = .ok st1) :
    ∀ (i : Nat) (w : Weights R), st.nn.weights[i]? = some w →
      w.actFunc = some .relu → w.derivFunc = some .reluD →
      ∀ j, j < (st1.outputs.getD i []).length →
        (st1.adjVec.getD i []).getD j 0 = (st1.errors.getD i []).getD j 0 := by
  unfold Train at h
  obtain ⟨outputs, hfwd, h⟩ := except_bind_eq_ok h
  obtain ⟨errors, -, h⟩ := except_bind_eq_ok h
  obtain ⟨u, hu, h⟩ := except_bind_eq_ok h
  simp only [pure, Except.pure, Except.ok.injEq] at h
  subst h
  intro i w hw hact hd j hj
  exact trainUpdate_relu hu i w hw hd (trainForward_relu_nonneg hfwd i w hw hact) j hj

end nn

namespace nn
open mat
variable {R : Type} [LinearOrderedField R]

/-- C20: `relu` never leaves a negative value, so `reluD` of an activated value is 1
(also for `x < 0`, where the activated value is 0); therefore after every call of
`Train` that returns, for every layer `i` whose activation is `Relu` and every neuron
`j`, `adjVec[i][j]` equals `errors[i][j]`; and a well-formed call of `Train` returns
with `adjVec[i]` equal to `errors[i]` for those layers. -/
theorem Train_relu_adjustment (M : MathLib R) (st : TrainState R) :
    (∀ x : R, 0 ≤ scalarOf (relu : VecProc R) x ∧ reluD (scalarOf (relu : VecProc R) x) = 1) ∧
    (∀ st1, Train M st = .ok st1 →
      ∀ (i : Nat) (w : Weights R), st.nn.weights[i]? = some w → w.ActFunc = Relu →
        (w.actFunc, w.derivFunc) = ActivationFunction.Funcs w.ActFunc →
        ∀ j, j < (st1.outputs.getD i []).length →
          (st1.adjVec.getD i []).getD j 0 = (st1.errors.getD i []).getD j 0) ∧
    (st.WellFormed → ∃ st1, Train M st = .ok st1 ∧
      ∀ (i : Nat) (w : Weights R), st.nn.weights[i]? = some w → w.ActFunc = Relu →
        (w.actFunc, w.derivFunc) = ActivationFunction.Funcs w.ActFunc →
        ∃ adj : VecDense R, st1.adjVec[i]? = some adj ∧ st1.errors[i]? = some adj) := by
  refine ⟨?_, ?_, Train_relu_wellFormed M st⟩
  · intro x
    have h0 : 0 ≤ scalarOf (relu : VecProc R) x := by
      rw [scalarOf_relu]
      split_ifs with h
      · exact le_refl 0
      · exact not_lt.1 h
    exact ⟨h0, reluD_of_nonneg _ h0⟩
  · intro st1 h i w hw hkind hres j hj
    rw [hkind] at hres
    exact Train_relu_of_ok h i w hw (congrArg Prod.fst hres) (congrArg Prod.snd hres) j hj

/-- C20 witness: `networkRelu` on an input that drives both hidden nodes negative. -/
theorem Train_relu_adjustment_witness :
    trainStateRelu.WellFormed ∧
    ∃ st1, Train ratMath trainStateRelu = .ok st1 ∧
      ∀ (i : Nat) (w : Weights ℚ), trainStateRelu.nn.weights[i]? = some w → w.ActFunc = Relu →
        (w.actFunc, w.derivFunc) = ActivationFunction.Funcs w.ActFunc →
        ∃ adj : VecDense ℚ, st1.adjVec[i]? = some adj ∧ st1.errors[i]? = some adj :=
  ⟨by decide!, (Train_relu_adjustment ratMath trainStateRelu).2.2 (by decide!)⟩

end nn
